import Mathlib

/-!
# Array-access delinearization (tsar): embedding and verified properties

Source embedded: `src/src/tsar_array_subscript_delinearize.cpp`.

The symbolic expressions (`SCEV`) and the operations that build them belong to
the external expression provider (LLVM's scalar evolution).  They are taken as a
parameter, the record `ScalarEvolution`, together with the quotient/remainder
helper `divide`; `refSE` is one concrete provider used to evaluate the code on
explicit inputs, `exactSE` a second one that never simplifies.  A failed
assertion, a null operand and a read outside a list are the result `none`.
-/

namespace Tsar

/-! ## Symbolic expressions -/

/-- A symbolic expression of the provider: one constructor per operator kind
(`scConstant`, `scTruncate`, `scZeroExtend`, `scSignExtend`, `scAddExpr`,
`scMulExpr`, `scUDivExpr`, `scAddRecExpr`, `scUMaxExpr`, `scSMaxExpr`,
`scUnknown`, `scCouldNotCompute`).  A type is the bit width of an integer type;
a loop and an opaque value are identified by a number.  An induction expression
keeps its start and its step recurrence. -/
inductive SCEV where
  | constant (ty : Nat) (value : Int)
  | truncate (op : SCEV) (ty : Nat)
  | zeroExtend (op : SCEV) (ty : Nat)
  | signExtend (op : SCEV) (ty : Nat)
  | addExpr (ops : List SCEV)
  | mulExpr (ops : List SCEV)
  | udivExpr (lhs rhs : SCEV)
  | addRecExpr (start step : SCEV) (loop : Nat)
  | umaxExpr (ops : List SCEV)
  | smaxExpr (ops : List SCEV)
  | unknown (ty : Nat) (id : Nat)
  | couldNotCompute
  deriving Repr, Inhabited

namespace SCEV

mutual
/-- Structural equality of expressions (the provider hash-conses expressions, so
pointer equality in the source is structural equality here). -/
def beq : SCEV → SCEV → Bool
  | constant t v, constant t2 v2 => t == t2 && v == v2
  | truncate a t, truncate a2 t2 => beq a a2 && t == t2
  | zeroExtend a t, zeroExtend a2 t2 => beq a a2 && t == t2
  | signExtend a t, signExtend a2 t2 => beq a a2 && t == t2
  | addExpr xs, addExpr ys => beqList xs ys
  | mulExpr xs, mulExpr ys => beqList xs ys
  | udivExpr a b, udivExpr a2 b2 => beq a a2 && beq b b2
  | addRecExpr a b l, addRecExpr a2 b2 l2 => beq a a2 && beq b b2 && l == l2
  | umaxExpr xs, umaxExpr ys => beqList xs ys
  | smaxExpr xs, smaxExpr ys => beqList xs ys
  | unknown t i, unknown t2 i2 => t == t2 && i == i2
  | couldNotCompute, couldNotCompute => true
  | _, _ => false
/-- Structural equality of operand lists. -/
def beqList : List SCEV → List SCEV → Bool
  | [], [] => true
  | x :: xs, y :: ys => beq x y && beqList xs ys
  | _, _ => false
end

/-- The query `isZero`: a constant whose value is zero. -/
def isZero : SCEV → Bool
  | constant _ v => v == 0
  | _ => false

/-- The query `isOne`: a constant whose value is one. -/
def isOne : SCEV → Bool
  | constant _ v => v == 1
  | _ => false

/-- The test `isa<SCEVConstant>`. -/
def isConstant : SCEV → Bool
  | constant _ _ => true
  | _ => false

/-- The test `isa<SCEVCouldNotCompute>`. -/
def isCouldNotCompute : SCEV → Bool
  | couldNotCompute => true
  | _ => false

mutual
/-- The query `getType`: the bit width of the expression's integer type. -/
def getType : SCEV → Nat
  | constant t _ => t
  | truncate _ t => t
  | zeroExtend _ t => t
  | signExtend _ t => t
  | addExpr xs => getTypeHead xs
  | mulExpr xs => getTypeHead xs
  | udivExpr _ r => getType r
  | addRecExpr s _ _ => getType s
  | umaxExpr xs => getTypeHead xs
  | smaxExpr xs => getTypeHead xs
  | unknown t _ => t
  | couldNotCompute => 0
/-- Type of the first operand of an operand list. -/
def getTypeHead : List SCEV → Nat
  | [] => 0
  | x :: _ => getType x
end

end SCEV

/-- Wrap an integer to the signed range of a `w`-bit machine integer. -/
def wrapSigned (w : Nat) (v : Int) : Int := Int.bmod v (2 ^ w)

/-- The provider's `getConstant(Ty, V, isSigned)`: the constant of type `Ty`
holding `V` reduced to the width of `Ty`. -/
def getConstant (ty : Nat) (v : Int) : SCEV := SCEV.constant ty (wrapSigned ty v)

/-- The provider's `getZero(Ty)`. -/
def getZero (ty : Nat) : SCEV := getConstant ty 0

/-- The provider's `getCouldNotCompute()`: the not-computable marker. -/
def getCouldNotCompute : SCEV := SCEV.couldNotCompute

/-- A value of the program used as an index operand: a constant integer, or
the result of some instruction or argument. -/
inductive Value where
  | constantInt (ty : Nat) (v : Int)
  | other (id : Nat)
  deriving Repr, DecidableEq

/-- The operations of the external expression provider that the engine calls.
`divide` is the quotient/remainder helper of the provider's utilities
(`divide(SE, Numerator, Denominator, false)`), returning (quotient, remainder).
`getSCEV` maps an index value of the program to its expression. -/
structure ScalarEvolution where
  getMulExpr : List SCEV → SCEV
  getAddExpr : List SCEV → SCEV
  getTruncateExpr : SCEV → Nat → SCEV
  getSignExtendExpr : SCEV → Nat → SCEV
  getZeroExtendExpr : SCEV → Nat → SCEV
  getTruncateOrZeroExtend : SCEV → Nat → SCEV
  getAddRecExpr : SCEV → SCEV → Nat → SCEV
  getSCEV : Value → SCEV
  divide : SCEV → SCEV → SCEV × SCEV

/-! ## A reference provider

One concrete `ScalarEvolution`, used to run the engine on explicit inputs.  It
folds constant operands, flattens nested sums and products, drops neutral
elements and returns a lone operand as it is; division follows the usual
quotient/remainder scheme (signed division on constants, operand-wise on sums,
products and induction expressions, failure with remainder = numerator
elsewhere). -/

namespace Ref

/-- Operands of a product with nested products opened one level. -/
def flattenMul : List SCEV → List SCEV
  | [] => []
  | SCEV.mulExpr ys :: xs => ys ++ flattenMul xs
  | x :: xs => x :: flattenMul xs

/-- Operands of a sum with nested sums opened one level. -/
def flattenAdd : List SCEV → List SCEV
  | [] => []
  | SCEV.addExpr ys :: xs => ys ++ flattenAdd xs
  | x :: xs => x :: flattenAdd xs

/-- Product of the constant operands of a list. -/
def constProd : List SCEV → Int
  | [] => 1
  | SCEV.constant _ v :: xs => v * constProd xs
  | _ :: xs => constProd xs

/-- Sum of the constant operands of a list. -/
def constSum : List SCEV → Int
  | [] => 0
  | SCEV.constant _ v :: xs => v + constSum xs
  | _ :: xs => constSum xs

/-- The operands of a list that are not constants. -/
def nonConst : List SCEV → List SCEV
  | [] => []
  | SCEV.constant _ _ :: xs => nonConst xs
  | x :: xs => x :: nonConst xs

/-- Reference `getMulExpr`. -/
def getMulExpr (ops : List SCEV) : SCEV :=
  let ty := SCEV.getTypeHead ops
  let flat := flattenMul ops
  let c := wrapSigned ty (constProd flat)
  if c == 0 then SCEV.constant ty 0
  else
    match (if c == 1 then nonConst flat else SCEV.constant ty c :: nonConst flat) with
    | [] => SCEV.constant ty 1
    | [x] => x
    | xs => SCEV.mulExpr xs

/-- Reference `getAddExpr`. -/
def getAddExpr (ops : List SCEV) : SCEV :=
  let ty := SCEV.getTypeHead ops
  let flat := flattenAdd ops
  let c := wrapSigned ty (constSum flat)
  match (if c == 0 then nonConst flat else SCEV.constant ty c :: nonConst flat) with
  | [] => SCEV.constant ty 0
  | [x] => x
  | xs => SCEV.addExpr xs

/-- Reference `getTruncateExpr`. -/
def getTruncateExpr (e : SCEV) (ty : Nat) : SCEV :=
  match e with
  | SCEV.constant _ v => getConstant ty v
  | _ => SCEV.truncate e ty

/-- Reference `getSignExtendExpr`. -/
def getSignExtendExpr (e : SCEV) (ty : Nat) : SCEV :=
  match e with
  | SCEV.constant t v => getConstant ty (wrapSigned t v)
  | _ => SCEV.signExtend e ty

/-- Reference `getZeroExtendExpr`. -/
def getZeroExtendExpr (e : SCEV) (ty : Nat) : SCEV :=
  match e with
  | SCEV.constant t v => getConstant ty (v % 2 ^ t)
  | _ => SCEV.zeroExtend e ty

/-- Reference `getTruncateOrZeroExtend`. -/
def getTruncateOrZeroExtend (e : SCEV) (ty : Nat) : SCEV :=
  if e.getType == ty then e
  else if ty < e.getType then getTruncateExpr e ty
  else getZeroExtendExpr e ty

/-- Reference `getAddRecExpr`: an induction expression with a zero step is its
start. -/
def getAddRecExpr (start step : SCEV) (loop : Nat) : SCEV :=
  if step.isZero then start else SCEV.addRecExpr start step loop

mutual
/-- Division of `N` by a denominator `D` that is not split any further: the
trivial cases first, then by the kind of the numerator. -/
def divAtom (D : SCEV) : SCEV → SCEV × SCEV
  | SCEV.constant t v =>
    if SCEV.beq (SCEV.constant t v) D then (SCEV.constant D.getType 1, SCEV.constant D.getType 0)
    else if v == 0 then (SCEV.constant D.getType 0, SCEV.constant D.getType 0)
    else if D.isOne then (SCEV.constant t v, SCEV.constant D.getType 0)
    else
      match D with
      | SCEV.constant t2 d =>
        if d == 0 then (SCEV.constant D.getType 0, SCEV.constant t v)
        else (getConstant (max t t2) (Int.tdiv v d), getConstant (max t t2) (Int.tmod v d))
      | _ => (SCEV.constant D.getType 0, SCEV.constant t v)
  | SCEV.addRecExpr s st l =>
    if SCEV.beq (SCEV.addRecExpr s st l) D then
      (SCEV.constant D.getType 1, SCEV.constant D.getType 0)
    else if D.isOne then (SCEV.addRecExpr s st l, SCEV.constant D.getType 0)
    else
      let qs := divAtom D s
      let qt := divAtom D st
      (getAddRecExpr qs.1 qt.1 l, getAddRecExpr qs.2 qt.2 l)
  | SCEV.addExpr ops =>
    if SCEV.beq (SCEV.addExpr ops) D then (SCEV.constant D.getType 1, SCEV.constant D.getType 0)
    else if D.isOne then (SCEV.addExpr ops, SCEV.constant D.getType 0)
    else
      let r := divAtomAll D ops
      (getAddExpr r.1, getAddExpr r.2)
  | SCEV.mulExpr ops =>
    if SCEV.beq (SCEV.mulExpr ops) D then (SCEV.constant D.getType 1, SCEV.constant D.getType 0)
    else if D.isOne then (SCEV.mulExpr ops, SCEV.constant D.getType 0)
    else
      match divAtomFirst D ops with
      | some qs => (getMulExpr qs, SCEV.constant D.getType 0)
      | none => (SCEV.constant D.getType 0, SCEV.mulExpr ops)
  | N =>
    if SCEV.beq N D then (SCEV.constant D.getType 1, SCEV.constant D.getType 0)
    else if D.isOne then (N, SCEV.constant D.getType 0)
    else (SCEV.constant D.getType 0, N)
/-- Quotients and remainders of every operand of a sum. -/
def divAtomAll (D : SCEV) : List SCEV → List SCEV × List SCEV
  | [] => ([], [])
  | x :: xs =>
    let r := divAtom D x
    let rs := divAtomAll D xs
    (r.1 :: rs.1, r.2 :: rs.2)
/-- Operands of a product with the first operand that `D` divides replaced by
its quotient; `none` when `D` divides no operand. -/
def divAtomFirst (D : SCEV) : List SCEV → Option (List SCEV)
  | [] => none
  | x :: xs =>
    let r := divAtom D x
    if r.2.isZero then some (r.1 :: xs)
    else
      match divAtomFirst D xs with
      | some qs => some (x :: qs)
      | none => none
end

/-- Division by the operands of a product denominator one after the other;
`none` as soon as one of them leaves a remainder. -/
def divSeq : List SCEV → SCEV → Option SCEV
  | [], N => some N
  | d :: ds, N =>
    let r := divAtom d N
    if r.2.isZero then divSeq ds r.1 else none

/-- Modelled from the spec: the helper `divide(SE, Numerator, Denominator,
false)` of `tsar/Support/SCEVUtils.h`, which is not among the sources.  The
spec fixes that the division of one expression by another yields a (quotient,
remainder) pair and that it is the integer quotient and remainder on constants;
here equal operands give (1, 0), a zero numerator (0, 0), a denominator one
(numerator, 0), a product denominator is divided out operand by operand, and
what cannot be divided gives (0, numerator). -/
def divide (N D : SCEV) : SCEV × SCEV :=
  if SCEV.beq N D then (SCEV.constant D.getType 1, SCEV.constant D.getType 0)
  else if N.isZero then (SCEV.constant D.getType 0, SCEV.constant D.getType 0)
  else if D.isOne then (N, SCEV.constant D.getType 0)
  else
    match D with
    | SCEV.mulExpr ds =>
      match divSeq ds N with
      | some q => (q, SCEV.constant D.getType 0)
      | none => (SCEV.constant D.getType 0, N)
    | _ => divAtom D N

end Ref

/-- The reference provider; a value that is not a constant is an opaque 64-bit
term. -/
def refSE : ScalarEvolution where
  getMulExpr := Ref.getMulExpr
  getAddExpr := Ref.getAddExpr
  getTruncateExpr := Ref.getTruncateExpr
  getSignExtendExpr := Ref.getSignExtendExpr
  getZeroExtendExpr := Ref.getZeroExtendExpr
  getTruncateOrZeroExtend := Ref.getTruncateOrZeroExtend
  getAddRecExpr := Ref.getAddRecExpr
  getSCEV := fun v =>
    match v with
    | Value.constantInt ty c => getConstant ty c
    | Value.other id => SCEV.unknown 64 id
  divide := Ref.divide

/-! ## Affine decomposer (`SCEVBionmialSearch`, `computeSCEVAddRec`) -/

/-- The fields of the visitor `SCEVBionmialSearch`; a null pointer is `none`. -/
structure SCEVBionmialSearch where
  Coef : Option SCEV := none
  FreeTerm : Option SCEV := none
  L : Option Nat := none
  IsSafeCast : Bool := true
  deriving Repr

namespace SCEVBionmialSearch

/-- The re-application of a cast to `Coef` and `FreeTerm` when they are set
(the tail of `visitTruncateExpr`, `visitSignExtendExpr`, `visitZeroExtendExpr`). -/
def recast (cast : SCEV → SCEV) (s : SCEVBionmialSearch) : SCEVBionmialSearch :=
  { s with Coef := s.Coef.map cast, FreeTerm := s.FreeTerm.map cast }

/-- Tail of `visitMulExpr` once the operand loop is over: `pre` are the operands
visited without finding a loop, `post` the operands after the one that carries
the loop.  `none` is a null `Coef` or `FreeTerm` handed to `getMulExpr`. -/
def finishMul (SE : ScalarEvolution) (S : SCEV) (s : SCEVBionmialSearch)
    (pre post : List SCEV) : Option SCEVBionmialSearch :=
  match s.L with
  | some _ =>
    match s.FreeTerm, s.Coef with
    | some f, some c =>
      let MulFreeTerm := pre ++ post
      some { s with FreeTerm := some (SE.getMulExpr (MulFreeTerm ++ [f])),
                    Coef := some (SE.getMulExpr (MulFreeTerm ++ [c])) }
    | _, _ => none
  | none => some { s with FreeTerm := some S }

/-- Tail of `visitAddExpr` once the operand loop is over. -/
def finishAdd (SE : ScalarEvolution) (S : SCEV) (s : SCEVBionmialSearch)
    (pre post : List SCEV) : Option SCEVBionmialSearch :=
  match s.L with
  | some _ =>
    match s.FreeTerm with
    | some f => some { s with FreeTerm := some (SE.getAddExpr (pre ++ post ++ [f])) }
    | none => none
  | none => some { s with FreeTerm := some S }

mutual
/-- The dispatch `visit(S)` on the kind of `S`, with the visitor's fields passed
explicitly.  `none` is a failed assertion `!L && "Loop must not be set yet!"`
(or a null operand handed to the provider). -/
def visit (SE : ScalarEvolution) : SCEV → SCEVBionmialSearch → Option SCEVBionmialSearch
  | SCEV.truncate op ty, s =>
    match visit SE op { s with IsSafeCast := false } with
    | some s1 => some (recast (fun e => SE.getTruncateExpr e ty) s1)
    | none => none
  | SCEV.signExtend op ty, s =>
    match visit SE op { s with IsSafeCast := false } with
    | some s1 => some (recast (fun e => SE.getSignExtendExpr e ty) s1)
    | none => none
  | SCEV.zeroExtend op ty, s =>
    match visit SE op { s with IsSafeCast := false } with
    | some s1 => some (recast (fun e => SE.getZeroExtendExpr e ty) s1)
    | none => none
  | SCEV.addRecExpr start step loop, s =>
    some { s with L := some loop, Coef := some step, FreeTerm := some start }
  | SCEV.mulExpr ops, s =>
    if s.L.isSome then none
    else
      match visitOperands SE ops s with
      | some (s1, pre, post) => finishMul SE (SCEV.mulExpr ops) s1 pre post
      | none => none
  | SCEV.addExpr ops, s =>
    if s.L.isSome then none
    else
      match visitOperands SE ops s with
      | some (s1, pre, post) => finishAdd SE (SCEV.addExpr ops) s1 pre post
      | none => none
  | SCEV.constant ty v, s => some { s with FreeTerm := some (SCEV.constant ty v) }
  | SCEV.udivExpr l r, s => some { s with FreeTerm := some (SCEV.udivExpr l r) }
  | SCEV.smaxExpr ops, s => some { s with FreeTerm := some (SCEV.smaxExpr ops) }
  | SCEV.umaxExpr ops, s => some { s with FreeTerm := some (SCEV.umaxExpr ops) }
  | SCEV.unknown ty i, s => some { s with FreeTerm := some (SCEV.unknown ty i) }
  | SCEV.couldNotCompute, s => some { s with FreeTerm := some SCEV.couldNotCompute }
/-- The operand loop shared by `visitMulExpr` and `visitAddExpr`: visit the
operands in order and stop at the first one after which `L` is set.  Returns
the fields, the operands visited before that one and the operands after it. -/
def visitOperands (SE : ScalarEvolution) :
    List SCEV → SCEVBionmialSearch → Option (SCEVBionmialSearch × List SCEV × List SCEV)
  | [], s => some (s, [], [])
  | op :: rest, s =>
    match visit SE op s with
    | some s1 =>
      if s1.L.isSome then some (s1, [], rest)
      else
        match visitOperands SE rest s1 with
        | some (s2, pre, post) => some (s2, op :: pre, post)
        | none => none
    | none => none
end

end SCEVBionmialSearch

/-- The function `tsar::computeSCEVAddRec`: the expression rebuilt as an
induction expression on the loop found (or left as it is), and the safety flag. -/
def computeSCEVAddRec (SE : ScalarEvolution) (Expr : SCEV) : Option (SCEV × Bool) :=
  match SCEVBionmialSearch.visit SE Expr {} with
  | some Search =>
    match Search.L with
    | some loop =>
      match Search.FreeTerm, Search.Coef with
      | some f, some c => some (SE.getAddRecExpr f c loop, Search.IsSafeCast)
      | _, _ => none
    | none => some (Expr, true)
  | none => none

/-! ## Symbolic GCD engine (`countPrimeNumbers`, `countConstantMultipliers`, `findGCD`) -/

/-- The table `CachedPrimes` of `countPrimeNumbers` (`PRIMES_CACHE_SIZE` = 60). -/
def CachedPrimes : List Nat :=
  [2, 3, 5, 7, 11, 13, 17, 19, 23, 29, 31, 37, 41, 43, 47, 53, 59,
   61, 67, 71, 73, 79, 83, 89, 97, 101, 103, 107, 109, 113, 127, 131,
   137, 139, 149, 151, 157, 163, 167, 173, 179, 181, 191, 193, 197,
   199, 211, 223, 227, 229, 233, 239, 241, 251, 257, 263, 269, 271,
   277, 281]

/-- The statement `IsPrime[n] = !IsPrime[n]`. -/
def flipAt (IsPrime : List Bool) (n : Nat) : List Bool :=
  IsPrime.set n (!(IsPrime.getD n false))

/-- Body of the inner loop of the sieve for the counters `i` and `j`
(`x2` = i * i and `y2` = j * j are what the running sums hold there); `n` is a
64-bit unsigned integer. -/
def sieveStep (Bound i j : Nat) (IsPrime : List Bool) : List Bool :=
  let x2 := i * i
  let y2 := j * j
  let n1 := (4 * x2 + y2) % 2 ^ 64
  let p1 := if n1 ≤ Bound ∧ (n1 % 12 = 1 ∨ n1 % 12 = 5) then flipAt IsPrime n1 else IsPrime
  let n2 := (n1 + 2 ^ 64 - x2 % 2 ^ 64) % 2 ^ 64
  let p2 := if n2 ≤ Bound ∧ n2 % 12 = 7 then flipAt p1 n2 else p1
  let n3 := (n2 + 2 ^ 64 - (2 * y2) % 2 ^ 64) % 2 ^ 64
  if i > j ∧ n3 ≤ Bound ∧ n3 % 12 = 11 then flipAt p2 n3 else p2

/-- The two nested loops `for i = 1..BoundSqrt`, `for j = 1..BoundSqrt`. -/
def sieveFlips (Bound BoundSqrt : Nat) (IsPrime : List Bool) : List Bool :=
  (List.range' 1 BoundSqrt).foldl
    (fun acc i => (List.range' 1 BoundSqrt).foldl (fun acc2 j => sieveStep Bound i j acc2) acc)
    IsPrime

/-- The loop `for i = 5..BoundSqrt` that clears the multiples of `i * i` of
every `i` still marked. -/
def sieveSquares (Bound BoundSqrt : Nat) (IsPrime : List Bool) : List Bool :=
  (List.range' 5 (BoundSqrt - 4)).foldl
    (fun acc i =>
      if acc.getD i false then
        (List.range (Bound / (i * i))).foldl (fun acc2 k => acc2.set ((k + 1) * (i * i)) false) acc
      else acc)
    IsPrime

/-- The function `countPrimeNumbers`: the contents of `Primes` on return.  The
loop counters are C `int`s compared against the 64-bit `Bound`: from the bound
2^31 - 1 (`INT_MAX`) on, the increment of `for (int i = 0; i <= Bound; i++)`
overflows the counter; that undefined behaviour is `none`. -/
def countPrimeNumbers (Bound : Nat) : Option (List Nat) :=
  if Bound ≤ 281 then
    some (CachedPrimes.takeWhile (fun p => p ≤ Bound))
  else if 2 ^ 31 - 1 ≤ Bound then none
  else
    let IsPrime0 := ((List.replicate (Bound + 1) false).set 2 true).set 3 true
    let BoundSqrt := Nat.sqrt Bound
    let IsPrime := sieveSquares Bound BoundSqrt (sieveFlips Bound BoundSqrt IsPrime0)
    some ([2, 3, 5] ++
      (List.range' 6 (Bound - 5)).filter
        (fun i => IsPrime.getD i false && i % 3 != 0 && i % 5 != 0))

/-- The method `getAPInt().getLimitedValue()` of a constant of type `ty`: its
unsigned value, capped at 2^64 - 1. -/
def getLimitedValue (ty : Nat) (v : Int) : Nat :=
  min (v % 2 ^ ty).toNat (2 ^ 64 - 1)

/-- The loop `while (ConstValue > 1)` of `countConstantMultipliers`, the index
`i` running down the prime table.  `none` is a read outside the table (the
index dropping below 0) or the fuel running out. -/
def factorLoop (ty : Nat) (Primes : List Nat) :
    Nat → Nat → Nat → List SCEV → Option (List SCEV)
  | 0, _, _, _ => none
  | fuel + 1, ConstValue, i, Multipliers =>
    if ConstValue > 1 then
      match Primes[i]? with
      | none => none
      | some p =>
        if ConstValue % p = 0 then
          factorLoop ty Primes fuel (ConstValue / p) i (Multipliers ++ [getConstant ty p])
        else
          match i with
          | 0 => none
          | k + 1 => factorLoop ty Primes fuel ConstValue k Multipliers
    else some Multipliers

/-- The function `countConstantMultipliers` for a constant of type `ty` and
value `v`: the constants appended to `Multipliers`.  `ConstValue` is unsigned,
so the branch `ConstValue < 0` is never taken.  `none` is the failed assertion
on a zero constant, or a failure of the prime table or of the loop. -/
def countConstantMultipliers (ty : Nat) (v : Int) : Option (List SCEV) :=
  let ConstValue := getLimitedValue ty v
  if ConstValue = 0 then none
  else if ConstValue = 1 then some [getConstant ty 1]
  else
    match countPrimeNumbers ConstValue with
    | none => none
    | some Primes => factorLoop ty Primes (ConstValue + Primes.length + 1) ConstValue
        (Primes.length - 1) []

/-- The kinds kept when the operands of a product step or start of an induction
expression are filtered (`scUnknown`, the casts, `scAddExpr`, `scConstant`). -/
def isPlainMultiplier : SCEV → Bool
  | SCEV.unknown _ _ => true
  | SCEV.truncate _ _ => true
  | SCEV.signExtend _ _ => true
  | SCEV.zeroExtend _ _ => true
  | SCEV.addExpr _ => true
  | SCEV.constant _ _ => true
  | _ => false

/-- Step or start of an induction expression with the operands of a product
filtered, as in the `scAddRecExpr` case of `findGCD`. -/
def filterMultipliers (SE : ScalarEvolution) : SCEV → SCEV
  | SCEV.mulExpr ops => SE.getMulExpr (ops.filter isPlainMultiplier)
  | e => e

/-- State of the operand loop of the `scMulExpr` case of `findGCD`. -/
structure MulSplit where
  hasAddRec : Bool := false
  StepMultipliers : List SCEV := []
  StartMultipliers : List SCEV := []

/-- The push of an induction operand of a product, `cast` re-applying the cast
that encloses it (or nothing). -/
def MulSplit.pushAddRec (m : MulSplit) (cast : SCEV → SCEV) (start step : SCEV) : MulSplit :=
  { hasAddRec := true,
    StepMultipliers := m.StepMultipliers ++ [cast step],
    StartMultipliers :=
      if start.isZero then m.StartMultipliers else m.StartMultipliers ++ [cast start] }

/-- The push of an operand to both multiplier lists. -/
def MulSplit.pushBoth (m : MulSplit) (Op : SCEV) : MulSplit :=
  { m with StepMultipliers := m.StepMultipliers ++ [Op],
           StartMultipliers := m.StartMultipliers ++ [Op] }

/-- One iteration of the operand loop of the `scMulExpr` case of `findGCD`. -/
def mulSplitStep (SE : ScalarEvolution) (m : MulSplit) (Op : SCEV) : MulSplit :=
  match Op with
  | SCEV.truncate (SCEV.addRecExpr s st _) ty =>
    m.pushAddRec (fun e => SE.getTruncateExpr e ty) s st
  | SCEV.signExtend (SCEV.addRecExpr s st _) ty =>
    m.pushAddRec (fun e => SE.getSignExtendExpr e ty) s st
  | SCEV.zeroExtend (SCEV.addRecExpr s st _) ty =>
    m.pushAddRec (fun e => SE.getZeroExtendExpr e ty) s st
  | SCEV.truncate (SCEV.mulExpr _) _ => m.pushBoth Op
  | SCEV.signExtend (SCEV.mulExpr _) _ => m.pushBoth Op
  | SCEV.zeroExtend (SCEV.mulExpr _) _ => m.pushBoth Op
  | SCEV.truncate (SCEV.unknown _ _) _ => m.pushBoth Op
  | SCEV.signExtend (SCEV.unknown _ _) _ => m.pushBoth Op
  | SCEV.zeroExtend (SCEV.unknown _ _) _ => m.pushBoth Op
  | SCEV.truncate (SCEV.addExpr _) _ => m.pushBoth Op
  | SCEV.signExtend (SCEV.addExpr _) _ => m.pushBoth Op
  | SCEV.zeroExtend (SCEV.addExpr _) _ => m.pushBoth Op
  | SCEV.addRecExpr s st _ => m.pushAddRec id s st
  | SCEV.unknown _ _ => m.pushBoth Op
  | SCEV.addExpr _ => m.pushBoth Op
  | SCEV.constant _ _ => m.pushBoth Op
  | _ => m

/-- The divisor candidates taken from one operand of the opening term, or from
the opening term itself: the prime factors of a constant, anything else as it
is. -/
def dividersOf : SCEV → Option (List SCEV)
  | SCEV.constant ty v => countConstantMultipliers ty v
  | e => some [e]

/-- Candidates of every operand of an opening product, in operand order. -/
def dividersOfOperands : List SCEV → Option (List SCEV)
  | [] => some []
  | op :: ops =>
    match dividersOf op, dividersOfOperands ops with
    | some d, some ds => some (d ++ ds)
    | _, _ => none

/-- The seeding of `Dividers` from `OpeningSCEV`. -/
def openingDividers : SCEV → Option (List SCEV)
  | SCEV.mulExpr ops => dividersOfOperands ops
  | e => dividersOf e

/-- The loop `for (auto *Divider : Dividers)` for one term: the candidates that
divide the running quotient exactly, in order. -/
def stepDividers (SE : ScalarEvolution) : List SCEV → SCEV → List SCEV
  | [], _ => []
  | Divider :: rest, CurrentTerm =>
    let Div := SE.divide CurrentTerm Divider
    if Div.2.isZero then Divider :: stepDividers SE rest Div.1
    else stepDividers SE rest CurrentTerm

/-- The loop over `Terms[1..]`: `none` when no candidate survives some term
(the function then returns the constant 1). -/
def reduceDividers (SE : ScalarEvolution) : List SCEV → List SCEV → Option (List SCEV)
  | [], Dividers => some Dividers
  | Term :: rest, Dividers =>
    match stepDividers SE Dividers Term with
    | [] => none
    | d :: ds => reduceDividers SE rest (d :: ds)

/-- The part of `findGCD` after the terms are extracted: `ty` is the type of
`Expressions[0]`.  `none` is a failure of `countConstantMultipliers`. -/
def gcdOfTerms (SE : ScalarEvolution) (ty : Nat) (Terms : List SCEV) : Option SCEV :=
  if Terms.isEmpty then some (getConstant ty 1)
  else
    match Terms.find? (fun t => !t.isZero) with
    | none => some (getConstant ty 0)
    | some OpeningSCEV =>
      match openingDividers OpeningSCEV with
      | none => none
      | some Dividers0 =>
        match reduceDividers SE (Terms.drop 1) Dividers0 with
        | none => some (getConstant ty 1)
        | some [d] => some d
        | some Dividers => some (SE.getMulExpr Dividers)

mutual
/-- Number of nodes of an expression. -/
def SCEV.size : SCEV → Nat
  | SCEV.constant _ _ => 1
  | SCEV.truncate op _ => SCEV.size op + 1
  | SCEV.zeroExtend op _ => SCEV.size op + 1
  | SCEV.signExtend op _ => SCEV.size op + 1
  | SCEV.addExpr ops => SCEV.sizeList ops + 1
  | SCEV.mulExpr ops => SCEV.sizeList ops + 1
  | SCEV.udivExpr l r => SCEV.size l + SCEV.size r + 1
  | SCEV.addRecExpr s t _ => SCEV.size s + SCEV.size t + 1
  | SCEV.umaxExpr ops => SCEV.sizeList ops + 1
  | SCEV.smaxExpr ops => SCEV.sizeList ops + 1
  | SCEV.unknown _ _ => 1
  | SCEV.couldNotCompute => 1
/-- Number of nodes of an operand list. -/
def SCEV.sizeList : List SCEV → Nat
  | [] => 0
  | x :: xs => SCEV.size x + SCEV.sizeList xs
end

/-- The terms one input expression contributes in the first loop of `findGCD`;
`rec` is `findGCD` itself, for the nested calls. -/
def termsOfExpr (SE : ScalarEvolution) (rec : List SCEV → Option SCEV) (Expr : SCEV) :
    Option (List SCEV) :=
  match Expr with
  | SCEV.truncate (SCEV.addRecExpr s st _) ty =>
    some [SE.getTruncateExpr st ty, SE.getTruncateExpr s ty]
  | SCEV.signExtend (SCEV.addRecExpr s st _) ty =>
    some [SE.getSignExtendExpr st ty, SE.getSignExtendExpr s ty]
  | SCEV.zeroExtend (SCEV.addRecExpr s st _) ty =>
    some [SE.getZeroExtendExpr st ty, SE.getZeroExtendExpr s ty]
  | SCEV.truncate (SCEV.unknown _ _) _ => some [Expr]
  | SCEV.signExtend (SCEV.unknown _ _) _ => some [Expr]
  | SCEV.zeroExtend (SCEV.unknown _ _) _ => some [Expr]
  | SCEV.truncate (SCEV.addExpr _) _ => some [Expr]
  | SCEV.signExtend (SCEV.addExpr _) _ => some [Expr]
  | SCEV.zeroExtend (SCEV.addExpr _) _ => some [Expr]
  | SCEV.truncate (SCEV.mulExpr _) _ => some [Expr]
  | SCEV.signExtend (SCEV.mulExpr _) _ => some [Expr]
  | SCEV.zeroExtend (SCEV.mulExpr _) _ => some [Expr]
  | SCEV.constant _ _ => some [Expr]
  | SCEV.unknown _ _ => some [Expr]
  | SCEV.addExpr _ => some [Expr]
  | SCEV.mulExpr ops =>
    let m := ops.foldl (mulSplitStep SE) {}
    if m.hasAddRec && !m.StartMultipliers.isEmpty then
      match rec [SE.getMulExpr m.StartMultipliers, SE.getMulExpr m.StepMultipliers] with
      | some g => some [g]
      | none => none
    else if !m.StepMultipliers.isEmpty then some [SE.getMulExpr m.StepMultipliers]
    else some []
  | SCEV.addRecExpr s st _ =>
    match rec [filterMultipliers SE s, filterMultipliers SE st] with
    | some g => some [g]
    | none => none
  | _ => some []

/-- The first loop of `findGCD`: the terms of all input expressions, in order. -/
def termsOfAll (SE : ScalarEvolution) (rec : List SCEV → Option SCEV) :
    List SCEV → Option (List SCEV)
  | [] => some []
  | Expr :: rest =>
    match termsOfExpr SE rec Expr, termsOfAll SE rec rest with
    | some ts, some tr => some (ts ++ tr)
    | _, _ => none

/-- The function `findGCD` with a bound on the depth of its nested calls.
`none` is the failed assertion on an empty input, a failure of
`countConstantMultipliers`, or the bound being reached. -/
def findGCDAux (SE : ScalarEvolution) : Nat → List SCEV → Option SCEV
  | 0, _ => none
  | fuel + 1, Expressions =>
    match Expressions with
    | [] => none
    | e0 :: _ =>
      match termsOfAll SE (findGCDAux SE fuel) Expressions with
      | none => none
      | some Terms => gcdOfTerms SE e0.getType Terms

/-- The function `findGCD`; the nesting of its calls is bounded by the number of
nodes of the input. -/
def findGCD (SE : ScalarEvolution) (Expressions : List SCEV) : Option SCEV :=
  findGCDAux SE (SCEV.sizeList Expressions + 1) Expressions

/-! ## Arrays and elements -/

/-- Modelled from the spec: the record `Array::Element` (its declaration is in a
header that is not among the sources).  One memory access: its address, its
subscripts, and the two flags `IsElement` and `IsValid` kept in `Traits`. -/
structure Element where
  Ptr : Nat
  Subscripts : List SCEV := []
  IsElement : Bool := false
  IsValid : Bool := false
  deriving Repr

/-- Modelled from the spec: the class `Array` (its declaration is in a header
that is not among the sources).  The base object, the size of every dimension
(`none` while no size has been stored), the ordered elements and the two flags
`delinearized` and `hasRangeReference`. -/
structure Array where
  Base : Nat
  Dims : List (Option SCEV) := []
  Elements : List Element := []
  Delinearized : Bool := false
  RangeRef : Bool := false
  deriving Repr

namespace Array

/-- The number of dimensions, `getNumberOfDims()`. -/
def getNumberOfDims (A : Array) : Nat := A.Dims.length

/-- The method `setNumberOfDims(N)`: the size list is resized to `N` entries,
new entries holding no size. -/
def setNumberOfDims (A : Array) (N : Nat) : Array :=
  { A with Dims := A.Dims.take N ++ List.replicate (N - A.Dims.length) none }

/-- The method `setDimSize(DimIdx, Expr)`; `none` is an index out of range. -/
def setDimSize (A : Array) (DimIdx : Nat) (Expr : SCEV) : Option Array :=
  if DimIdx < A.Dims.length then some { A with Dims := A.Dims.set DimIdx (some Expr) }
  else none

/-- The method `getDimSize(DimIdx)`; `none` is an index out of range or a
dimension that holds no size. -/
def getDimSize (A : Array) (DimIdx : Nat) : Option SCEV :=
  (A.Dims[DimIdx]?).join

/-- The method `isKnownDimSize(DimIdx)`: a size is stored and it is not the
not-computable marker. -/
def isKnownDimSize (A : Array) (DimIdx : Nat) : Bool :=
  match A.getDimSize DimIdx with
  | some e => !e.isCouldNotCompute
  | none => false

/-- The method `setDelinearized()`. -/
def setDelinearized (A : Array) : Array := { A with Delinearized := true }

/-- The method `setRangeRef()`. -/
def setRangeRef (A : Array) : Array := { A with RangeRef := true }

end Array

/-! ## Dimension-size inferencer (`fillArrayDimensionsSizes`) -/

/-- The expressions gathered for the GCD at dimension `DimIdx`: for every
element access, its subscripts at indices `DimIdx - 1` down to 0.  `none` is
the failed assertion that an element access has `NumberOfDims` subscripts. -/
def gatherExpressions (NumberOfDims DimIdx : Nat) : List Element → Option (List SCEV)
  | [] => some []
  | Range :: rest =>
    if !Range.IsElement then gatherExpressions NumberOfDims DimIdx rest
    else if Range.Subscripts.length ≠ NumberOfDims then none
    else
      match gatherExpressions NumberOfDims DimIdx rest with
      | some es => some ((Range.Subscripts.take DimIdx).reverse ++ es)
      | none => none

/-- The loop `for (auto J : seq(1, DimIdx))` run when the size of a dimension is
zero: every dimension `J` in `[1, DimIdx)` gets its positive hinted size or the
not-computable marker.  The list `Js` holds the values of `J` left to do. -/
def markOuterDims (mIndexTy : Nat) (DimSizes : List Int) : List Nat → Array → Option Array
  | [], A => some A
  | J :: Js, A =>
    match DimSizes[J]? with
    | none => none
    | some sz =>
      match A.setDimSize J (if sz > 0 then getConstant mIndexTy sz else getCouldNotCompute) with
      | some A1 => markOuterDims mIndexTy DimSizes Js A1
      | none => none

/-- The size computed for dimension `DimIdx` before the zero test: the positive
hinted size, or the quotient of the GCD of the gathered subscripts by the
product of the sizes found so far. -/
def candidateSize (SE : ScalarEvolution) (mIndexTy NumberOfDims : Nat) (DimSizes : List Int)
    (ArrayInfo : Array) (DimIdx : Nat) (PrevDimSizesProduct : SCEV) : Option SCEV :=
  match DimSizes[DimIdx]? with
  | none => none
  | some sz =>
    if sz > 0 then some (getConstant mIndexTy sz)
    else
      match gatherExpressions NumberOfDims DimIdx ArrayInfo.Elements with
      | none => none
      | some Expressions =>
        match findGCD SE Expressions with
        | none => none
        | some g => some (SE.divide g PrevDimSizesProduct).1

/-- The loop `for (; DimIdx > 0; --DimIdx)` of `fillArrayDimensionsSizes`
together with the final `if (DimIdx == 0) setDelinearized()`. -/
def fillLoop (SE : ScalarEvolution) (mIndexTy NumberOfDims : Nat) (DimSizes : List Int) :
    Nat → SCEV → Array → Option Array
  | 0, _, ArrayInfo => some ArrayInfo.setDelinearized
  | d + 1, PrevDimSizesProduct, ArrayInfo =>
    match candidateSize SE mIndexTy NumberOfDims DimSizes ArrayInfo (d + 1)
        PrevDimSizesProduct with
    | none => none
    | some DimSize =>
      if DimSize.isZero then
        match ArrayInfo.setDimSize (d + 1) getCouldNotCompute with
        | some A1 => markOuterDims mIndexTy DimSizes (List.range' 1 d) A1
        | none => none
      else
        match ArrayInfo.setDimSize (d + 1) DimSize with
        | some A1 =>
          fillLoop SE mIndexTy NumberOfDims DimSizes d
            (SE.getMulExpr [PrevDimSizesProduct, SE.getTruncateOrZeroExtend DimSize mIndexTy]) A1
        | none => none

/-- The loop over the hinted sizes from the last one down, up to the first
negative one: returns `LastConstDim` and the array with the constant sizes
stored.  `I` is the loop counter. -/
def setHintedSizes (mIndexTy : Nat) (DimSizes : List Int) :
    Nat → Nat → Array → Option (Nat × Array)
  | 0, LastConstDim, A => some (LastConstDim, A)
  | I + 1, LastConstDim, A =>
    match DimSizes[I]? with
    | none => none
    | some sz =>
      if sz < 0 then some (LastConstDim, A)
      else
        match A.setDimSize I (getConstant mIndexTy sz) with
        | some A1 => setHintedSizes mIndexTy DimSizes I I A1
        | none => none

/-- The test of the dimension-count search: an element access that is valid. -/
def isValidElement (e : Element) : Bool := e.IsElement && e.IsValid

/-- The search for the number of dimensions of an array without a hint: the
subscript count of the first valid element access, `none` when there is no such
element or when a later one has another count. -/
def findNumberOfDims (Elements : List Element) : Option Nat :=
  match Elements.dropWhile (fun e => !isValidElement e) with
  | [] => none
  | first :: rest =>
    if rest.all (fun e => !isValidElement e || e.Subscripts.length == first.Subscripts.length)
    then some first.Subscripts.length
    else none

/-- The list `DimSizes` after `resize(N, -1)`. -/
def resizeDimSizes (DimSizes : List Int) (N : Nat) : List Int :=
  DimSizes.take N ++ List.replicate (N - DimSizes.length) (-1)

/-- The method `DelinearizationPass::fillArrayDimensionsSizes`: the hint
`DimSizes` and the array on return.  `none` is a failed assertion or a read
outside a list. -/
def fillArrayDimensionsSizes (SE : ScalarEvolution) (mIndexTy : Nat) (DimSizes : List Int)
    (ArrayInfo : Array) : Option (List Int × Array) :=
  if ArrayInfo.getNumberOfDims = 0 then
    match findNumberOfDims ArrayInfo.Elements with
    | none => some (DimSizes, ArrayInfo)
    | some NumberOfDims =>
      if NumberOfDims = 0 then none
      else
        let DimSizes1 := resizeDimSizes DimSizes NumberOfDims
        match (ArrayInfo.setNumberOfDims NumberOfDims).setDimSize 0 getCouldNotCompute with
        | none => none
        | some A1 =>
          match fillLoop SE mIndexTy NumberOfDims DimSizes1 (NumberOfDims - 1)
              (getConstant mIndexTy 1) A1 with
          | some A2 => some (DimSizes1, A2)
          | none => none
  else
    match setHintedSizes mIndexTy DimSizes DimSizes.length DimSizes.length ArrayInfo with
    | none => none
    | some (LastConstDim, A1) =>
      if LastConstDim = 0 then some (DimSizes, A1)
      else
        match DimSizes[0]? with
        | none => none
        | some sz0 =>
          match A1.setDimSize 0
              (if sz0 > 0 then getConstant mIndexTy sz0 else getCouldNotCompute) with
          | none => none
          | some A2 =>
            match fillLoop SE mIndexTy ArrayInfo.getNumberOfDims DimSizes (LastConstDim - 1)
                (getConstant mIndexTy 1) A2 with
            | some A3 => some (DimSizes, A3)
            | none => none

/-! ## Subscript normalizer (`cleanSubscripts`) -/

/-- The loop that lowers `LastConstDim` from the number of dimensions while the
size of dimension `LastConstDim - 1` is a constant.  `none` is a dimension
that holds no size. -/
def findLastConstDim (A : Array) : Nat → Option Nat
  | 0 => some 0
  | k + 1 =>
    match A.getDimSize k with
    | none => none
    | some e => if e.isConstant then findLastConstDim A k else some (k + 1)

/-- The loop `for (auto &Range : ArrayInfo)` of `cleanSubscripts` at level
`DimIdx`: an element whose subscript leaves a remainder loses `IsValid` and the
loop is left by `break`; the elements after it are not visited.  `none` is a
subscript read outside the list. -/
def cleanElements (SE : ScalarEvolution) (DimIdx : Nat) (PrevDimSizesProduct : SCEV) :
    List Element → Option (List Element)
  | [] => some []
  | Range :: rest =>
    match Range.Subscripts[DimIdx - 1]? with
    | none => none
    | some Subscript =>
      let Div := SE.divide Subscript PrevDimSizesProduct
      if !Div.2.isZero then some ({ Range with IsValid := false } :: rest)
      else
        match cleanElements SE DimIdx PrevDimSizesProduct rest with
        | some rest1 =>
          some ({ Range with Subscripts := Range.Subscripts.set (DimIdx - 1) Div.1 } :: rest1)
        | none => none

/-- The loop `for (auto DimIdx = LastConstDim - 1; DimIdx > 0; --DimIdx)` of
`cleanSubscripts`.  `none` is the failed assertion on a known dimension size. -/
def cleanLoop (SE : ScalarEvolution) (mIndexTy : Nat) : Nat → SCEV → Array → Option Array
  | 0, _, A => some A
  | d + 1, PrevDimSizesProduct, A =>
    if !A.isKnownDimSize (d + 1) then none
    else
      match A.getDimSize (d + 1) with
      | none => none
      | some sz =>
        let Prev1 := SE.getMulExpr [PrevDimSizesProduct, SE.getTruncateOrZeroExtend sz mIndexTy]
        match cleanElements SE (d + 1) Prev1 A.Elements with
        | some els => cleanLoop SE mIndexTy d Prev1 { A with Elements := els }
        | none => none

/-- The method `DelinearizationPass::cleanSubscripts`.  `none` is a failed
assertion (the array is not delinearized, a size is not known) or a read
outside a list. -/
def cleanSubscripts (SE : ScalarEvolution) (mIndexTy : Nat) (ArrayInfo : Array) : Option Array :=
  if !ArrayInfo.Delinearized then none
  else
    match findLastConstDim ArrayInfo ArrayInfo.getNumberOfDims with
    | none => none
    | some LastConstDim =>
      if LastConstDim = 0 then some ArrayInfo
      else cleanLoop SE mIndexTy (LastConstDim - 1) (getConstant mIndexTy 1) ArrayInfo

/-! ## Array registry and access collector (`extractSubscriptsFromGEPs`, `collectArrays`) -/

/-- One indexed-addressing step (`GEPOperator`): its identity as a value and its
index operands, that is its operands 1, 2, ... (operand 0 is the pointer). -/
structure GEP where
  id : Nat
  Indices : List Value
  deriving Repr

/-- The test `dyn_cast<Constant>(V)` followed by `isZeroValue()`. -/
def Value.isZeroConstant : Value → Bool
  | Value.constantInt _ v => v == 0
  | Value.other _ => false

/-- Body of the loop of `extractSubscriptsFromGEPs` for one step: the values it
appends to `Idxs`.  `none` is a step without operand 1. -/
def extractSubscriptsFromGEP (G : GEP) : Option (List Value) :=
  match G.Indices with
  | [] => none
  | [i] => some [i]
  | i :: rest => some ((if i.isZeroConstant then [] else [i]) ++ rest)

/-- The function `extractSubscriptsFromGEPs` over the steps in iteration order. -/
def extractSubscriptsFromGEPs : List GEP → Option (List Value)
  | [] => some []
  | G :: rest =>
    match extractSubscriptsFromGEP G, extractSubscriptsFromGEPs rest with
    | some xs, some ys => some (xs ++ ys)
    | _, _ => none

/-- What the collector receives for one memory access (markers and debug
intrinsics are already left out): whether the instruction is a load, store,
atomic read-modify-write or atomic compare-exchange, the pointer `Loc.Ptr`, the
base object it is stripped to, and the chain of consecutive steps that starts at
`Loc.Ptr` and goes toward the base. -/
structure MemoryAccess where
  IsScalarAccess : Bool
  Ptr : Nat
  BasePtr : Nat
  GEPChain : List GEP
  deriving Repr

/-- The state of the collector: the cache of hinted sizes `DimsCache` and the
arrays of `mDelinearizeInfo`, each keyed by base object. -/
structure Registry where
  DimsCache : List (Nat × List Int) := []
  Arrays : List Array := []
  deriving Repr

/-- The steps taken by the loop `while (GEP && (NumberOfDims == 0 ||
GEPs.size() < NumberOfDims))`, in the order they are pushed. -/
def takeGEPs (NumberOfDims : Nat) (chain : List GEP) : List GEP :=
  if NumberOfDims = 0 then chain else chain.take NumberOfDims

/-- The element built for one access of an array with `NumberOfDims` hinted
dimensions and the raw subscripts `SubscriptValues`, and whether the array is
marked as having range references by this access. -/
def makeElement (SE : ScalarEvolution) (mIndexTy : Nat) (IsScalarAccess : Bool) (Ptr : Nat)
    (NumberOfDims : Nat) (SubscriptValues : List Value) : Element × Bool :=
  let El : Element := { Ptr := Ptr }
  let (El1, ref1) :=
    if IsScalarAccess then
      if SubscriptValues.length < NumberOfDims then
        ({ El with IsElement := true,
                   Subscripts := List.replicate (NumberOfDims - SubscriptValues.length)
                     (getZero mIndexTy) }, true)
      else ({ El with IsElement := true, IsValid := true }, false)
    else ({ El with IsValid := true }, false)
  if !SubscriptValues.isEmpty then
    ({ El1 with Subscripts := El1.Subscripts ++ SubscriptValues.map SE.getSCEV }, true)
  else (El1, ref1)

/-- The array of base `BasePtr` in the registry after one more element: an
array seen for the first time is created with `NumberOfDims` dimensions.
`none` is the failed assertion on an inconsistent number of dimensions. -/
def addToArrays (BasePtr NumberOfDims : Nat) (El : Element) (ref : Bool) :
    List Array → Option (List Array)
  | [] =>
    let A := (({ Base := BasePtr } : Array).setNumberOfDims NumberOfDims)
    some [{ A with Elements := [El], RangeRef := ref }]
  | A :: rest =>
    if A.Base = BasePtr then
      if A.getNumberOfDims ≠ NumberOfDims then none
      else some ({ A with Elements := A.Elements ++ [El], RangeRef := A.RangeRef || ref } :: rest)
    else
      match addToArrays BasePtr NumberOfDims El ref rest with
      | some rest1 => some (A :: rest1)
      | none => none

/-- The lambda `processMemory` of `collectArrays` for one access; `Hint` is what
`findArrayDimesionsFromDbgInfo` leaves in `Dimensions` for a base object. -/
def processMemory (SE : ScalarEvolution) (mIndexTy : Nat) (Hint : Nat → List Int)
    (R : Registry) (I : MemoryAccess) : Option Registry :=
  let (Dims, Cache1) :=
    match R.DimsCache.lookup I.BasePtr with
    | some d => (d, R.DimsCache)
    | none => (Hint I.BasePtr, R.DimsCache ++ [(I.BasePtr, Hint I.BasePtr)])
  let NumberOfDims := Dims.length
  let GEPs := takeGEPs NumberOfDims I.GEPChain
  match extractSubscriptsFromGEPs GEPs.reverse with
  | none => none
  | some SubscriptValues =>
    let ElPtr := match GEPs.getLast? with
      | some G => G.id
      | none => I.Ptr
    let (El, ref) := makeElement SE mIndexTy I.IsScalarAccess ElPtr NumberOfDims SubscriptValues
    match addToArrays I.BasePtr NumberOfDims El ref R.Arrays with
    | some Arrays1 => some { DimsCache := Cache1, Arrays := Arrays1 }
    | none => none

/-- The first loop of `collectArrays`, over the accesses of the function. -/
def processAll (SE : ScalarEvolution) (mIndexTy : Nat) (Hint : Nat → List Int) :
    Registry → List MemoryAccess → Option Registry
  | R, [] => some R
  | R, I :: rest =>
    match processMemory SE mIndexTy Hint R I with
    | some R1 => processAll SE mIndexTy Hint R1 rest
    | none => none

/-- The test of the last loop of `collectArrays`: an object that is not an
array. -/
def isNotArray (A : Array) : Bool := A.getNumberOfDims == 0 && !A.RangeRef

/-- The method `DelinearizationPass::collectArrays`, from an empty registry. -/
def collectArrays (SE : ScalarEvolution) (mIndexTy : Nat) (Hint : Nat → List Int)
    (F : List MemoryAccess) : Option Registry :=
  match processAll SE mIndexTy Hint {} F with
  | none => none
  | some R =>
    let removed := (R.Arrays.filter isNotArray).map (fun A => A.Base)
    some { DimsCache := R.DimsCache.filter (fun p => !removed.contains p.1),
           Arrays := R.Arrays.filter (fun A => !isNotArray A) }

/-! ## Value of an expression -/

/-- An assignment of integer values: `term` gives the value of every node that
is not arithmetic (opaque terms first of all), `iter` the iteration count of
every loop. -/
structure Assignment where
  term : SCEV → Int
  iter : Nat → Int

mutual
/-- Value of an expression under an assignment: constants, sums and products
are computed, an induction expression with start `s` and step `t` on loop `l`
is `s + t * iter l`, every other node is looked up. -/
def value (a : Assignment) : SCEV → Int
  | SCEV.constant _ v => v
  | SCEV.addExpr ops => valueSum a ops
  | SCEV.mulExpr ops => valueProd a ops
  | SCEV.addRecExpr s t l => value a s + value a t * a.iter l
  | SCEV.truncate op ty => a.term (SCEV.truncate op ty)
  | SCEV.zeroExtend op ty => a.term (SCEV.zeroExtend op ty)
  | SCEV.signExtend op ty => a.term (SCEV.signExtend op ty)
  | SCEV.udivExpr l r => a.term (SCEV.udivExpr l r)
  | SCEV.umaxExpr ops => a.term (SCEV.umaxExpr ops)
  | SCEV.smaxExpr ops => a.term (SCEV.smaxExpr ops)
  | SCEV.unknown ty i => a.term (SCEV.unknown ty i)
  | SCEV.couldNotCompute => a.term SCEV.couldNotCompute
/-- Sum of the values of an operand list. -/
def valueSum (a : Assignment) : List SCEV → Int
  | [] => 0
  | x :: xs => value a x + valueSum a xs
/-- Product of the values of an operand list. -/
def valueProd (a : Assignment) : List SCEV → Int
  | [] => 1
  | x :: xs => value a x * valueProd a xs
end

mutual
/-- The expressions built from constants, opaque terms, add, multiply and
induction expressions only (no cast, divide or max anywhere). -/
def isCastFreeAffine : SCEV → Bool
  | SCEV.constant _ _ => true
  | SCEV.unknown _ _ => true
  | SCEV.addExpr ops => allCastFreeAffine ops
  | SCEV.mulExpr ops => allCastFreeAffine ops
  | SCEV.addRecExpr s t _ => isCastFreeAffine s && isCastFreeAffine t
  | _ => false
/-- Every operand of a list is cast-free affine. -/
def allCastFreeAffine : List SCEV → Bool
  | [] => true
  | x :: xs => isCastFreeAffine x && allCastFreeAffine xs
end

/-- The provider's product and sum keep the value of what they are given. -/
def ValuePreserving (SE : ScalarEvolution) : Prop :=
  (∀ a ops, value a (SE.getMulExpr ops) = valueProd a ops) ∧
  (∀ a ops, value a (SE.getAddExpr ops) = valueSum a ops)

/-- Modelled from the spec: a second, minimal form of the helper `divide` of
`tsar/Support/SCEVUtils.h` (not among the sources), which succeeds in the
trivial cases only (equal operands, zero numerator, denominator one) and fails,
with remainder = numerator, elsewhere. -/
def trivialDivide (N D : SCEV) : SCEV × SCEV :=
  if SCEV.beq N D then (SCEV.constant D.getType 1, SCEV.constant D.getType 0)
  else if N.isZero then (SCEV.constant D.getType 0, SCEV.constant D.getType 0)
  else if D.isOne then (N, SCEV.constant D.getType 0)
  else (SCEV.constant D.getType 0, N)

/-- A provider that builds every expression exactly as it is given, without any
simplification, and divides in the trivial cases only. -/
def exactSE : ScalarEvolution where
  getMulExpr := SCEV.mulExpr
  getAddExpr := SCEV.addExpr
  getTruncateExpr := SCEV.truncate
  getSignExtendExpr := SCEV.signExtend
  getZeroExtendExpr := SCEV.zeroExtend
  getTruncateOrZeroExtend := fun e ty =>
    if e.getType == ty then e
    else if ty < e.getType then SCEV.truncate e ty
    else SCEV.zeroExtend e ty
  getAddRecExpr := SCEV.addRecExpr
  getSCEV := refSE.getSCEV
  divide := trivialDivide

/-- The expression x + 3 * {1,+,4}<7>. -/
def sampleAffine : SCEV :=
  SCEV.addExpr [SCEV.unknown 64 0,
    SCEV.mulExpr [SCEV.constant 64 3,
      SCEV.addRecExpr (SCEV.constant 64 1) (SCEV.constant 64 4) 7]]

/-! ## Conditions on the provider -/

mutual
/-- The not-computable marker occurs nowhere in the expression (the provider
never builds an expression over the marker). -/
def SCEV.isComputable : SCEV → Bool
  | SCEV.constant _ _ => true
  | SCEV.truncate op _ => SCEV.isComputable op
  | SCEV.zeroExtend op _ => SCEV.isComputable op
  | SCEV.signExtend op _ => SCEV.isComputable op
  | SCEV.addExpr ops => SCEV.allComputable ops
  | SCEV.mulExpr ops => SCEV.allComputable ops
  | SCEV.udivExpr l r => SCEV.isComputable l && SCEV.isComputable r
  | SCEV.addRecExpr s t _ => SCEV.isComputable s && SCEV.isComputable t
  | SCEV.umaxExpr ops => SCEV.allComputable ops
  | SCEV.smaxExpr ops => SCEV.allComputable ops
  | SCEV.unknown _ _ => true
  | SCEV.couldNotCompute => false
/-- The marker occurs in no operand of the list. -/
def SCEV.allComputable : List SCEV → Bool
  | [] => true
  | x :: xs => SCEV.isComputable x && SCEV.allComputable xs
end

/-- The provider builds expressions without the not-computable marker from
expressions without it. -/
structure KeepsComputable (SE : ScalarEvolution) : Prop where
  mul : ∀ ops, (∀ e ∈ ops, e.isComputable = true) → (SE.getMulExpr ops).isComputable = true
  trunc : ∀ e ty, e.isComputable = true → (SE.getTruncateExpr e ty).isComputable = true
  sext : ∀ e ty, e.isComputable = true → (SE.getSignExtendExpr e ty).isComputable = true
  zext : ∀ e ty, e.isComputable = true → (SE.getZeroExtendExpr e ty).isComputable = true
  truncOrZext : ∀ e ty, e.isComputable = true →
    (SE.getTruncateOrZeroExtend e ty).isComputable = true
  quotient : ∀ a b, a.isComputable = true → b.isComputable = true →
    (SE.divide a b).1.isComputable = true

/-- On constants of one type whose values fit the non-negative signed range of
the type, the provider divides as on integers and multiplies exactly; dividing a
constant by itself leaves no remainder. -/
structure ConstantArithmetic (SE : ScalarEvolution) : Prop where
  divide : ∀ (ty : Nat) (a b : Int), 0 ≤ a → 0 < b → a < 2 ^ (ty - 1) → b < 2 ^ (ty - 1) →
    SE.divide (SCEV.constant ty a) (SCEV.constant ty b) =
      (SCEV.constant ty (a / b), SCEV.constant ty (a % b))
  self : ∀ (ty : Nat) (a : Int),
    (SE.divide (SCEV.constant ty a) (SCEV.constant ty a)).2.isZero = true
  mul : ∀ (ty : Nat) (ps : List Int), ps ≠ [] → (∀ p ∈ ps, 0 < p) → ps.prod < 2 ^ (ty - 1) →
    SE.getMulExpr (ps.map (SCEV.constant ty)) = SCEV.constant ty ps.prod

/-! ## Sample inputs -/

/-- A valid element access with the given subscripts. -/
def access (Ptr : Nat) (Subscripts : List SCEV) : Element :=
  { Ptr := Ptr, Subscripts := Subscripts, IsElement := true, IsValid := true }

/-- An array of two dimensions whose sizes are both hinted (`[5, 10]`), with the
accesses [2, 5] and [3, 7]. -/
def hintedArray : Array :=
  { Base := 0, Dims := [none, none], RangeRef := true,
    Elements := [access 1 [SCEV.constant 64 2, SCEV.constant 64 5],
                 access 2 [SCEV.constant 64 3, SCEV.constant 64 7]] }

/-- The reference `&A[x][w]` passed to a call: a valid range that is not an
element access. -/
def callRange : Element :=
  { Ptr := 1, Subscripts := [SCEV.unknown 64 1, SCEV.unknown 64 2], IsValid := true }

/-- An array without a hint, as the collector leaves it: the range `callRange`
followed by the element accesses [n * y, a] and [n * z, b], with `n` the opaque
term 100. -/
def mixedArray : Array :=
  { Base := 0, RangeRef := true,
    Elements := [callRange,
                 access 2 [SCEV.mulExpr [SCEV.unknown 64 100, SCEV.unknown 64 3],
                           SCEV.unknown 64 4],
                 access 3 [SCEV.mulExpr [SCEV.unknown 64 100, SCEV.unknown 64 5],
                           SCEV.unknown 64 6]] }

/-- The array `mixedArray` with the range `callRange` after the two element
accesses. -/
def mixedArrayRangeLast : Array :=
  { mixedArray with
    Elements := [access 2 [SCEV.mulExpr [SCEV.unknown 64 100, SCEV.unknown 64 3],
                           SCEV.unknown 64 4],
                 access 3 [SCEV.mulExpr [SCEV.unknown 64 100, SCEV.unknown 64 5],
                           SCEV.unknown 64 6],
                 callRange] }

/-- An array without a hint whose accesses are [i * 10, j] and [i * 10, k], the
product `i * 10` being the induction expression {0,+,10} of loop 0. -/
def rowMajorArray : Array :=
  { Base := 0, RangeRef := true,
    Elements := [access 1 [SCEV.addRecExpr (SCEV.constant 64 0) (SCEV.constant 64 10) 0,
                           SCEV.addRecExpr (SCEV.constant 64 0) (SCEV.constant 64 1) 1],
                 access 2 [SCEV.addRecExpr (SCEV.constant 64 0) (SCEV.constant 64 10) 0,
                           SCEV.unknown 64 7]] }

/-- A load through one indexing step with the single index `%9`, of a base
object hinted as `[-1, 10]`. -/
def shortAccess : MemoryAccess :=
  { IsScalarAccess := true, Ptr := 5, BasePtr := 1,
    GEPChain := [{ id := 5, Indices := [Value.other 9] }] }

/-- The registry after `shortAccess` is processed from an empty registry. -/
def shortAccessRegistry : Registry :=
  { DimsCache := [(1, [-1, 10])],
    Arrays := [{ Base := 1, Dims := [none, none],
                 Elements := [{ Ptr := 5, IsElement := true,
                                Subscripts := [SCEV.constant 64 0, SCEV.unknown 64 9] }],
                 RangeRef := true }] }

/-- An array of two dimensions, dimension 0 already not-computable, whose only
access is [0, j]. -/
def zeroArray : Array :=
  { Base := 0, Dims := [some SCEV.couldNotCompute, none],
    Elements := [access 1 [SCEV.constant 64 0, SCEV.unknown 64 2]] }

/-- An array of three dimensions, none with a hinted size, as the collector
leaves it: the valid access [6, 4, 1] and a two-subscript access padded to
[0, 3, 2], which the collector leaves not valid. -/
def paddedArray : Array :=
  { Base := 0, Dims := [none, none, none], RangeRef := true,
    Elements := [access 1 [SCEV.constant 64 6, SCEV.constant 64 4, SCEV.constant 64 1],
                 { Ptr := 2, IsElement := true,
                   Subscripts := [SCEV.constant 64 0, SCEV.constant 64 3, SCEV.constant 64 2] }] }

/-- The array `paddedArray` without its element that is not valid. -/
def paddedArrayValidOnly : Array :=
  { paddedArray with Elements := paddedArray.Elements.filter (fun e => e.IsValid) }

/-- Two loads of the same base object hinted as `[-1, -1, -1]`: one through a
step with the indices 6, 4, 1 and one through a step with the indices 3, 2. -/
def paddedAccesses : List MemoryAccess :=
  [{ IsScalarAccess := true, Ptr := 1, BasePtr := 0,
     GEPChain := [{ id := 1, Indices := [Value.constantInt 64 6, Value.constantInt 64 4,
                                         Value.constantInt 64 1] }] },
   { IsScalarAccess := true, Ptr := 2, BasePtr := 0,
     GEPChain := [{ id := 2, Indices := [Value.constantInt 64 3, Value.constantInt 64 2] }] }]

/-- An array without a hint whose only valid element access has no subscript,
next to the range `callRange` passed to a call. -/
def scalarArray : Array :=
  { Base := 0, RangeRef := true, Elements := [access 2 [], callRange] }

/-- A load of the base object itself and a call that receives the address of
`%1[%2]` of the same object, which has no hinted dimension. -/
def scalarAccesses : List MemoryAccess :=
  [{ IsScalarAccess := true, Ptr := 2, BasePtr := 0, GEPChain := [] },
   { IsScalarAccess := false, Ptr := 1, BasePtr := 0,
     GEPChain := [{ id := 1, Indices := [Value.other 1, Value.other 2] }] }]

/-- An array without a hint whose valid element accesses have one and two
subscripts. -/
def conflictingArray : Array :=
  { Base := 0, RangeRef := true,
    Elements := [access 1 [SCEV.unknown 64 1],
                 access 2 [SCEV.unknown 64 2, SCEV.unknown 64 3]] }

/-- An array without a hint with the element accesses [n * y, a] and
[n * z, b], `n` being the opaque term 100. -/
def symbolicArray : Array :=
  { Base := 0, RangeRef := true,
    Elements := [access 2 [SCEV.mulExpr [SCEV.unknown 64 100, SCEV.unknown 64 3],
                           SCEV.unknown 64 4],
                 access 3 [SCEV.mulExpr [SCEV.unknown 64 100, SCEV.unknown 64 5],
                           SCEV.unknown 64 6]] }

/-- The array `symbolicArray` after `fillArrayDimensionsSizes`: dimension 1 has
the symbolic size `n`. -/
def symbolicArrayFilled : Array :=
  { symbolicArray with Dims := [some SCEV.couldNotCompute, some (SCEV.unknown 64 100)],
                       Delinearized := true }

/-- A delinearized array of two dimensions whose dimension 1 has the constant
size 10, with the element access [20, j]. -/
def constantSizeArray : Array :=
  { Base := 0, Dims := [some SCEV.couldNotCompute, some (SCEV.constant 64 10)],
    Delinearized := true, RangeRef := true,
    Elements := [access 1 [SCEV.constant 64 20, SCEV.unknown 64 2]] }

/-- A call that receives the address `&base[%1][%2]` of an object hinted with two
dimensions of unknown size; the object has no other access. -/
def callOnlyAccesses : List MemoryAccess :=
  [{ IsScalarAccess := false, Ptr := 1, BasePtr := 0,
     GEPChain := [{ id := 1, Indices := [Value.other 1, Value.other 2] }] }]

/-- An array without a hint with the element access [%7, %4] and the whole
array passed to a call, a range without subscripts. -/
def wholeArrayCall : Array :=
  { Base := 0, RangeRef := true,
    Elements := [access 2 [SCEV.unknown 64 7, SCEV.unknown 64 4],
                 { Ptr := 0, IsValid := true }] }

/-- A load through one step with the indices %7, %4 of an object without a
hint, and a call that receives the object itself. -/
def wholeArrayCallAccesses : List MemoryAccess :=
  [{ IsScalarAccess := true, Ptr := 2, BasePtr := 0,
     GEPChain := [{ id := 2, Indices := [Value.other 7, Value.other 4] }] },
   { IsScalarAccess := false, Ptr := 0, BasePtr := 0, GEPChain := [] }]

/-- A load through one step with the three indices %1, %2, %3 of an object
hinted with two dimensions of unknown size. -/
def longStepAccesses : List MemoryAccess :=
  [{ IsScalarAccess := true, Ptr := 1, BasePtr := 0,
     GEPChain := [{ id := 1, Indices := [Value.other 1, Value.other 2, Value.other 3] }] }]

/-- A load with the indices %1, %2 of an object hinted as `[-1, 10]`, a call
that receives the object itself, and a load through one step with the three
indices %3, %4, %5. -/
def unevenAccesses : List MemoryAccess :=
  [{ IsScalarAccess := true, Ptr := 1, BasePtr := 0,
     GEPChain := [{ id := 1, Indices := [Value.other 1, Value.other 2] }] },
   { IsScalarAccess := false, Ptr := 0, BasePtr := 0, GEPChain := [] },
   { IsScalarAccess := true, Ptr := 3, BasePtr := 0,
     GEPChain := [{ id := 3, Indices := [Value.other 3, Value.other 4, Value.other 5] }] }]

/-- The array that the collector builds from `unevenAccesses`. -/
def unevenArray : Array :=
  { Base := 0, Dims := [none, none], RangeRef := true,
    Elements := [access 1 [SCEV.unknown 64 1, SCEV.unknown 64 2],
                 { Ptr := 0, IsValid := true },
                 access 3 [SCEV.unknown 64 3, SCEV.unknown 64 4, SCEV.unknown 64 5]] }

/-! ## Expressions without a reachable induction expression -/

mutual
/-- The decomposer reaches an induction expression in `E`: `E` is one, or a
cast of, or a sum or product with an operand in which one is reached. -/
def reachesAddRec : SCEV → Bool
  | SCEV.addRecExpr _ _ _ => true
  | SCEV.truncate op _ => reachesAddRec op
  | SCEV.zeroExtend op _ => reachesAddRec op
  | SCEV.signExtend op _ => reachesAddRec op
  | SCEV.addExpr ops => anyReachesAddRec ops
  | SCEV.mulExpr ops => anyReachesAddRec ops
  | _ => false
/-- An induction expression is reached in some operand of the list. -/
def anyReachesAddRec : List SCEV → Bool
  | [] => false
  | x :: xs => reachesAddRec x || anyReachesAddRec xs
end

/-- The expression trunc(x + 3) to 32 bits. -/
def sampleCast : SCEV :=
  SCEV.truncate (SCEV.addExpr [SCEV.unknown 64 0, SCEV.constant 64 3]) 32

mutual
/-- The safety flag survives the walk of the decomposer over `E`: no cast is
entered before the walk stops, that is before an induction expression is reached
or the expression is exhausted. -/
def keepsFlag : SCEV → Bool
  | SCEV.truncate _ _ => false
  | SCEV.zeroExtend _ _ => false
  | SCEV.signExtend _ _ => false
  | SCEV.addExpr ops => keepsFlagOperands ops
  | SCEV.mulExpr ops => keepsFlagOperands ops
  | _ => true
/-- The safety flag survives the operand loop: it survives every operand up to
and including the first one in which an induction expression is reached. -/
def keepsFlagOperands : List SCEV → Bool
  | [] => true
  | x :: xs => keepsFlag x && (reachesAddRec x || keepsFlagOperands xs)
end

/-- The prime table for the bound `c` is returned and holds exactly the primes
up to `c`. -/
def PrimeTableOK (c : Nat) : Prop :=
  ∃ Primes, countPrimeNumbers c = some Primes ∧ ∀ p, p ∈ Primes ↔ Nat.Prime p ∧ p ≤ c

/-- An array of two dimensions while its sizes are inferred, dimension 0 already
not-computable, with the element accesses [6, 1] and [4, 3]. -/
def constantArray : Array :=
  { Base := 0, Dims := [some SCEV.couldNotCompute, none], RangeRef := true,
    Elements := [access 1 [SCEV.constant 64 6, SCEV.constant 64 1],
                 access 2 [SCEV.constant 64 4, SCEV.constant 64 3]] }

/-- A second reference passed to a call, `&A[u][v]`: a valid range that is not an
element access. -/
def secondRange : Element :=
  { Ptr := 4, Subscripts := [SCEV.unknown 64 7, SCEV.unknown 64 8], IsValid := true }

/-- An array without a hint, as the collector leaves it: the ranges `callRange`
and `secondRange` followed by the element accesses [n * y, a] and [n * z, b],
with `n` the opaque term 100. -/
def twoRangesArray : Array :=
  { Base := 0, RangeRef := true,
    Elements := [callRange, secondRange,
                 access 2 [SCEV.mulExpr [SCEV.unknown 64 100, SCEV.unknown 64 3],
                           SCEV.unknown 64 4],
                 access 3 [SCEV.mulExpr [SCEV.unknown 64 100, SCEV.unknown 64 5],
                           SCEV.unknown 64 6]] }

/-- An array without a hint with the element accesses [16, 1] and [24, 2] and a
range [10, 5] passed to a call. -/
def inferredEightArray : Array :=
  { Base := 0, RangeRef := true,
    Elements := [access 1 [SCEV.constant 64 16, SCEV.constant 64 1],
                 access 2 [SCEV.constant 64 24, SCEV.constant 64 2],
                 { Ptr := 3, Subscripts := [SCEV.constant 64 10, SCEV.constant 64 5],
                   IsValid := true }] }

/-- The value of `PrevDimSizesProduct` in `cleanSubscripts` at the level `DimIdx`,
when the loop over the levels is entered at the level `Top` with the product
`Prev`: `Prev` times the sizes of the dimensions `Top`, ..., `DimIdx`, multiplied
in that order.  `none` when `DimIdx` is not a level of the loop or a size is
missing. -/
def prevDimSizesProduct (SE : ScalarEvolution) (mIndexTy : Nat) (A : Array) :
    Nat → SCEV → Nat → Option SCEV
  | 0, _, _ => none
  | Top + 1, Prev, DimIdx =>
    match A.getDimSize (Top + 1) with
    | none => none
    | some sz =>
      let Prev1 := SE.getMulExpr [Prev, SE.getTruncateOrZeroExtend sz mIndexTy]
      if DimIdx = Top + 1 then some Prev1
      else prevDimSizesProduct SE mIndexTy A Top Prev1 DimIdx

/-- An array without a hint with the element accesses [n * m * a, n * b, c] and
[n * m * d, n * e, f], `n` and `m` being the opaque terms 100 and 101. -/
def threeLevelArray : Array :=
  { Base := 0, RangeRef := true,
    Elements := [access 1 [SCEV.mulExpr [SCEV.unknown 64 100, SCEV.unknown 64 101,
                                         SCEV.unknown 64 1],
                           SCEV.mulExpr [SCEV.unknown 64 100, SCEV.unknown 64 2],
                           SCEV.unknown 64 3],
                 access 2 [SCEV.mulExpr [SCEV.unknown 64 100, SCEV.unknown 64 101,
                                         SCEV.unknown 64 4],
                           SCEV.mulExpr [SCEV.unknown 64 100, SCEV.unknown 64 5],
                           SCEV.unknown 64 6]] }

/-- The array `threeLevelArray` after `fillArrayDimensionsSizes`: the sizes of the
dimensions 1 and 2 are the symbolic `m` and `n`. -/
def threeLevelArrayFilled : Array :=
  { threeLevelArray with
    Dims := [some SCEV.couldNotCompute, some (SCEV.unknown 64 101), some (SCEV.unknown 64 100)],
    Delinearized := true }

/-! ## The expressions covered by the common-divisor property of `findGCD` -/

theorem valueProd_append (a : Assignment) (xs ys : List SCEV) :
    valueProd a (xs ++ ys) = valueProd a xs * valueProd a ys := by
  induction xs with
  | nil => simp [valueProd]
  | cons x xs ih => simp [valueProd, ih, mul_assoc]

theorem valueSum_append (a : Assignment) (xs ys : List SCEV) :
    valueSum a (xs ++ ys) = valueSum a xs + valueSum a ys := by
  induction xs with
  | nil => simp [valueSum]
  | cons x xs ih => simp [valueSum, ih, add_assoc]

theorem allCastFreeAffine_append (xs ys : List SCEV) :
    allCastFreeAffine (xs ++ ys) = (allCastFreeAffine xs && allCastFreeAffine ys) := by
  induction xs with
  | nil => simp [allCastFreeAffine]
  | cons x xs ih => simp [allCastFreeAffine, ih, Bool.and_assoc]

open SCEVBionmialSearch in
mutual
/-- On a cast-free affine expression a visit that starts with no loop and ends
with one has set `Coef` and `FreeTerm` to a value-preserving decomposition. -/
theorem visit_value (SE : ScalarEvolution) (hSE : ValuePreserving SE) (a : Assignment) :
    ∀ (E : SCEV) (s S : SCEVBionmialSearch), isCastFreeAffine E = true → s.L = none →
      visit SE E s = some S → ∀ loop, S.L = some loop →
      ∃ C F, S.Coef = some C ∧ S.FreeTerm = some F ∧
        value a E = value a C * a.iter loop + value a F
  | SCEV.constant ty v, s, S, _, hs, h, loop, hL => by
    simp [visit] at h; subst h; simp [hs] at hL
  | SCEV.unknown ty v, s, S, _, hs, h, loop, hL => by
    simp [visit] at h; subst h; simp [hs] at hL
  | SCEV.addRecExpr st sp l, s, S, _, hs, h, loop, hL => by
    simp [visit] at h; subst h
    simp at hL; subst hL
    exact ⟨sp, st, rfl, rfl, by simp [value]; ring⟩
  | SCEV.mulExpr ops, s, S, hE, hs, h, loop, hL => by
    simp only [visit, hs, Option.isSome_none, Bool.false_eq_true, if_false] at h
    cases hv : visitOperands SE ops s with
    | none => simp [hv] at h
    | some r =>
      obtain ⟨s1, pre, post⟩ := r
      simp only [hv] at h
      cases hL1 : s1.L with
      | none =>
        simp [finishMul, hL1] at h; subst h; simp [hL1] at hL
      | some l1 =>
        have hcf : allCastFreeAffine ops = true := by simpa [isCastFreeAffine] using hE
        obtain ⟨op, hops, C, F, hC, hF, hval⟩ :=
          visitOperands_value SE hSE a ops s s1 pre post hcf hs hv l1 hL1
        simp [finishMul, hL1, hC, hF] at h; subst h
        simp [hL1] at hL; subst hL
        refine ⟨_, _, rfl, rfl, ?_⟩
        simp only [value, hSE.1, hops, valueProd_append, valueProd, hval]
        ring
  | SCEV.addExpr ops, s, S, hE, hs, h, loop, hL => by
    simp only [visit, hs, Option.isSome_none, Bool.false_eq_true, if_false] at h
    cases hv : visitOperands SE ops s with
    | none => simp [hv] at h
    | some r =>
      obtain ⟨s1, pre, post⟩ := r
      simp only [hv] at h
      cases hL1 : s1.L with
      | none =>
        simp [finishAdd, hL1] at h; subst h; simp [hL1] at hL
      | some l1 =>
        have hcf : allCastFreeAffine ops = true := by simpa [isCastFreeAffine] using hE
        obtain ⟨op, hops, C, F, hC, hF, hval⟩ :=
          visitOperands_value SE hSE a ops s s1 pre post hcf hs hv l1 hL1
        simp [finishAdd, hL1, hF] at h; subst h
        simp [hL1] at hL; subst hL
        refine ⟨C, _, hC, rfl, ?_⟩
        simp only [value, hSE.2, hops, valueSum_append, valueSum, hval]
        ring
  | SCEV.truncate _ _, _, _, hE, _, _, _, _ => by simp [isCastFreeAffine] at hE
  | SCEV.zeroExtend _ _, _, _, hE, _, _, _, _ => by simp [isCastFreeAffine] at hE
  | SCEV.signExtend _ _, _, _, hE, _, _, _, _ => by simp [isCastFreeAffine] at hE
  | SCEV.udivExpr _ _, _, _, hE, _, _, _, _ => by simp [isCastFreeAffine] at hE
  | SCEV.umaxExpr _, _, _, hE, _, _, _, _ => by simp [isCastFreeAffine] at hE
  | SCEV.smaxExpr _, _, _, hE, _, _, _, _ => by simp [isCastFreeAffine] at hE
  | SCEV.couldNotCompute, _, _, hE, _, _, _, _ => by simp [isCastFreeAffine] at hE
/-- The operand loop stops at the operand that carries the loop, and the fields
then hold a value-preserving decomposition of that operand. -/
theorem visitOperands_value (SE : ScalarEvolution) (hSE : ValuePreserving SE) (a : Assignment) :
    ∀ (ops : List SCEV) (s S : SCEVBionmialSearch) (pre post : List SCEV),
      allCastFreeAffine ops = true → s.L = none →
      visitOperands SE ops s = some (S, pre, post) → ∀ loop, S.L = some loop →
      ∃ op, ops = pre ++ op :: post ∧ ∃ C F, S.Coef = some C ∧ S.FreeTerm = some F ∧
        value a op = value a C * a.iter loop + value a F
  | [], s, S, pre, post, _, hs, h, loop, hL => by
    simp [visitOperands] at h
    obtain ⟨h1, _, _⟩ := h
    subst h1; simp [hs] at hL
  | op :: rest, s, S, pre, post, hE, hs, h, loop, hL => by
    simp only [allCastFreeAffine, Bool.and_eq_true] at hE
    simp only [visitOperands] at h
    cases hv : visit SE op s with
    | none => simp [hv] at h
    | some s1 =>
      simp only [hv] at h
      cases hL1 : s1.L with
      | some l1 =>
        simp [hL1] at h
        obtain ⟨h1, h2, h3⟩ := h
        subst h1 h2 h3
        obtain ⟨C, F, hC, hF, hval⟩ := visit_value SE hSE a op s s1 hE.1 hs hv loop hL
        exact ⟨op, by simp, C, F, hC, hF, hval⟩
      | none =>
        simp only [hL1, Option.isSome_none, Bool.false_eq_true, if_false] at h
        cases hr : visitOperands SE rest s1 with
        | none => simp [hr] at h
        | some r =>
          obtain ⟨s2, pre2, post2⟩ := r
          simp [hr] at h
          obtain ⟨h1, h2, h3⟩ := h
          subst h1 h2 h3
          obtain ⟨op2, hops, C, F, hC, hF, hval⟩ :=
            visitOperands_value SE hSE a rest s1 s2 pre2 post2 hE.2 hL1 hr loop hL
          exact ⟨op2, by simp [hops], C, F, hC, hF, hval⟩
end

/-- C4: with the hint [5, 10] every size is stored as a constant, so the size of
dimension 1 is known, and the function returns before `setDelinearized()`:
`delinearized` stays false. -/
theorem fill_constant_hint_not_delinearized :
    fillArrayDimensionsSizes refSE 64 [5, 10] hintedArray =
      some ([5, 10], { hintedArray with
        Dims := [some (SCEV.constant 64 5), some (SCEV.constant 64 10)] }) ∧
    (fillArrayDimensionsSizes refSE 64 [5, 10] hintedArray).map
      (fun r => (r.2.isKnownDimSize 1, r.2.Delinearized)) = some (true, false) ∧
    (fillArrayDimensionsSizes refSE 64 [10] { hintedArray with Dims := [none], Elements := [] }).map
      (fun r => r.2.Delinearized) = some false :=
  ⟨rfl, rfl, rfl⟩

/-- C7: for the array `mixedArray` the size of dimension 1 is the GCD `n` of the
element accesses; at level 1 the range `callRange` leaves a remainder, becomes
invalid, and the loop over the elements is left, so the two accesses after it
keep their subscripts `n * y` and `n * z` although `n` divides them exactly.
With the range placed last, both become `y` and `z`. -/
theorem clean_break_skips_later_elements :
    (fillArrayDimensionsSizes refSE 64 [] mixedArray).map (fun r => (r.2.Dims, r.2.Delinearized)) =
      some ([some SCEV.couldNotCompute, some (SCEV.unknown 64 100)], true) ∧
    ((fillArrayDimensionsSizes refSE 64 [] mixedArray).bind
        (fun r => cleanSubscripts refSE 64 r.2)).map (fun A => A.Elements) =
      some [{ callRange with IsValid := false },
            access 2 [SCEV.mulExpr [SCEV.unknown 64 100, SCEV.unknown 64 3], SCEV.unknown 64 4],
            access 3 [SCEV.mulExpr [SCEV.unknown 64 100, SCEV.unknown 64 5], SCEV.unknown 64 6]] ∧
    ((fillArrayDimensionsSizes refSE 64 [] mixedArrayRangeLast).bind
        (fun r => cleanSubscripts refSE 64 r.2)).map (fun A => A.Elements) =
      some [access 2 [SCEV.unknown 64 3, SCEV.unknown 64 4],
            access 3 [SCEV.unknown 64 5, SCEV.unknown 64 6],
            { callRange with IsValid := false }] :=
  ⟨rfl, rfl, rfl⟩

/-! ## Hinted sizes -/

theorem setDimSize_eq (A A1 : Array) (i : Nat) (e : SCEV) (h : A.setDimSize i e = some A1) :
    i < A.Dims.length ∧ A1 = { A with Dims := A.Dims.set i (some e) } := by
  unfold Array.setDimSize at h
  split at h
  · rename_i hi
    exact ⟨hi, by injection h with h; exact h.symm⟩
  · simp at h

theorem setHintedSizes_spec (ty : Nat) (DimSizes : List Int) :
    ∀ (I : Nat) (A : Array) (r : Nat × Array),
      setHintedSizes ty DimSizes I I A = some r →
      ∃ D, r.2 = { A with Dims := D } ∧ D.length = A.Dims.length ∧ r.1 ≤ I ∧
        (∀ i, i < r.1 ∨ I ≤ i → D[i]? = A.Dims[i]?) ∧
        (∀ i, r.1 ≤ i → i < I →
          ∃ z, DimSizes[i]? = some z ∧ 0 ≤ z ∧ D[i]? = some (some (getConstant ty z))) ∧
        (r.1 = 0 ∨ ∃ z, DimSizes[r.1 - 1]? = some z ∧ z < 0) := by
  intro I
  induction I with
  | zero =>
    intro A r h
    simp [setHintedSizes] at h
    subst h
    exact ⟨A.Dims, rfl, rfl, le_refl _, fun _ _ => rfl, fun i h1 h2 => by omega, Or.inl rfl⟩
  | succ I ih =>
    intro A r h
    simp only [setHintedSizes] at h
    cases hz : DimSizes[I]? with
    | none => simp [hz] at h
    | some z =>
      simp only [hz] at h
      by_cases hneg : z < 0
      · simp [hneg] at h
        subst h
        exact ⟨A.Dims, rfl, rfl, le_refl _, fun _ _ => rfl, fun i h1 h2 => by simp at h1; omega,
          Or.inr ⟨z, by simpa using hz, hneg⟩⟩
      · simp only [hneg, if_false] at h
        cases hs : A.setDimSize I (getConstant ty z) with
        | none => simp [hs] at h
        | some A1 =>
          simp only [hs] at h
          obtain ⟨hI, hA1⟩ := setDimSize_eq A A1 I _ hs
          obtain ⟨D, hD, hlen, hle, hout, hin, hlast⟩ := ih A1 r h
          subst hA1
          refine ⟨D, by simpa using hD, by simpa using hlen, by omega, ?_, ?_, hlast⟩
          · intro i hi
            have := hout i (by omega)
            rw [this]
            simp only []
            rw [List.getElem?_set_ne]
            omega
          · intro i h1 h2
            by_cases hiI : i = I
            · subst hiI
              refine ⟨z, hz, by omega, ?_⟩
              rw [hout i (Or.inr (le_refl _))]
              simp [List.getElem?_set, hI]
            · exact hin i h1 (by omega)

theorem setHintedSizes_isSome (ty : Nat) (DimSizes : List Int) :
    ∀ (I L : Nat) (A : Array), I ≤ DimSizes.length → I ≤ A.Dims.length →
      ∃ r, setHintedSizes ty DimSizes I L A = some r := by
  intro I
  induction I with
  | zero => intro L A _ _; exact ⟨_, rfl⟩
  | succ I ih =>
    intro L A h1 h2
    simp only [setHintedSizes]
    have hz : DimSizes[I]? = some DimSizes[I] := List.getElem?_eq_getElem (by omega)
    rw [hz]
    simp only
    split
    · exact ⟨_, rfl⟩
    · have hs : A.setDimSize I (getConstant ty DimSizes[I]) =
          some { A with Dims := A.Dims.set I (some (getConstant ty DimSizes[I])) } := by
        simp [Array.setDimSize]; omega
      rw [hs]
      exact ih I _ (by omega) (by simp; omega)

theorem findLastConstDim_spec (A : Array) (m : Nat) :
    ∀ k, m ≤ k →
      (∀ i, m ≤ i → i < k → ∃ e, A.getDimSize i = some e ∧ e.isConstant = true) →
      (m = 0 ∨ ∃ e, A.getDimSize (m - 1) = some e ∧ e.isConstant = false) →
      findLastConstDim A k = some m := by
  intro k
  induction k with
  | zero =>
    intro hm _ _
    have : m = 0 := by omega
    subst this; rfl
  | succ k ih =>
    intro hm hin hlast
    simp only [findLastConstDim]
    by_cases hmk : m = k + 1
    · subst hmk
      rcases hlast with h0 | ⟨e, he, hc⟩
      · omega
      · simp at he
        simp [he, hc]
    · obtain ⟨e, he, hc⟩ := hin k (by omega) (by omega)
      simp only [he, hc, if_true]
      exact ih (by omega) (fun i h1 h2 => hin i h1 (by omega)) hlast

/-- C10: with the hint [-1, c1, ..., c(n-1)], every `ci` positive, the sizes of
dimensions 1.. are the constants `ci`, dimension 0 is not-computable and the
array is delinearized, whatever the provider and the elements are (no GCD is
involved); `cleanSubscripts` then returns the array as it is. -/
theorem hinted_inner_sizes (SE : ScalarEvolution) (ty : Nat) (cs : List Int)
    (hcs : ∀ c ∈ cs, 0 < c) (A : Array) (hA : A.getNumberOfDims = cs.length + 1) :
    ∃ A1, fillArrayDimensionsSizes SE ty (-1 :: cs) A = some (-1 :: cs, A1) ∧
      A1 = { A with Dims := some getCouldNotCompute :: cs.map (fun c => some (getConstant ty c)),
                    Delinearized := true } ∧
      cleanSubscripts SE ty A1 = some A1 := by
  have hlenA : A.Dims.length = cs.length + 1 := hA
  obtain ⟨r, hr⟩ := setHintedSizes_isSome ty (-1 :: cs) (cs.length + 1) (cs.length + 1) A
    (by simp) (by omega)
  obtain ⟨D, hD, hlen, hle, hout, hin, hlast⟩ := setHintedSizes_spec ty (-1 :: cs) _ A r hr
  have hcsget : ∀ i z, (-1 :: cs)[i + 1]? = some z → 0 < z := by
    intro i z h
    simp at h
    exact hcs z (List.getElem?_mem h)
  have hr1 : r.1 = 1 := by
    rcases hlast with h0 | ⟨z, hz, hneg⟩
    · obtain ⟨z, hz, hpos, _⟩ := hin 0 (by omega) (by omega)
      simp at hz
      omega
    · by_contra hne
      have h2 : 2 ≤ r.1 := by
        rcases Nat.lt_or_ge r.1 2 with h | h
        · have : r.1 = 0 := by omega
          rw [this] at hz
          obtain ⟨z', hz', hpos, _⟩ := hin 0 (by omega) (by omega)
          simp at hz'
          omega
        · exact h
      have := hcsget (r.1 - 2) z (by rw [show r.1 - 2 + 1 = r.1 - 1 by omega]; exact hz)
      omega
  have hdims : D.set 0 (some getCouldNotCompute) =
      some getCouldNotCompute :: cs.map (fun c => some (getConstant ty c)) := by
    apply List.ext_getElem?
    intro i
    cases i with
    | zero =>
      have hpos : 0 < D.length := by omega
      simp [List.getElem?_set, hpos]
    | succ i =>
      rw [List.getElem?_set_ne (by omega)]
      simp only [List.getElem?_cons_succ, List.getElem?_map]
      by_cases hi : i < cs.length
      · obtain ⟨z, hz, _, hDz⟩ := hin (i + 1) (by omega) (by omega)
        simp only [List.getElem?_cons_succ] at hz
        rw [hDz, hz]; rfl
      · have h1 : D[i + 1]? = none := List.getElem?_eq_none (by omega)
        have h2 : cs[i]? = none := List.getElem?_eq_none (by omega)
        rw [h1, h2]; rfl
  obtain ⟨r1, r2⟩ := r
  simp only at hD hr1 hle hout hin hlast
  subst hr1 hD
  refine ⟨_, ?_, rfl, ?_⟩
  · have hne : ¬ (A.getNumberOfDims = 0) := by omega
    have hs0 : ({ A with Dims := D } : Array).setDimSize 0 getCouldNotCompute =
        some { A with Dims := D.set 0 (some getCouldNotCompute) } := by
      have hpos : 0 < D.length := by omega
      simp [Array.setDimSize, hpos]
    simp only [fillArrayDimensionsSizes, hne, if_false, List.length_cons, hr]
    simp [hs0, fillLoop, Array.setDelinearized, hdims]
  · have hfl : findLastConstDim
        { A with Dims := some getCouldNotCompute :: cs.map (fun c => some (getConstant ty c)),
                 Delinearized := true } (cs.length + 1) = some 1 := by
      apply findLastConstDim_spec _ 1 _ (by omega)
      · intro i h1 h2
        obtain ⟨j, rfl⟩ : ∃ j, i = j + 1 := ⟨i - 1, by omega⟩
        have hj : j < cs.length := by omega
        refine ⟨getConstant ty cs[j], ?_, rfl⟩
        simp [Array.getDimSize, List.getElem?_eq_getElem hj]
      · right
        exact ⟨getCouldNotCompute, by simp [Array.getDimSize], rfl⟩
    simp only [cleanSubscripts, Array.getNumberOfDims, List.length_cons, List.length_map]
    simp [hfl, cleanLoop]

/-- C10 at the hint [-1, 10] with the accesses [2, 5] and [3, 7]. -/
theorem hinted_inner_sizes_witness :
    ∃ A1, fillArrayDimensionsSizes refSE 64 [-1, 10] hintedArray = some ([-1, 10], A1) ∧
      A1 = { hintedArray with
        Dims := some getCouldNotCompute :: [10].map (fun c => some (getConstant 64 c)),
        Delinearized := true } ∧
      cleanSubscripts refSE 64 A1 = some A1 :=
  hinted_inner_sizes refSE 64 [10] (by decide) hintedArray rfl


/-! ## Padding -/

theorem addToArrays_spec (BasePtr N : Nat) (El : Element) :
    ∀ (As As1 : List Array), addToArrays BasePtr N El true As = some As1 →
      ∃ A ∈ As1, A.Base = BasePtr ∧ A.RangeRef = true ∧ A.Elements.getLast? = some El ∧
        A.getNumberOfDims = N := by
  intro As
  induction As with
  | nil =>
    intro As1 h
    simp [addToArrays] at h
    subst h
    refine ⟨_, List.mem_singleton_self _, rfl, rfl, rfl, ?_⟩
    simp [Array.getNumberOfDims, Array.setNumberOfDims]
  | cons A rest ih =>
    intro As1 h
    simp only [addToArrays] at h
    by_cases hb : A.Base = BasePtr
    · simp only [hb, if_true] at h
      by_cases hn : A.getNumberOfDims = N
      · simp [hn] at h
        subst h
        refine ⟨_, List.mem_cons_self _ _, rfl, by simp, by simp, hn⟩
      · simp [hn] at h
    · simp only [hb, if_false] at h
      cases hr : addToArrays BasePtr N El true rest with
      | none => simp [hr] at h
      | some rest1 =>
        simp [hr] at h
        subst h
        obtain ⟨B, hB, h1, h2, h3, h4⟩ := ih rest1 hr
        exact ⟨B, List.mem_cons_of_mem _ hB, h1, h2, h3, h4⟩

/-- C9: a load, store or atomic access that supplies `k` raw subscripts, `k`
less than the number of dimensions `N`, gets the subscript list made of `N - k`
zero subscripts followed by the `k` raw subscripts in their order, of length
`N`; the array of its base object then ends with this element and is marked as
having range references. -/
theorem padding_correct (SE : ScalarEvolution) (mIndexTy : Nat) (Hint : Nat → List Int)
    (R R1 : Registry) (I : MemoryAccess) (N : Nat) (raw : List Value)
    (hscalar : I.IsScalarAccess = true)
    (hN : N = ((R.DimsCache.lookup I.BasePtr).getD (Hint I.BasePtr)).length)
    (hraw : extractSubscriptsFromGEPs (takeGEPs N I.GEPChain).reverse = some raw)
    (hk : raw.length < N)
    (hR : processMemory SE mIndexTy Hint R I = some R1) :
    ∃ A ∈ R1.Arrays, ∃ El, A.Base = I.BasePtr ∧ A.RangeRef = true ∧
      A.getNumberOfDims = N ∧ A.Elements.getLast? = some El ∧
      El.Subscripts = List.replicate (N - raw.length) (getZero mIndexTy) ++ raw.map SE.getSCEV ∧
      El.Subscripts.length = N ∧ El.IsElement = true := by
  have hm : ∀ Ptr, makeElement SE mIndexTy true Ptr N raw =
      ({ Ptr := Ptr, IsElement := true,
         Subscripts := List.replicate (N - raw.length) (getZero mIndexTy) ++ raw.map SE.getSCEV },
       true) := by
    intro Ptr
    unfold makeElement
    by_cases he : raw = []
    · subst he; simp at hk; simp [hk]
    · simp [hk, he]
  unfold processMemory at hR
  cases hc : R.DimsCache.lookup I.BasePtr with
  | none =>
    simp only [hc, Option.getD_none] at hN hR
    rw [← hN, hraw] at hR
    simp only [hscalar, hm] at hR
    split at hR
    · rename_i As1 ha
      simp at hR
      subst hR
      obtain ⟨A, hA, h1, h2, h3, h4⟩ := addToArrays_spec _ _ _ _ _ ha
      exact ⟨A, hA, _, h1, h2, h4, h3, rfl, by simp; omega, rfl⟩
    · simp at hR
  | some d =>
    simp only [hc, Option.getD_some] at hN hR
    rw [← hN, hraw] at hR
    simp only [hscalar, hm] at hR
    split at hR
    · rename_i As1 ha
      simp at hR
      subst hR
      obtain ⟨A, hA, h1, h2, h3, h4⟩ := addToArrays_spec _ _ _ _ _ ha
      exact ⟨A, hA, _, h1, h2, h4, h3, rfl, by simp; omega, rfl⟩
    · simp at hR

/-- C9 at a one-subscript load from an array hinted as `[-1, 10]`. -/
theorem padding_correct_witness :
    ∃ A ∈ shortAccessRegistry.Arrays, ∃ El, A.Base = shortAccess.BasePtr ∧ A.RangeRef = true ∧
      A.getNumberOfDims = 2 ∧ A.Elements.getLast? = some El ∧
      El.Subscripts = List.replicate (2 - [Value.other 9].length) (getZero 64) ++
        [Value.other 9].map refSE.getSCEV ∧
      El.Subscripts.length = 2 ∧ El.IsElement = true :=
  padding_correct refSE 64 (fun _ => [-1, 10]) {} shortAccessRegistry shortAccess 2
    [Value.other 9] rfl rfl rfl (by decide) rfl


/-! ## Normalization of one level -/

theorem cleanElements_frame (SE : ScalarEvolution) (k : Nat) (Prev : SCEV) :
    ∀ (els els1 : List Element), cleanElements SE k Prev els = some els1 →
      els1.length = els.length ∧
      ∀ (p : Nat) (x : Element), els[p]? = some x → ∃ x1 : Element, els1[p]? = some x1 ∧
        (x.IsValid = false → x1.IsValid = false) ∧
        (∀ j, j ≠ k - 1 → x1.Subscripts[j]? = x.Subscripts[j]?) := by
  intro els
  induction els with
  | nil =>
    intro els1 h
    simp [cleanElements] at h
    subst h
    exact ⟨rfl, fun p x hp => by simp at hp⟩
  | cons e rest ih =>
    intro els1 h
    simp only [cleanElements] at h
    cases hs : e.Subscripts[k - 1]? with
    | none => simp [hs] at h
    | some sub =>
      simp only [hs] at h
      by_cases hr : (SE.divide sub Prev).2.isZero = true
      · simp only [hr, Bool.not_true, Bool.false_eq_true, if_false] at h
        cases hrest : cleanElements SE k Prev rest with
        | none => simp [hrest] at h
        | some rest1 =>
          simp [hrest] at h
          subst h
          obtain ⟨hlen, hfr⟩ := ih rest1 hrest
          refine ⟨by simp [hlen], ?_⟩
          intro p x hp
          cases p with
          | zero =>
            simp at hp
            subst hp
            refine ⟨{ e with Subscripts := e.Subscripts.set (k - 1) (SE.divide sub Prev).1 },
              by simp, fun hv => hv, ?_⟩
            intro j hj
            simp only
            rw [List.getElem?_set_ne (by omega)]
          | succ p =>
            simp at hp
            obtain ⟨x1, h1, h2, h3⟩ := hfr p x hp
            exact ⟨x1, by simpa using h1, h2, h3⟩
      · simp [hr] at h
        subst h
        refine ⟨by simp, ?_⟩
        intro p x hp
        cases p with
        | zero =>
          simp at hp
          subst hp
          exact ⟨{ e with IsValid := false }, by simp, fun _ => rfl, fun j _ => rfl⟩
        | succ p =>
          simp at hp
          exact ⟨x, by simpa using hp, fun hv => hv, fun j _ => rfl⟩

theorem cleanLoop_frame (SE : ScalarEvolution) (ty : Nat) :
    ∀ (d : Nat) (Prev : SCEV) (A A1 : Array), cleanLoop SE ty d Prev A = some A1 →
      ∀ (p : Nat) (x : Element), A.Elements[p]? = some x → ∃ x1 : Element, A1.Elements[p]? = some x1 ∧
        (x.IsValid = false → x1.IsValid = false) ∧
        (∀ j, d ≤ j → x1.Subscripts[j]? = x.Subscripts[j]?) := by
  intro d
  induction d with
  | zero =>
    intro Prev A A1 h p x hp
    simp [cleanLoop] at h
    subst h
    exact ⟨x, hp, fun hv => hv, fun _ _ => rfl⟩
  | succ d ih =>
    intro Prev A A1 h p x hp
    simp only [cleanLoop] at h
    split at h
    · simp at h
    · split at h
      · simp at h
      · rename_i sz hsz
        split at h
        · rename_i els hels
          obtain ⟨_, hfr⟩ := cleanElements_frame SE _ _ _ _ hels
          obtain ⟨x1, h1, h2, h3⟩ := hfr p x hp
          obtain ⟨x2, g1, g2, g3⟩ := ih _ _ _ h p x1 h1
          refine ⟨x2, g1, fun hv => g2 (h2 hv), ?_⟩
          intro j hj
          rw [g3 j (by omega), h3 j (by omega)]
        · simp at h

/-- The first failing element: at the level `DimIdx`, when the elements before
`e` divide exactly and
the subscript of `e` leaves a non-zero remainder on division by the running
product, the loop returns with `e` invalid and all its subscripts as they were,
and whatever the later levels do, the element at that position stays invalid
and keeps that subscript. -/
theorem invalid_remainder (SE : ScalarEvolution) (DimIdx : Nat) (Prev : SCEV)
    (pre post : List Element) (e : Element) (sub : SCEV)
    (hpre : ∀ x ∈ pre, ∃ s, x.Subscripts[DimIdx - 1]? = some s ∧
      (SE.divide s Prev).2.isZero = true)
    (he : e.Subscripts[DimIdx - 1]? = some sub)
    (hr : (SE.divide sub Prev).2.isZero = false) :
    (∃ pre1, cleanElements SE DimIdx Prev (pre ++ e :: post) =
        some (pre1 ++ { e with IsValid := false } :: post) ∧ pre1.length = pre.length) ∧
    ∀ (ty : Nat) (Prev2 : SCEV) (A A1 : Array),
      A.Elements[pre.length]? = some { e with IsValid := false } →
      cleanLoop SE ty (DimIdx - 1) Prev2 A = some A1 →
      ∃ e1, A1.Elements[pre.length]? = some e1 ∧ e1.IsValid = false ∧
        e1.Subscripts[DimIdx - 1]? = some sub := by
  constructor
  · induction pre with
    | nil =>
      refine ⟨[], ?_, rfl⟩
      simp [cleanElements, he, hr]
    | cons x pre ih =>
      obtain ⟨s, hs, hz⟩ := hpre x (List.mem_cons_self _ _)
      obtain ⟨pre1, h1, h2⟩ := ih (fun y hy => hpre y (List.mem_cons_of_mem _ hy))
      refine ⟨{ x with Subscripts := x.Subscripts.set (DimIdx - 1) (SE.divide s Prev).1 } :: pre1,
        ?_, by simp [h2]⟩
      simp [cleanElements, hs, hz, h1]
  · intro ty Prev2 A A1 hA hloop
    obtain ⟨e1, h1, h2, h3⟩ := cleanLoop_frame SE ty _ _ _ _ hloop _ _ hA
    exact ⟨e1, h1, h2 rfl, by rw [h3 _ (le_refl _)]; exact he⟩

/-- The loop over the elements at the subscript 10 against a running product 8:
quotient 1, remainder 2, the element becomes invalid and keeps the subscript
10. -/
theorem invalid_remainder_witness :
    refSE.divide (SCEV.constant 64 10) (SCEV.constant 64 8) =
      (SCEV.constant 64 1, SCEV.constant 64 2) ∧
    ((∃ pre1, cleanElements refSE 1 (SCEV.constant 64 8)
        ([] ++ access 1 [SCEV.constant 64 10, SCEV.constant 64 3] :: []) =
        some (pre1 ++ { access 1 [SCEV.constant 64 10, SCEV.constant 64 3] with
          IsValid := false } :: []) ∧ pre1.length = ([] : List Element).length) ∧
    ∀ (ty : Nat) (Prev2 : SCEV) (A A1 : Array),
      A.Elements[([] : List Element).length]? =
        some { access 1 [SCEV.constant 64 10, SCEV.constant 64 3] with IsValid := false } →
      cleanLoop refSE ty (1 - 1) Prev2 A = some A1 →
      ∃ e1, A1.Elements[([] : List Element).length]? = some e1 ∧ e1.IsValid = false ∧
        e1.Subscripts[1 - 1]? = some (SCEV.constant 64 10)) :=
  ⟨rfl, invalid_remainder refSE 1 (SCEV.constant 64 8) [] []
    (access 1 [SCEV.constant 64 10, SCEV.constant 64 3]) (SCEV.constant 64 10)
    (by simp) rfl rfl⟩


/-! ## Inference of the sizes -/

theorem markOuterDims_spec (ty : Nat) (DimSizes : List Int) :
    ∀ (Js : List Nat) (A : Array), (∀ J ∈ Js, J < A.Dims.length ∧ J < DimSizes.length) →
      Js.Nodup →
      ∃ D, markOuterDims ty DimSizes Js A = some { A with Dims := D } ∧
        D.length = A.Dims.length ∧
        (∀ i, i ∉ Js → D[i]? = A.Dims[i]?) ∧
        (∀ J ∈ Js, ∀ z, DimSizes[J]? = some z →
          D[J]? = some (some (if z > 0 then getConstant ty z else getCouldNotCompute))) := by
  intro Js
  induction Js with
  | nil =>
    intro A _ _
    exact ⟨A.Dims, rfl, rfl, fun _ _ => rfl, fun J hJ => by simp at hJ⟩
  | cons J Js ih =>
    intro A hJs hnd
    obtain ⟨hJ1, hJ2⟩ := hJs J (List.mem_cons_self _ _)
    simp only [markOuterDims, List.getElem?_eq_getElem hJ2]
    have hs : ∀ e, A.setDimSize J e = some { A with Dims := A.Dims.set J (some e) } := by
      intro e; simp [Array.setDimSize, hJ1]
    rw [hs]
    simp only
    obtain ⟨D, hD, hlen, hout, hin⟩ := ih { A with Dims := A.Dims.set J (some _) }
      (fun K hK => by
        have := hJs K (List.mem_cons_of_mem _ hK)
        simpa using this)
      (List.nodup_cons.mp hnd).2
    refine ⟨D, by simpa using hD, by simpa using hlen, ?_, ?_⟩
    · intro i hi
      simp only [List.mem_cons, not_or] at hi
      rw [hout i hi.2]
      simp only
      rw [List.getElem?_set_ne (by omega)]
    · intro K hK z hz
      simp only [List.mem_cons] at hK
      rcases hK with rfl | hK
      · have hnot : K ∉ Js := (List.nodup_cons.mp hnd).1
        rw [hout K hnot]
        rw [List.getElem?_eq_getElem hJ2] at hz
        injection hz with hz
        subst hz
        simp [List.getElem?_set, hJ1]
      · exact hin K hK z hz

/-- C6: when the loop of `fillArrayDimensionsSizes` is at dimension `d + 1` and
the size computed there is zero, the function stops with: dimension `d + 1`
not-computable, every dimension `J` in 1..d set to its positive hinted size or
else not-computable, the other sizes and the elements as they were, and
`delinearized` not set (false for an array that entered not delinearized). -/
theorem zero_candidate_degrades (SE : ScalarEvolution) (ty N : Nat) (DimSizes : List Int)
    (d : Nat) (Prev : SCEV) (A : Array) (c : SCEV)
    (hc : candidateSize SE ty N DimSizes A (d + 1) Prev = some c)
    (hz : c.isZero = true) (hd : d + 1 < A.Dims.length) (hA : A.Delinearized = false) :
    ∃ A1, fillLoop SE ty N DimSizes (d + 1) Prev A = some A1 ∧
      A1.Delinearized = false ∧ A1.Elements = A.Elements ∧
      A1.getDimSize (d + 1) = some getCouldNotCompute ∧
      (∀ J, 1 ≤ J → J ≤ d → ∀ z, DimSizes[J]? = some z →
        A1.getDimSize J = some (if z > 0 then getConstant ty z else getCouldNotCompute)) ∧
      (∀ i, i = 0 ∨ d + 1 < i → A1.Dims[i]? = A.Dims[i]?) := by
  have hlenD : d + 1 < DimSizes.length := by
    unfold candidateSize at hc
    cases hg : DimSizes[d + 1]? with
    | none => simp [hg] at hc
    | some z => exact (List.getElem?_eq_some.mp hg).1
  have hs : A.setDimSize (d + 1) getCouldNotCompute =
      some { A with Dims := A.Dims.set (d + 1) (some getCouldNotCompute) } := by
    simp [Array.setDimSize, hd]
  obtain ⟨D, hD, hlen, hout, hin⟩ := markOuterDims_spec ty DimSizes (List.range' 1 d)
    { A with Dims := A.Dims.set (d + 1) (some getCouldNotCompute) }
    (fun J hJ => by
      simp only [List.mem_range'_1] at hJ
      simp only [List.length_set]
      omega)
    (List.nodup_range' 1 d)
  simp only at hD hlen hout hin
  refine ⟨{ A with Dims := D }, ?_, ?_, ?_, ?_, ?_, ?_⟩
  · simp only [fillLoop, hc, hz, if_true, hs]
    exact hD
  · exact hA
  · rfl
  · have hnot : d + 1 ∉ List.range' 1 d := by simp [List.mem_range'_1]; omega
    simp only [Array.getDimSize, hout (d + 1) hnot]
    simp [List.getElem?_set, hd]
  · intro J h1 h2 z hJz
    have hmem : J ∈ List.range' 1 d := by simp [List.mem_range'_1]; omega
    simp only [Array.getDimSize, hin J hmem z hJz]
    rfl
  · intro i hi
    have hnot : i ∉ List.range' 1 d := by simp [List.mem_range'_1]; omega
    simp only [hout i hnot]
    rw [List.getElem?_set_ne (by omega)]

/-- C6 at an array of two dimensions without a hint whose only access has the
subscript 0 at the outer level: the GCD is 0, dimension 1 is not-computable and
the array is not delinearized. -/
theorem zero_candidate_degrades_witness :
    ∃ A1, fillLoop refSE 64 2 [-1, -1] (0 + 1) (SCEV.constant 64 1) zeroArray = some A1 ∧
      A1.Delinearized = false ∧ A1.Elements = zeroArray.Elements ∧
      A1.getDimSize (0 + 1) = some getCouldNotCompute ∧
      (∀ J, 1 ≤ J → J ≤ 0 → ∀ z, ([-1, -1] : List Int)[J]? = some z →
        A1.getDimSize J = some (if z > 0 then getConstant 64 z else getCouldNotCompute)) ∧
      (∀ i, i = 0 ∨ 0 + 1 < i → A1.Dims[i]? = zeroArray.Dims[i]?) :=
  zero_candidate_degrades refSE 64 2 [-1, -1] 0 (SCEV.constant 64 1) zeroArray
    (SCEV.constant 64 0) rfl rfl (by decide) rfl


/-! ## The GCD of computable expressions is computable -/

theorem allComputable_iff (xs : List SCEV) :
    SCEV.allComputable xs = true ↔ ∀ e ∈ xs, e.isComputable = true := by
  induction xs with
  | nil => simp [SCEV.allComputable]
  | cons x xs ih => simp [SCEV.allComputable, ih]

theorem getConstant_isComputable (ty : Nat) (v : Int) : (getConstant ty v).isComputable = true := rfl

theorem isCouldNotCompute_of_isComputable (e : SCEV) (h : e.isComputable = true) :
    e.isCouldNotCompute = false := by
  cases e <;> simp [SCEV.isCouldNotCompute, SCEV.isComputable] at h ⊢

theorem factorLoop_isComputable (ty : Nat) (Primes : List Nat) :
    ∀ (fuel c i : Nat) (acc out : List SCEV), (∀ e ∈ acc, e.isComputable = true) →
      factorLoop ty Primes fuel c i acc = some out → ∀ e ∈ out, e.isComputable = true := by
  intro fuel
  induction fuel with
  | zero => intro c i acc out _ h; simp [factorLoop] at h
  | succ fuel ih =>
    intro c i acc out hacc h
    simp only [factorLoop] at h
    split at h
    · split at h
      · simp at h
      · split at h
        · refine ih _ _ _ _ ?_ h
          intro e he
          simp only [List.mem_append, List.mem_singleton] at he
          rcases he with he | rfl
          · exact hacc e he
          · rfl
        · split at h
          · simp at h
          · exact ih _ _ _ _ hacc h
    · injection h with h; subst h; exact hacc

theorem countConstantMultipliers_isComputable (ty : Nat) (v : Int) (out : List SCEV)
    (h : countConstantMultipliers ty v = some out) : ∀ e ∈ out, e.isComputable = true := by
  unfold countConstantMultipliers at h
  simp only at h
  split at h
  · simp at h
  · split at h
    · injection h with h; subst h; intro e he; simp at he; subst he; rfl
    · split at h
      · simp at h
      · exact factorLoop_isComputable _ _ _ _ _ _ _ (by simp) h

theorem dividersOf_isComputable (e : SCEV) (out : List SCEV) (he : e.isComputable = true)
    (h : dividersOf e = some out) : ∀ d ∈ out, d.isComputable = true := by
  cases e with
  | constant ty v => exact countConstantMultipliers_isComputable ty v out h
  | _ =>
    simp only [dividersOf] at h
    injection h with h; subst h
    intro d hd; simp at hd; subst hd; exact he

theorem dividersOfOperands_isComputable :
    ∀ (ops out : List SCEV), (∀ e ∈ ops, e.isComputable = true) →
      dividersOfOperands ops = some out → ∀ d ∈ out, d.isComputable = true := by
  intro ops
  induction ops with
  | nil => intro out _ h; simp [dividersOfOperands] at h; subst h; simp
  | cons op ops ih =>
    intro out hops h
    simp only [dividersOfOperands] at h
    split at h
    · rename_i d ds h1 h2
      injection h with h; subst h
      intro x hx
      simp only [List.mem_append] at hx
      rcases hx with hx | hx
      · exact dividersOf_isComputable op d (hops op (List.mem_cons_self _ _)) h1 x hx
      · exact ih ds (fun e he => hops e (List.mem_cons_of_mem _ he)) h2 x hx
    · simp at h

theorem openingDividers_isComputable (e : SCEV) (out : List SCEV) (he : e.isComputable = true)
    (h : openingDividers e = some out) : ∀ d ∈ out, d.isComputable = true := by
  cases e with
  | mulExpr ops =>
    simp only [openingDividers] at h
    exact dividersOfOperands_isComputable ops out
      ((allComputable_iff ops).mp (by simpa [SCEV.isComputable] using he)) h
  | _ =>
    simp only [openingDividers] at h
    exact dividersOf_isComputable _ out he h

theorem stepDividers_subset (SE : ScalarEvolution) :
    ∀ (Ds : List SCEV) (t : SCEV), ∀ d ∈ stepDividers SE Ds t, d ∈ Ds := by
  intro Ds
  induction Ds with
  | nil => intro t d hd; simp [stepDividers] at hd
  | cons D Ds ih =>
    intro t d hd
    simp only [stepDividers] at hd
    split at hd
    · simp only [List.mem_cons] at hd ⊢
      rcases hd with rfl | hd
      · exact Or.inl rfl
      · exact Or.inr (ih _ d hd)
    · exact List.mem_cons_of_mem _ (ih _ d hd)

theorem reduceDividers_subset (SE : ScalarEvolution) :
    ∀ (Terms Ds out : List SCEV), reduceDividers SE Terms Ds = some out → ∀ d ∈ out, d ∈ Ds := by
  intro Terms
  induction Terms with
  | nil => intro Ds out h; simp [reduceDividers] at h; subst h; exact fun d hd => hd
  | cons t Terms ih =>
    intro Ds out h d hd
    simp only [reduceDividers] at h
    split at h
    · simp at h
    · rename_i d1 ds hstep
      have := ih _ _ h d hd
      rw [← hstep] at this
      exact stepDividers_subset SE Ds t d this

theorem gcdOfTerms_isComputable (SE : ScalarEvolution) (hSE : KeepsComputable SE) (ty : Nat)
    (Terms : List SCEV) (g : SCEV) (hT : ∀ t ∈ Terms, t.isComputable = true)
    (h : gcdOfTerms SE ty Terms = some g) : g.isComputable = true := by
  unfold gcdOfTerms at h
  split at h
  · injection h with h; subst h; rfl
  · split at h
    · injection h with h; subst h; rfl
    · rename_i Opening hfind
      have hO : Opening.isComputable = true := hT _ (List.mem_of_find?_eq_some hfind)
      split at h
      · simp at h
      · rename_i D0 hD0
        have hD0c := openingDividers_isComputable Opening D0 hO hD0
        split at h
        · injection h with h; subst h; rfl
        · rename_i d hred
          injection h with h; subst h
          exact hD0c _ (reduceDividers_subset SE _ _ _ hred _ (List.mem_singleton_self _))
        · rename_i Ds _ hred
          injection h with h; subst h
          exact hSE.mul _ (fun e he => hD0c _ (reduceDividers_subset SE _ _ _ hred _ he))

theorem pushBoth_isComputable (m : MulSplit) (Op : SCEV) (hOp : Op.isComputable = true)
    (hm : (∀ e ∈ m.StepMultipliers, e.isComputable = true) ∧
      (∀ e ∈ m.StartMultipliers, e.isComputable = true)) :
    (∀ e ∈ (m.pushBoth Op).StepMultipliers, e.isComputable = true) ∧
      (∀ e ∈ (m.pushBoth Op).StartMultipliers, e.isComputable = true) := by
  constructor
  · intro e he
    simp only [MulSplit.pushBoth, List.mem_append, List.mem_singleton] at he
    rcases he with he | rfl
    · exact hm.1 e he
    · exact hOp
  · intro e he
    simp only [MulSplit.pushBoth, List.mem_append, List.mem_singleton] at he
    rcases he with he | rfl
    · exact hm.2 e he
    · exact hOp

theorem pushAddRec_isComputable (m : MulSplit) (cast : SCEV → SCEV) (s st : SCEV)
    (hs : (cast s).isComputable = true) (hst : (cast st).isComputable = true)
    (hm : (∀ e ∈ m.StepMultipliers, e.isComputable = true) ∧
      (∀ e ∈ m.StartMultipliers, e.isComputable = true)) :
    (∀ e ∈ (m.pushAddRec cast s st).StepMultipliers, e.isComputable = true) ∧
      (∀ e ∈ (m.pushAddRec cast s st).StartMultipliers, e.isComputable = true) := by
  constructor
  · intro e he
    simp only [MulSplit.pushAddRec, List.mem_append, List.mem_singleton] at he
    rcases he with he | rfl
    · exact hm.1 e he
    · exact hst
  · intro e he
    simp only [MulSplit.pushAddRec] at he
    split at he
    · exact hm.2 e he
    · simp only [List.mem_append, List.mem_singleton] at he
      rcases he with he | rfl
      · exact hm.2 e he
      · exact hs

theorem mulSplitStep_isComputable (SE : ScalarEvolution) (hSE : KeepsComputable SE)
    (m : MulSplit) (Op : SCEV) (hOp : Op.isComputable = true)
    (hm : (∀ e ∈ m.StepMultipliers, e.isComputable = true) ∧
      (∀ e ∈ m.StartMultipliers, e.isComputable = true)) :
    (∀ e ∈ (mulSplitStep SE m Op).StepMultipliers, e.isComputable = true) ∧
      (∀ e ∈ (mulSplitStep SE m Op).StartMultipliers, e.isComputable = true) := by
  unfold mulSplitStep
  split
  all_goals first
    | exact hm
    | exact pushBoth_isComputable m _ hOp hm
    | (simp only [SCEV.isComputable, Bool.and_eq_true] at hOp
       first
         | exact pushAddRec_isComputable m _ _ _ (hSE.trunc _ _ hOp.1) (hSE.trunc _ _ hOp.2) hm
         | exact pushAddRec_isComputable m _ _ _ (hSE.sext _ _ hOp.1) (hSE.sext _ _ hOp.2) hm
         | exact pushAddRec_isComputable m _ _ _ (hSE.zext _ _ hOp.1) (hSE.zext _ _ hOp.2) hm
         | exact pushAddRec_isComputable m id _ _ hOp.1 hOp.2 hm)

theorem mulSplit_foldl_isComputable (SE : ScalarEvolution) (hSE : KeepsComputable SE) :
    ∀ (ops : List SCEV) (m : MulSplit), (∀ e ∈ ops, e.isComputable = true) →
      (∀ e ∈ m.StepMultipliers, e.isComputable = true) ∧
        (∀ e ∈ m.StartMultipliers, e.isComputable = true) →
      (∀ e ∈ (ops.foldl (mulSplitStep SE) m).StepMultipliers, e.isComputable = true) ∧
        (∀ e ∈ (ops.foldl (mulSplitStep SE) m).StartMultipliers, e.isComputable = true) := by
  intro ops
  induction ops with
  | nil => intro m _ hm; exact hm
  | cons op ops ih =>
    intro m hops hm
    simp only [List.foldl_cons]
    exact ih _ (fun e he => hops e (List.mem_cons_of_mem _ he))
      (mulSplitStep_isComputable SE hSE m op (hops op (List.mem_cons_self _ _)) hm)

theorem filterMultipliers_isComputable (SE : ScalarEvolution) (hSE : KeepsComputable SE)
    (e : SCEV) (he : e.isComputable = true) : (filterMultipliers SE e).isComputable = true := by
  cases e with
  | mulExpr ops =>
    simp only [filterMultipliers]
    apply hSE.mul
    intro x hx
    exact (allComputable_iff ops).mp (by simpa [SCEV.isComputable] using he) x
      (List.mem_of_mem_filter hx)
  | _ => exact he

theorem termsOfExpr_isComputable (SE : ScalarEvolution) (hSE : KeepsComputable SE)
    (rec : List SCEV → Option SCEV)
    (hrec : ∀ xs g, (∀ e ∈ xs, e.isComputable = true) → rec xs = some g → g.isComputable = true)
    (Expr : SCEV) (hE : Expr.isComputable = true) (ts : List SCEV)
    (h : termsOfExpr SE rec Expr = some ts) : ∀ t ∈ ts, t.isComputable = true := by
  unfold termsOfExpr at h
  split at h
  case h_16 ops =>
    have hops := (allComputable_iff ops).mp (by simpa [SCEV.isComputable] using hE)
    have hm := mulSplit_foldl_isComputable SE hSE ops {} hops (by simp)
    simp only at h
    split at h
    · split at h
      · rename_i g hg
        injection h with h; subst h
        intro t ht; simp only [List.mem_singleton] at ht; rw [ht]
        refine hrec _ g ?_ hg
        intro e he
        simp only [List.mem_cons, List.mem_singleton, List.not_mem_nil, or_false] at he
        rcases he with rfl | rfl
        · exact hSE.mul _ hm.2
        · exact hSE.mul _ hm.1
      · simp at h
    · split at h
      · injection h with h; subst h
        intro t ht; simp only [List.mem_singleton] at ht; subst ht
        exact hSE.mul _ hm.1
      · injection h with h; subst h; simp
  case h_17 s st l =>
    simp only [SCEV.isComputable, Bool.and_eq_true] at hE
    split at h
    · rename_i g hg
      injection h with h; subst h
      intro t ht; simp only [List.mem_singleton] at ht; rw [ht]
      refine hrec _ g ?_ hg
      intro e he
      simp only [List.mem_cons, List.mem_singleton, List.not_mem_nil, or_false] at he
      rcases he with rfl | rfl
      · exact filterMultipliers_isComputable SE hSE _ hE.1
      · exact filterMultipliers_isComputable SE hSE _ hE.2
    · simp at h
  all_goals
    injection h with h; subst h
    intro t ht
    first
      | (simp only [List.mem_singleton] at ht; subst ht; exact hE)
      | (simp at ht; done)
      | (simp only [SCEV.isComputable, Bool.and_eq_true] at hE
         simp only [List.mem_cons, List.mem_singleton, List.not_mem_nil, or_false] at ht
         rcases ht with rfl | rfl
         · first
             | exact hSE.trunc _ _ hE.2
             | exact hSE.sext _ _ hE.2
             | exact hSE.zext _ _ hE.2
         · first
             | exact hSE.trunc _ _ hE.1
             | exact hSE.sext _ _ hE.1
             | exact hSE.zext _ _ hE.1)

theorem termsOfAll_isComputable (SE : ScalarEvolution) (hSE : KeepsComputable SE)
    (rec : List SCEV → Option SCEV)
    (hrec : ∀ xs g, (∀ e ∈ xs, e.isComputable = true) → rec xs = some g →
      g.isComputable = true) :
    ∀ (Es ts : List SCEV), (∀ e ∈ Es, e.isComputable = true) →
      termsOfAll SE rec Es = some ts → ∀ t ∈ ts, t.isComputable = true := by
  intro Es
  induction Es with
  | nil => intro ts _ h; simp [termsOfAll] at h; subst h; simp
  | cons E Es ih =>
    intro ts hEs h
    simp only [termsOfAll] at h
    split at h
    · rename_i t1 t2 h1 h2
      injection h with h; subst h
      intro t ht
      simp only [List.mem_append] at ht
      rcases ht with ht | ht
      · exact termsOfExpr_isComputable SE hSE rec hrec E (hEs E (List.mem_cons_self _ _)) t1 h1 t ht
      · exact ih t2 (fun e he => hEs e (List.mem_cons_of_mem _ he)) h2 t ht
    · simp at h

theorem findGCDAux_isComputable (SE : ScalarEvolution) (hSE : KeepsComputable SE) :
    ∀ (fuel : Nat) (Es : List SCEV) (g : SCEV), (∀ e ∈ Es, e.isComputable = true) →
      findGCDAux SE fuel Es = some g → g.isComputable = true := by
  intro fuel
  induction fuel with
  | zero => intro Es g _ h; simp [findGCDAux] at h
  | succ fuel ih =>
    intro Es g hEs h
    simp only [findGCDAux] at h
    split at h
    · simp at h
    · rename_i e0 rest
      split at h
      · simp at h
      · rename_i Terms hT
        exact gcdOfTerms_isComputable SE hSE _ Terms g
          (termsOfAll_isComputable SE hSE _ ih _ Terms hEs hT) h

theorem findGCD_isComputable (SE : ScalarEvolution) (hSE : KeepsComputable SE)
    (Es : List SCEV) (g : SCEV) (hEs : ∀ e ∈ Es, e.isComputable = true)
    (h : findGCD SE Es = some g) : g.isComputable = true :=
  findGCDAux_isComputable SE hSE _ Es g hEs h


/-! ## Sizes of a delinearized array -/

theorem gatherExpressions_subset (N d : Nat) :
    ∀ (els : List Element) (es : List SCEV), gatherExpressions N d els = some es →
      ∀ x ∈ es, ∃ e ∈ els, x ∈ e.Subscripts := by
  intro els
  induction els with
  | nil => intro es h; simp [gatherExpressions] at h; subst h; simp
  | cons e els ih =>
    intro es h x hx
    simp only [gatherExpressions] at h
    split at h
    · obtain ⟨e1, h1, h2⟩ := ih es h x hx
      exact ⟨e1, List.mem_cons_of_mem _ h1, h2⟩
    · split at h
      · simp at h
      · split at h
        · rename_i es1 hes1
          injection h with h; subst h
          simp only [List.mem_append, List.mem_reverse] at hx
          rcases hx with hx | hx
          · exact ⟨e, List.mem_cons_self _ _, List.mem_of_mem_take hx⟩
          · obtain ⟨e1, h1, h2⟩ := ih es1 hes1 x hx
            exact ⟨e1, List.mem_cons_of_mem _ h1, h2⟩
        · simp at h

theorem candidateSize_isComputable (SE : ScalarEvolution) (hSE : KeepsComputable SE)
    (ty N : Nat) (DimSizes : List Int) (A : Array) (d : Nat) (Prev c : SCEV)
    (hPrev : Prev.isComputable = true)
    (hsub : ∀ e ∈ A.Elements, ∀ s ∈ e.Subscripts, s.isComputable = true)
    (h : candidateSize SE ty N DimSizes A d Prev = some c) : c.isComputable = true := by
  unfold candidateSize at h
  split at h
  · simp at h
  · split at h
    · injection h with h; subst h; rfl
    · split at h
      · simp at h
      · rename_i Es hEs
        split at h
        · simp at h
        · rename_i g hg
          injection h with h; subst h
          apply hSE.quotient _ _ _ hPrev
          apply findGCD_isComputable SE hSE Es g _ hg
          intro x hx
          obtain ⟨e, he, hxe⟩ := gatherExpressions_subset N d _ _ hEs x hx
          exact hsub e he x hxe

theorem markOuterDims_frame (ty : Nat) (DimSizes : List Int) :
    ∀ (Js : List Nat) (A A1 : Array), markOuterDims ty DimSizes Js A = some A1 →
      A1.Delinearized = A.Delinearized ∧ A1.Elements = A.Elements := by
  intro Js
  induction Js with
  | nil => intro A A1 h; simp [markOuterDims] at h; subst h; exact ⟨rfl, rfl⟩
  | cons J Js ih =>
    intro A A1 h
    simp only [markOuterDims] at h
    split at h
    · simp at h
    · split at h
      · rename_i A2 hA2
        obtain ⟨_, hA2eq⟩ := setDimSize_eq _ _ _ _ hA2
        obtain ⟨h1, h2⟩ := ih _ _ h
        subst hA2eq
        exact ⟨h1, h2⟩
      · simp at h

theorem fillLoop_known (SE : ScalarEvolution) (hSE : KeepsComputable SE) (ty N : Nat)
    (DimSizes : List Int) :
    ∀ (d : Nat) (Prev : SCEV) (A A1 : Array), Prev.isComputable = true →
      (∀ e ∈ A.Elements, ∀ s ∈ e.Subscripts, s.isComputable = true) →
      A.Delinearized = false →
      fillLoop SE ty N DimSizes d Prev A = some A1 → A1.Delinearized = true →
      A1.Dims.length = A.Dims.length ∧
      (∀ i, 1 ≤ i → i ≤ d → A1.isKnownDimSize i = true) ∧
      (∀ i, d < i → A1.Dims[i]? = A.Dims[i]?) := by
  intro d
  induction d with
  | zero =>
    intro Prev A A1 _ _ _ h _
    simp [fillLoop] at h
    subst h
    exact ⟨rfl, fun i h1 h2 => by omega, fun _ _ => rfl⟩
  | succ d ih =>
    intro Prev A A1 hPrev hsub hA h hdel
    simp only [fillLoop] at h
    split at h
    · simp at h
    · rename_i c hc
      have hcc := candidateSize_isComputable SE hSE ty N DimSizes A (d + 1) Prev c hPrev hsub hc
      split at h
      · split at h
        · rename_i A2 hA2
          obtain ⟨_, hA2eq⟩ := setDimSize_eq _ _ _ _ hA2
          obtain ⟨h1, _⟩ := markOuterDims_frame _ _ _ _ _ h
          subst hA2eq
          simp only at h1
          rw [h1, hA] at hdel
          simp at hdel
        · simp at h
      · split at h
        · rename_i A2 hA2
          obtain ⟨hd, hA2eq⟩ := setDimSize_eq _ _ _ _ hA2
          subst hA2eq
          have hP : (SE.getMulExpr [Prev, SE.getTruncateOrZeroExtend c ty]).isComputable = true := by
            apply hSE.mul
            intro e he
            simp only [List.mem_cons, List.mem_singleton, List.not_mem_nil, or_false] at he
            rcases he with rfl | rfl
            · exact hPrev
            · exact hSE.truncOrZext _ _ hcc
          obtain ⟨g1, g2, g3⟩ := ih _ { A with Dims := A.Dims.set (d + 1) (some c) } A1 hP hsub hA
            h hdel
          simp only [List.length_set] at g1 g3
          refine ⟨g1, ?_, ?_⟩
          · intro i h1 h2
            by_cases hi : i = d + 1
            · subst hi
              have := g3 (d + 1) (by omega)
              simp only [List.getElem?_set, hd, if_true] at this
              simp [Array.isKnownDimSize, Array.getDimSize, this,
                isCouldNotCompute_of_isComputable c hcc]
            · exact g2 i h1 (by omega)
          · intro i hi
            rw [g3 i (by omega)]
            rw [List.getElem?_set_ne (by omega)]
        · simp at h

/-- C5: for an array that enters not delinearized with a hint as long as its
number of dimensions, and subscripts free of the not-computable marker: whenever
`fillArrayDimensionsSizes` leaves `delinearized` true, the size of every
dimension 1..numberOfDimensions-1 is stored and is not the not-computable
marker. -/
theorem delinearized_sizes_known (SE : ScalarEvolution) (hSE : KeepsComputable SE) (ty : Nat)
    (DimSizes : List Int) (A : Array) (hlen : DimSizes.length = A.getNumberOfDims)
    (hA : A.Delinearized = false)
    (hsub : ∀ e ∈ A.Elements, ∀ s ∈ e.Subscripts, s.isComputable = true)
    (r : List Int × Array) (hr : fillArrayDimensionsSizes SE ty DimSizes A = some r)
    (hdel : r.2.Delinearized = true) :
    ∀ i, 1 ≤ i → i < r.2.getNumberOfDims → r.2.isKnownDimSize i = true := by
  unfold fillArrayDimensionsSizes at hr
  split at hr
  · rename_i h0
    split at hr
    · injection hr with hr; subst hr
      rw [hA] at hdel; simp at hdel
    · rename_i N hN
      split at hr
      · simp at hr
      · simp only at hr
        split at hr
        · simp at hr
        · rename_i A1 hA1
          obtain ⟨_, hA1eq⟩ := setDimSize_eq _ _ _ _ hA1
          split at hr
          · rename_i A2 hA2
            injection hr with hr; subst hr
            subst hA1eq
            obtain ⟨g1, g2, g3⟩ := fillLoop_known SE hSE ty N _ _ _ _ A2
              (getConstant_isComputable ty 1) (by exact hsub) (by exact hA) hA2 hdel
            intro i h1 h2
            apply g2 i h1
            have hz : A.Dims.length = 0 := h0
            have hl : A2.Dims.length = N := by
              rw [g1]
              simp [Array.setNumberOfDims, hz]
            simp only [Array.getNumberOfDims] at h2
            omega
          · simp at hr
  · rename_i hne
    split at hr
    · simp at hr
    · rename_i L A1 hset
      obtain ⟨D, hD, hDlen, hle, hout, hin, hlast⟩ := setHintedSizes_spec ty DimSizes _ A _ hset
      simp only at hD hle hout hin hlast
      subst hD
      split at hr
      · injection hr with hr; subst hr
        rw [hA] at hdel; simp at hdel
      · rename_i hL
        split at hr
        · simp at hr
        · rename_i z0 hz0
          split at hr
          · simp at hr
          · rename_i A2 hA2
            obtain ⟨_, hA2eq⟩ := setDimSize_eq _ _ _ _ hA2
            split at hr
            · rename_i A3 hA3
              injection hr with hr; subst hr
              subst hA2eq
              obtain ⟨g1, g2, g3⟩ := fillLoop_known SE hSE ty _ _ _ _ _ A3
                (getConstant_isComputable ty 1) (by exact hsub) (by exact hA) hA3 hdel
              simp only [List.length_set] at g1 g3
              intro i h1 h2
              by_cases hi : i ≤ L - 1
              · exact g2 i h1 hi
              · have hiN : i < DimSizes.length := by
                  simp only [Array.getNumberOfDims] at h2 hlen
                  omega
                obtain ⟨z, _, _, hDz⟩ := hin i (by omega) hiN
                have := g3 i (by omega)
                rw [List.getElem?_set_ne (by omega), hDz] at this
                simp [Array.isKnownDimSize, Array.getDimSize, this, getConstant,
                  SCEV.isCouldNotCompute]
            · simp at hr

theorem exactSE_keepsComputable : KeepsComputable exactSE where
  mul := fun ops h => by
    simpa [exactSE, SCEV.isComputable] using (allComputable_iff ops).mpr h
  trunc := fun e ty h => by simpa [exactSE, SCEV.isComputable] using h
  sext := fun e ty h => by simpa [exactSE, SCEV.isComputable] using h
  zext := fun e ty h => by simpa [exactSE, SCEV.isComputable] using h
  truncOrZext := fun e ty h => by
    simp only [exactSE]
    split
    · exact h
    · split <;> simpa [SCEV.isComputable] using h
  quotient := fun a b ha _ => by
    simp only [exactSE, trivialDivide]
    split
    · rfl
    · split
      · rfl
      · split
        · exact ha
        · rfl

/-- C5 at the hint [-1, 10] with the exact provider, for dimension 1. -/
theorem delinearized_sizes_known_witness :
    (([-1, 10] : List Int), ({ hintedArray with
        Dims := [some SCEV.couldNotCompute, some (SCEV.constant 64 10)],
        Delinearized := true } : Array)).2.isKnownDimSize 1 = true :=
  delinearized_sizes_known exactSE exactSE_keepsComputable 64 [-1, 10] hintedArray rfl rfl
    (by decide) _ (by rfl) rfl 1 (by decide) (by decide)


/-! ## The GCD of constants -/

theorem wrapSigned_of_lt (ty : Nat) (v : Int) (h0 : 0 ≤ v) (h1 : v < 2 ^ (ty - 1)) :
    wrapSigned ty v = v := by
  unfold wrapSigned
  cases ty with
  | zero =>
    simp at h1
    have : v = 0 := by omega
    subst this; rfl
  | succ n =>
    simp only [Nat.add_sub_cancel] at h1
    have hpow : (2 : Int) ^ (n + 1) = 2 * 2 ^ n := by ring
    have hlt : v < ((2 ^ (n + 1) : Nat) : Int) := by push_cast; omega
    rw [Int.bmod_def]
    have hmod : v % ((2 ^ (n + 1) : Nat) : Int) = v := Int.emod_eq_of_lt h0 hlt
    rw [hmod]
    have : v < (((2 ^ (n + 1) : Nat) : Int) + 1) / 2 := by
      push_cast
      omega
    rw [if_pos this]

theorem getConstant_of_lt (ty : Nat) (v : Int) (h0 : 0 ≤ v) (h1 : v < 2 ^ (ty - 1)) :
    getConstant ty v = SCEV.constant ty v := by
  simp [getConstant, wrapSigned_of_lt ty v h0 h1]

theorem factorLoop_prod (ty : Nat) (Primes : List Nat) :
    ∀ (fuel c i : Nat) (acc out : List SCEV), 1 ≤ c →
      factorLoop ty Primes fuel c i acc = some out →
      ∃ ps : List Nat, out = acc ++ ps.map (fun p : Nat => getConstant ty (p : Int)) ∧
        ps.prod = c ∧ (∀ p ∈ ps, 0 < p) ∧ (2 ≤ c → ps ≠ []) := by
  intro fuel
  induction fuel with
  | zero => intro c i acc out _ h; simp [factorLoop] at h
  | succ fuel ih =>
    intro c i acc out hc h
    simp only [factorLoop] at h
    split at h
    · rename_i hc1
      split at h
      · simp at h
      · rename_i p hp
        split at h
        · rename_i hdiv
          have hp0 : p ≠ 0 := by
            intro h0; subst h0; simp at hdiv; omega
          have hdvd : p ∣ c := Nat.dvd_of_mod_eq_zero hdiv
          have hq : 1 ≤ c / p := Nat.div_pos (Nat.le_of_dvd (by omega) hdvd) (by omega)
          obtain ⟨ps, h1, h2, h3, _⟩ := ih _ _ _ _ hq h
          refine ⟨p :: ps, by simp [h1], ?_, ?_, fun _ => by simp⟩
          · simp only [List.prod_cons, h2]
            exact Nat.mul_div_cancel' hdvd
          · intro q hq
            simp only [List.mem_cons] at hq
            rcases hq with rfl | hq
            · omega
            · exact h3 q hq
        · split at h
          · simp at h
          · exact ih _ _ _ _ hc h
    · injection h with h; subst h
      exact ⟨[], by simp, by simp; omega, by simp, fun h2 => by omega⟩

theorem getLimitedValue_of_lt (ty : Nat) (v : Int) (h0 : 0 ≤ v) (h1 : v < 2 ^ (ty - 1))
    (h2 : v < 2 ^ 64) : getLimitedValue ty v = v.toNat := by
  unfold getLimitedValue
  have hpow : (2 : Int) ^ (ty - 1) ≤ 2 ^ ty :=
    pow_le_pow_right₀ (by norm_num) (Nat.sub_le ty 1)
  have hmod : v % 2 ^ ty = v := Int.emod_eq_of_lt h0 (by omega)
  rw [hmod]
  have : v.toNat < 2 ^ 64 := by
    have : ((v.toNat : Nat) : Int) < ((2 ^ 64 : Nat) : Int) := by
      rw [Int.toNat_of_nonneg h0]; push_cast; exact h2
    exact_mod_cast this
  omega

theorem countConstantMultipliers_prod (ty : Nat) (v : Int) (out : List SCEV)
    (h0 : 0 < v) (h1 : v < 2 ^ (ty - 1)) (h2 : v < 2 ^ 64)
    (h : countConstantMultipliers ty v = some out) :
    ∃ ps : List Int, out = ps.map (SCEV.constant ty) ∧ ps.prod = v ∧ (∀ p ∈ ps, 0 < p) ∧
      ps ≠ [] := by
  unfold countConstantMultipliers at h
  simp only [getLimitedValue_of_lt ty v (le_of_lt h0) h1 h2] at h
  split at h
  · simp at h
  · split at h
    · rename_i _ hv1
      injection h with h; subst h
      have hv : v = 1 := by omega
      subst hv
      exact ⟨[1], by simp [getConstant_of_lt ty 1 (by norm_num) h1], by simp, by simp, by simp⟩
    · rename_i hv0 hv1
      split at h
      · simp at h
      · rename_i Primes _
        obtain ⟨ps, g1, g2, g3, g4⟩ := factorLoop_prod ty Primes _ _ _ _ _ (by omega) h
        have hprod : ((ps.map (fun p : Nat => (p : Int))).prod) = v := by
          rw [← Nat.cast_list_prod, g2]
          exact Int.toNat_of_nonneg (le_of_lt h0)
        refine ⟨ps.map (fun p : Nat => (p : Int)), ?_, hprod, ?_, ?_⟩
        · rw [g1]
          simp only [List.nil_append, List.map_map]
          apply List.map_congr_left
          intro p hp
          simp only [Function.comp]
          apply getConstant_of_lt
          · exact Int.natCast_nonneg p
          · have hle : p ≤ v.toNat := by
              rw [← g2]
              exact Nat.le_of_dvd (by rw [g2]; omega) (List.dvd_prod hp)
            have : (p : Int) ≤ v := by
              have := Int.toNat_of_nonneg (le_of_lt h0)
              omega
            omega
        · intro p hp
          simp only [List.mem_map] at hp
          obtain ⟨q, hq, rfl⟩ := hp
          exact_mod_cast g3 q hq
        · have := g4 (by omega)
          simpa using this


theorem stepDividers_consts (SE : ScalarEvolution) (hSE : ConstantArithmetic SE) (ty : Nat) :
    ∀ (ds : List Int) (t : Int), (∀ d ∈ ds, 0 < d ∧ d < 2 ^ (ty - 1)) → 0 ≤ t →
      t < 2 ^ (ty - 1) →
      ∃ ds1 : List Int, stepDividers SE (ds.map (SCEV.constant ty)) (SCEV.constant ty t) =
          ds1.map (SCEV.constant ty) ∧ ds1.Sublist ds ∧ ds1.prod ∣ t := by
  intro ds
  induction ds with
  | nil => intro t _ _ _; exact ⟨[], rfl, List.Sublist.refl _, by simp⟩
  | cons d ds ih =>
    intro t hds ht0 ht1
    obtain ⟨hd0, hd1⟩ := hds d (List.mem_cons_self _ _)
    have hds' : ∀ x ∈ ds, 0 < x ∧ x < 2 ^ (ty - 1) := fun x hx => hds x (List.mem_cons_of_mem _ hx)
    simp only [List.map_cons, stepDividers, hSE.divide ty t d ht0 hd0 ht1 hd1, SCEV.isZero]
    by_cases hmod : t % d = 0
    · have hq0 : 0 ≤ t / d := Int.ediv_nonneg ht0 (le_of_lt hd0)
      have hq1 : t / d < 2 ^ (ty - 1) := lt_of_le_of_lt (Int.ediv_le_self d ht0) ht1
      obtain ⟨ds1, h1, h2, h3⟩ := ih (t / d) hds' hq0 hq1
      refine ⟨d :: ds1, by simp [hmod, h1], h2.cons₂ d, ?_⟩
      simp only [List.prod_cons]
      have hdt : d ∣ t := Int.dvd_of_emod_eq_zero hmod
      obtain ⟨k, hk⟩ := h3
      refine ⟨k, ?_⟩
      rw [mul_assoc, ← hk]
      exact (Int.mul_ediv_cancel' hdt).symm
    · obtain ⟨ds1, h1, h2, h3⟩ := ih t hds' ht0 ht1
      exact ⟨ds1, by simp [hmod, h1], h2.cons d, h3⟩

theorem sublist_prod_dvd (xs ys : List Int) (h : xs.Sublist ys) : xs.prod ∣ ys.prod := by
  induction h with
  | slnil => simp
  | cons a _ ih => simp only [List.prod_cons]; exact Dvd.dvd.mul_left ih a
  | cons₂ a _ ih => simp only [List.prod_cons]; exact mul_dvd_mul_left a ih

theorem reduceDividers_consts (SE : ScalarEvolution) (hSE : ConstantArithmetic SE) (ty : Nat) :
    ∀ (ts ds : List Int) (out : List SCEV), (∀ t ∈ ts, 0 ≤ t ∧ t < 2 ^ (ty - 1)) →
      (∀ d ∈ ds, 0 < d ∧ d < 2 ^ (ty - 1)) →
      reduceDividers SE (ts.map (SCEV.constant ty)) (ds.map (SCEV.constant ty)) = some out →
      ∃ ds1 : List Int, out = ds1.map (SCEV.constant ty) ∧ ds1.Sublist ds ∧
        (∀ t ∈ ts, ds1.prod ∣ t) ∧ (ds ≠ [] → ds1 ≠ []) := by
  intro ts
  induction ts with
  | nil =>
    intro ds out _ _ h
    simp [reduceDividers] at h
    subst h
    exact ⟨ds, rfl, List.Sublist.refl _, by simp, fun h => h⟩
  | cons t ts ih =>
    intro ds out hts hds h
    obtain ⟨ht0, ht1⟩ := hts t (List.mem_cons_self _ _)
    obtain ⟨ds1, h1, h2, h3⟩ := stepDividers_consts SE hSE ty ds t hds ht0 ht1
    simp only [List.map_cons, reduceDividers, h1] at h
    cases ds1 with
    | nil => simp at h
    | cons d1 ds1 =>
      simp only [List.map_cons] at h
      have hds1 : ∀ x ∈ d1 :: ds1, 0 < x ∧ x < 2 ^ (ty - 1) := fun x hx => hds x (h2.subset hx)
      obtain ⟨ds2, g1, g2, g3, g4⟩ := ih (d1 :: ds1) out
        (fun x hx => hts x (List.mem_cons_of_mem _ hx)) hds1 (by simpa using h)
      refine ⟨ds2, g1, g2.trans h2, ?_, fun _ => g4 (by simp)⟩
      intro x hx
      simp only [List.mem_cons] at hx
      rcases hx with rfl | hx
      · exact dvd_trans (sublist_prod_dvd _ _ g2) h3
      · exact g3 x hx

theorem find_opening (ty : Nat) (vs : List Int) :
    (vs.map (SCEV.constant ty)).find? (fun t => !t.isZero) =
      (vs.find? (fun v => v != 0)).map (SCEV.constant ty) := by
  induction vs with
  | nil => rfl
  | cons v vs ih =>
    rw [List.map_cons, List.find?_cons, List.find?_cons]
    have h1 : (!(SCEV.constant ty v).isZero) = (v != 0) := rfl
    rw [h1]
    cases (v != 0)
    · exact ih
    · rfl

theorem prod_pos_lt (ps : List Int) (hps : ∀ p ∈ ps, 0 < p) : 0 < ps.prod := by
  induction ps with
  | nil => simp
  | cons p ps ih =>
    simp only [List.prod_cons]
    exact mul_pos (hps p (List.mem_cons_self _ _)) (ih (fun q hq => hps q (List.mem_cons_of_mem _ hq)))

theorem mem_le_prod (ps : List Int) (hps : ∀ p ∈ ps, 0 < p) : ∀ p ∈ ps, p ≤ ps.prod := by
  intro p hp
  exact Int.le_of_dvd (prod_pos_lt ps hps) (List.dvd_prod hp)

theorem gcdOfTerms_consts (SE : ScalarEvolution) (hSE : ConstantArithmetic SE) (ty : Nat)
    (vs : List Int) (g : SCEV) (hne : vs ≠ [])
    (hvs : ∀ v ∈ vs, 0 ≤ v ∧ v < 2 ^ (ty - 1) ∧ v < 2 ^ 64)
    (h : gcdOfTerms SE ty (vs.map (SCEV.constant ty)) = some g) :
    ∃ gv : Int, g = SCEV.constant ty gv ∧
      ((gv = 0 ∧ ∀ v ∈ vs, v = 0) ∨ (0 < gv ∧ gv < 2 ^ (ty - 1) ∧ ∀ v ∈ vs, gv ∣ v)) := by
  unfold gcdOfTerms at h
  have hemp : (vs.map (SCEV.constant ty)).isEmpty = false := by
    cases vs with
    | nil => exact absurd rfl hne
    | cons _ _ => rfl
  simp only [hemp, Bool.false_eq_true, if_false, find_opening] at h
  cases hf : vs.find? (fun v => v != 0) with
  | none =>
    simp only [hf, Option.map_none'] at h
    injection h with h; subst h
    refine ⟨0, getConstant_of_lt ty 0 (le_refl _) (by positivity), Or.inl ⟨rfl, ?_⟩⟩
    intro v hv
    have := List.find?_eq_none.mp hf v hv
    simpa using this
  | some v0 =>
    simp only [hf, Option.map_some'] at h
    have hv0mem : v0 ∈ vs := List.mem_of_find?_eq_some hf
    have hv0ne : v0 ≠ 0 := by
      have := List.find?_some hf
      simpa using this
    obtain ⟨hv00, hv01, hv02⟩ := hvs v0 hv0mem
    have hv0pos : 0 < v0 := lt_of_le_of_ne hv00 (Ne.symm hv0ne)
    have hone : (1 : Int) < 2 ^ (ty - 1) := lt_of_le_of_lt (by omega) hv01
    simp only [openingDividers, dividersOf] at h
    split at h
    · simp at h
    · rename_i D0 hD0
      obtain ⟨ps, hps, hprod, hpos, hpsne⟩ :=
        countConstantMultipliers_prod ty v0 D0 hv0pos hv01 hv02 hD0
      subst hps
      have hrange : ∀ p ∈ ps, 0 < p ∧ p < 2 ^ (ty - 1) := fun p hp =>
        ⟨hpos p hp, lt_of_le_of_lt (by rw [← hprod]; exact mem_le_prod ps hpos p hp) hv01⟩
      obtain ⟨hd, tl, rfl⟩ : ∃ hd tl, vs = hd :: tl := by
        cases vs with
        | nil => exact absurd rfl hne
        | cons a b => exact ⟨a, b, rfl⟩
      simp only [List.map_cons, List.drop_succ_cons, List.drop_zero] at h
      have htl : ∀ t ∈ tl, 0 ≤ t ∧ t < 2 ^ (ty - 1) := fun t ht =>
        ⟨(hvs t (List.mem_cons_of_mem _ ht)).1, (hvs t (List.mem_cons_of_mem _ ht)).2.1⟩
      have hhead : hd = 0 ∨ hd = v0 := by
        by_cases hh : hd = 0
        · exact Or.inl hh
        · right
          rw [List.find?_cons] at hf
          have hb : (hd != 0) = true := by simpa using hh
          rw [hb] at hf
          injection hf
      cases hred : reduceDividers SE (tl.map (SCEV.constant ty)) (ps.map (SCEV.constant ty)) with
      | none =>
        simp only [hred] at h
        injection h with h; subst h
        refine ⟨1, getConstant_of_lt ty 1 (by norm_num) hone, Or.inr ⟨by norm_num, hone, ?_⟩⟩
        intro v _
        exact one_dvd v
      | some out =>
        obtain ⟨ds1, g1, g2, g3, g4⟩ := reduceDividers_consts SE hSE ty tl ps out htl hrange hred
        have hds1pos : ∀ p ∈ ds1, 0 < p := fun p hp => hpos p (g2.subset hp)
        have hgpos : 0 < ds1.prod := prod_pos_lt ds1 hds1pos
        have hgdvd : ds1.prod ∣ v0 := by rw [← hprod]; exact sublist_prod_dvd _ _ g2
        have hglt : ds1.prod < 2 ^ (ty - 1) := lt_of_le_of_lt (Int.le_of_dvd hv0pos hgdvd) hv01
        have hall : ∀ v ∈ hd :: tl, ds1.prod ∣ v := by
          intro v hv
          simp only [List.mem_cons] at hv
          rcases hv with rfl | hv
          · rcases hhead with h0 | h0
            · rw [h0]; exact dvd_zero _
            · rw [h0]; exact hgdvd
          · exact g3 v hv
        have hg : g = SCEV.constant ty ds1.prod := by
          have hmul := hSE.mul ty ds1 (g4 hpsne) hds1pos hglt
          rw [hred, g1] at h
          cases ds1 with
          | nil => exact absurd rfl (g4 hpsne)
          | cons a b =>
            cases b with
            | nil =>
              simp only [List.map_cons, List.map_nil] at h
              injection h with h; subst h; simp
            | cons c e =>
              simp only [List.map_cons] at h hmul
              injection h with h; subst h
              exact hmul
        exact ⟨ds1.prod, hg, Or.inr ⟨hgpos, hglt, hall⟩⟩


theorem termsOfAll_consts (SE : ScalarEvolution) (rec : List SCEV → Option SCEV) (ty : Nat) :
    ∀ vs : List Int, termsOfAll SE rec (vs.map (SCEV.constant ty)) =
      some (vs.map (SCEV.constant ty)) := by
  intro vs
  induction vs with
  | nil => rfl
  | cons v vs ih => simp [termsOfAll, termsOfExpr, ih]

theorem findGCD_consts (SE : ScalarEvolution) (ty : Nat) (v : Int) (vs : List Int) :
    findGCD SE ((v :: vs).map (SCEV.constant ty)) =
      gcdOfTerms SE ty ((v :: vs).map (SCEV.constant ty)) := by
  unfold findGCD
  simp only [findGCDAux, List.map_cons]
  have := termsOfAll_consts SE (findGCDAux SE (SCEV.sizeList ((v :: vs).map (SCEV.constant ty))))
    ty (v :: vs)
  simp only [List.map_cons] at this
  rw [this]
  rfl

/-- The divisor property on constants: for a non-empty list of constants of one
type whose values are
non-negative and fit the type (and 64 bits), every value of the list leaves
remainder zero on division by the expression that `findGCD` returns, whether
that is the fallback 1 or not. -/
theorem findGCD_divides_constants (SE : ScalarEvolution) (hSE : ConstantArithmetic SE)
    (ty : Nat) (vs : List Int) (hne : vs ≠ [])
    (hvs : ∀ v ∈ vs, 0 ≤ v ∧ v < 2 ^ (ty - 1) ∧ v < 2 ^ 64) (g : SCEV)
    (hg : findGCD SE (vs.map (SCEV.constant ty)) = some g) :
    ∀ v ∈ vs, (SE.divide (SCEV.constant ty v) g).2.isZero = true := by
  obtain ⟨hd, tl, rfl⟩ : ∃ hd tl, vs = hd :: tl := by
    cases vs with
    | nil => exact absurd rfl hne
    | cons a b => exact ⟨a, b, rfl⟩
  rw [findGCD_consts] at hg
  obtain ⟨gv, rfl, hcase⟩ := gcdOfTerms_consts SE hSE ty (hd :: tl) g hne hvs hg
  intro v hv
  rcases hcase with ⟨h0, hall⟩ | ⟨hpos, hlt, hall⟩
  · rw [h0, hall v hv]
    exact hSE.self ty 0
  · obtain ⟨hv0, hv1, _⟩ := hvs v hv
    rw [hSE.divide ty v gv hv0 hpos hv1 hlt]
    simp only [SCEV.isZero, beq_iff_eq]
    exact Int.emod_eq_zero_of_dvd (hall v hv)

theorem refSE_constantArithmetic : ConstantArithmetic refSE where
  divide := by
    intro ty a b ha hb hat hbt
    have hty : (SCEV.constant ty b).getType = ty := rfl
    by_cases hab : a = b
    · subst hab
      have hne : a ≠ 0 := by omega
      simp [refSE, Ref.divide, SCEV.beq, SCEV.getType, Int.ediv_self hne]
    · by_cases ha0 : a = 0
      · subst ha0
        simp [refSE, Ref.divide, SCEV.beq, SCEV.getType, SCEV.isZero, hab]
      · by_cases hb1 : b = 1
        · subst hb1
          simp [refSE, Ref.divide, SCEV.beq, SCEV.getType, SCEV.isZero, SCEV.isOne, hab, ha0]
        · have hb0 : b ≠ 0 := by omega
          have hq0 : 0 ≤ a / b := Int.ediv_nonneg ha (le_of_lt hb)
          have hq1 : a / b < 2 ^ (ty - 1) := lt_of_le_of_lt (Int.ediv_le_self b ha) hat
          have hr0 : 0 ≤ a % b := Int.emod_nonneg a hb0
          have hr1 : a % b < 2 ^ (ty - 1) := lt_trans (Int.emod_lt_of_pos a hb) hbt
          simp [refSE, Ref.divide, Ref.divAtom, SCEV.beq, SCEV.getType, SCEV.isZero, SCEV.isOne,
            hab, ha0, hb1, hb0, Int.tdiv_eq_ediv ha (le_of_lt hb),
            Int.tmod_eq_emod ha (le_of_lt hb), getConstant_of_lt ty _ hq0 hq1,
            getConstant_of_lt ty _ hr0 hr1]
  self := by
    intro ty a
    simp [refSE, Ref.divide, SCEV.beq, SCEV.isZero]
  mul := by
    intro ty ps hne hpos hlt
    have hflat : ∀ qs : List Int, Ref.flattenMul (qs.map (SCEV.constant ty)) =
        qs.map (SCEV.constant ty) := by
      intro qs
      induction qs with
      | nil => rfl
      | cons q qs ih => simp [Ref.flattenMul, ih]
    have hprod : ∀ qs : List Int, Ref.constProd (qs.map (SCEV.constant ty)) = qs.prod := by
      intro qs
      induction qs with
      | nil => rfl
      | cons q qs ih => simp [Ref.constProd, ih]
    have hnc : ∀ qs : List Int, Ref.nonConst (qs.map (SCEV.constant ty)) = [] := by
      intro qs
      induction qs with
      | nil => rfl
      | cons q qs ih => simp [Ref.nonConst, ih]
    have hty : SCEV.getTypeHead (ps.map (SCEV.constant ty)) = ty := by
      cases ps with
      | nil => exact absurd rfl hne
      | cons _ _ => rfl
    have hp0 := prod_pos_lt ps hpos
    have hw := wrapSigned_of_lt ty ps.prod (le_of_lt hp0) hlt
    have hne0 : ps.prod ≠ 0 := by omega
    simp only [refSE, Ref.getMulExpr, hflat, hprod, hnc, hty, hw]
    by_cases h1 : ps.prod = 1
    · simp [h1]
    · simp [h1, hne0]

/-- The divisor property at the constants 6 and 4: the GCD is 2 and it divides
4. -/
theorem findGCD_divides_constants_witness :
    (refSE.divide (SCEV.constant 64 4) (SCEV.constant 64 2)).2.isZero = true :=
  findGCD_divides_constants refSE refSE_constantArithmetic 64 [6, 4] (by decide)
    (by intro v hv; simp at hv; rcases hv with rfl | rfl <;> norm_num)
    (SCEV.constant 64 2) (by rfl) 4 (by decide)

theorem stepDividers_all (SE : ScalarEvolution) (hSE : ConstantArithmetic SE) (ty : Nat) :
    ∀ (ps : List Int) (k : Int), (∀ p ∈ ps, 0 < p ∧ p < 2 ^ (ty - 1)) → 0 ≤ k →
      ps.prod * k < 2 ^ (ty - 1) →
      stepDividers SE (ps.map (SCEV.constant ty)) (SCEV.constant ty (ps.prod * k)) =
        ps.map (SCEV.constant ty) := by
  intro ps
  induction ps with
  | nil => intro k _ _ _; rfl
  | cons p ps ih =>
    intro k hps hk hlt
    obtain ⟨hp0, hp1⟩ := hps p (List.mem_cons_self _ _)
    have hps' : ∀ x ∈ ps, 0 < x ∧ x < 2 ^ (ty - 1) := fun x hx => hps x (List.mem_cons_of_mem _ hx)
    have hP : 0 < ps.prod := prod_pos_lt ps (fun x hx => (hps' x hx).1)
    have hPk : 0 ≤ ps.prod * k := mul_nonneg (le_of_lt hP) hk
    simp only [List.prod_cons] at hlt ⊢
    have ht0 : 0 ≤ p * ps.prod * k := by rw [mul_assoc]; exact mul_nonneg (le_of_lt hp0) hPk
    have hmod : p * ps.prod * k % p = 0 := by rw [mul_assoc]; exact Int.mul_emod_right p _
    have hdiv : p * ps.prod * k / p = ps.prod * k := by
      rw [mul_assoc]; exact Int.mul_ediv_cancel_left _ (by omega)
    have hlt2 : ps.prod * k < 2 ^ (ty - 1) := by
      have : ps.prod * k ≤ p * (ps.prod * k) := le_mul_of_one_le_left hPk (by omega)
      rw [mul_assoc] at hlt
      omega
    simp only [List.map_cons, stepDividers, hSE.divide ty _ p ht0 hp0 hlt hp1, SCEV.isZero, hmod,
      hdiv, beq_self_eq_true, if_true]
    rw [ih k hps' hk hlt2]

theorem reduceDividers_all (SE : ScalarEvolution) (hSE : ConstantArithmetic SE) (ty : Nat)
    (ps : List Int) (hps : ∀ p ∈ ps, 0 < p ∧ p < 2 ^ (ty - 1)) (hne : ps ≠ [])
    (hlt : ps.prod < 2 ^ (ty - 1)) :
    ∀ ts : List Int, (∀ t ∈ ts, t = 0 ∨ t = ps.prod) →
      reduceDividers SE (ts.map (SCEV.constant ty)) (ps.map (SCEV.constant ty)) =
        some (ps.map (SCEV.constant ty)) := by
  intro ts
  induction ts with
  | nil => intro _; rfl
  | cons t ts ih =>
    intro hts
    have hstep : stepDividers SE (ps.map (SCEV.constant ty)) (SCEV.constant ty t) =
        ps.map (SCEV.constant ty) := by
      rcases hts t (List.mem_cons_self _ _) with h0 | h1
      · have := stepDividers_all SE hSE ty ps 0 hps (le_refl _) (by simp)
        simpa [h0] using this
      · have := stepDividers_all SE hSE ty ps 1 hps (by norm_num) (by simpa using hlt)
        simpa [h1] using this
    simp only [List.map_cons, reduceDividers, hstep]
    cases ps with
    | nil => exact absurd rfl hne
    | cons p ps =>
      simp only [List.map_cons]
      exact ih (fun x hx => hts x (List.mem_cons_of_mem _ hx))

theorem gcdOfTerms_same (SE : ScalarEvolution) (hSE : ConstantArithmetic SE) (ty : Nat)
    (D : Int) (hD0 : 0 < D) (hD1 : D < 2 ^ (ty - 1)) (hD2 : D < 2 ^ 64)
    (hfac : (countConstantMultipliers ty D).isSome = true) (vs : List Int)
    (hvs : ∀ v ∈ vs, v = 0 ∨ v = D) (hmem : D ∈ vs) :
    gcdOfTerms SE ty (vs.map (SCEV.constant ty)) = some (SCEV.constant ty D) := by
  obtain ⟨D0, hD0eq⟩ := Option.isSome_iff_exists.mp hfac
  obtain ⟨ps, hps, hprod, hpos, hpsne⟩ :=
    countConstantMultipliers_prod ty D D0 hD0 hD1 hD2 hD0eq
  subst hps
  have hrange : ∀ p ∈ ps, 0 < p ∧ p < 2 ^ (ty - 1) := fun p hp =>
    ⟨hpos p hp, lt_of_le_of_lt (by rw [← hprod]; exact mem_le_prod ps hpos p hp) hD1⟩
  have hfind : vs.find? (fun v => v != 0) = some D := by
    clear hD0eq
    induction vs with
    | nil => simp at hmem
    | cons v vs ih =>
      rw [List.find?_cons]
      rcases hvs v (List.mem_cons_self _ _) with h0 | h1
      · subst h0
        simp only [bne_self_eq_false]
        apply ih (fun x hx => hvs x (List.mem_cons_of_mem _ hx))
        simp only [List.mem_cons] at hmem
        rcases hmem with h | h
        · omega
        · exact h
      · subst h1
        have : (v != 0) = true := by simp; omega
        rw [this]
  have hemp : (vs.map (SCEV.constant ty)).isEmpty = false := by
    cases vs with
    | nil => simp at hmem
    | cons _ _ => rfl
  have hred := reduceDividers_all SE hSE ty ps hrange hpsne (by rw [hprod]; exact hD1)
    (vs.drop 1) (fun t ht => by rw [hprod]; exact hvs t (List.mem_of_mem_drop ht))
  have hmul := hSE.mul ty ps hpsne hpos (by rw [hprod]; exact hD1)
  unfold gcdOfTerms
  simp only [hemp, Bool.false_eq_true, if_false, find_opening, hfind, Option.map_some',
    openingDividers, dividersOf, hD0eq, ← List.map_drop, hred]
  cases ps with
  | nil => exact absurd rfl hpsne
  | cons a b =>
    cases b with
    | nil => simp at hprod; simp [hprod]
    | cons c e =>
      simp only [List.map_cons] at hmul ⊢
      rw [hmul, hprod]

theorem findGCDAux_consts (SE : ScalarEvolution) (ty : Nat) (fuel : Nat) (v : Int) (vs : List Int) :
    findGCDAux SE (fuel + 1) ((v :: vs).map (SCEV.constant ty)) =
      gcdOfTerms SE ty ((v :: vs).map (SCEV.constant ty)) := by
  simp only [findGCDAux, List.map_cons]
  have := termsOfAll_consts SE (findGCDAux SE fuel) ty (v :: vs)
  simp only [List.map_cons] at this
  rw [this]
  rfl

theorem findGCD_rowMajor (SE : ScalarEvolution) (hSE : ConstantArithmetic SE) (ty : Nat)
    (D : Int) (hD0 : 0 < D) (hD1 : D < 2 ^ (ty - 1)) (hD2 : D < 2 ^ 64)
    (hfac : (countConstantMultipliers ty D).isSome = true) (ls : List Nat) (hls : ls ≠ []) :
    findGCD SE (ls.map (fun l => SCEV.addRecExpr (SCEV.constant ty 0) (SCEV.constant ty D) l)) =
      some (SCEV.constant ty D) := by
  have hinner : ∀ fuel, findGCDAux SE (fuel + 1) [SCEV.constant ty 0, SCEV.constant ty D] =
      some (SCEV.constant ty D) := by
    intro fuel
    have h1 := findGCDAux_consts SE ty fuel 0 [D]
    have h2 := gcdOfTerms_same SE hSE ty D hD0 hD1 hD2 hfac [0, D] (by simp) (by simp)
    simp only [List.map_cons, List.map_nil] at h1 h2
    rw [h1, h2]
  have hterms : ∀ (fuel : Nat) (ks : List Nat),
      termsOfAll SE (findGCDAux SE (fuel + 1))
        (ks.map (fun l => SCEV.addRecExpr (SCEV.constant ty 0) (SCEV.constant ty D) l)) =
      some (ks.map (fun _ => SCEV.constant ty D)) := by
    intro fuel ks
    induction ks with
    | nil => rfl
    | cons k ks ih =>
      simp only [List.map_cons, termsOfAll, termsOfExpr, filterMultipliers, hinner fuel, ih]
      rfl
  obtain ⟨l, ls, rfl⟩ : ∃ l tl, ls = l :: tl := by
    cases ls with
    | nil => exact absurd rfl hls
    | cons a b => exact ⟨a, b, rfl⟩
  have hsame := gcdOfTerms_same SE hSE ty D hD0 hD1 hD2 hfac ((l :: ls).map (fun _ => D))
    (by intro v hv; obtain ⟨_, _, rfl⟩ := List.mem_map.mp hv; exact Or.inr rfl) (by simp)
  have key : ∀ fuel, findGCDAux SE (fuel + 2)
      ((l :: ls).map (fun l => SCEV.addRecExpr (SCEV.constant ty 0) (SCEV.constant ty D) l)) =
      some (SCEV.constant ty D) := by
    intro fuel
    have hT := hterms fuel (l :: ls)
    simp only [List.map_cons, List.map_map] at hT hsame ⊢
    rw [findGCDAux]
    simp only [hT, SCEV.getType]
    exact hsame
  unfold findGCD
  have hsize : ∃ f, SCEV.sizeList ((l :: ls).map
      (fun l => SCEV.addRecExpr (SCEV.constant ty 0) (SCEV.constant ty D) l)) + 1 = f + 2 := by
    refine ⟨SCEV.sizeList (ls.map
      (fun l => SCEV.addRecExpr (SCEV.constant ty 0) (SCEV.constant ty D) l)) + 2, ?_⟩
    simp only [List.map_cons, SCEV.sizeList, SCEV.size]
    omega
  obtain ⟨f, hf⟩ := hsize
  rw [hf]
  exact key f


theorem findNumberOfDims_uniform (n : Nat) :
    ∀ els : List Element, els ≠ [] →
      (∀ e ∈ els, e.IsElement = true ∧ e.IsValid = true ∧ e.Subscripts.length = n) →
      findNumberOfDims els = some n := by
  intro els hne hel
  cases els with
  | nil => exact absurd rfl hne
  | cons e rest =>
    obtain ⟨h1, h2, h3⟩ := hel e (List.mem_cons_self _ _)
    have hv : isValidElement e = true := by simp [isValidElement, h1, h2]
    simp only [findNumberOfDims, List.dropWhile_cons, hv, Bool.not_true, Bool.false_eq_true,
      if_false]
    have hall : rest.all (fun x => !isValidElement x ||
        x.Subscripts.length == e.Subscripts.length) = true := by
      rw [List.all_eq_true]
      intro x hx
      obtain ⟨_, _, g3⟩ := hel x (List.mem_cons_of_mem _ hx)
      simp [g3, h3]
    rw [if_pos hall, h3]

theorem gatherExpressions_rowMajor (ty : Nat) (D : Int) :
    ∀ els : List Element,
      (∀ e ∈ els, e.IsElement = true ∧ ∃ l j, e.Subscripts =
        [SCEV.addRecExpr (SCEV.constant ty 0) (SCEV.constant ty D) l, j]) →
      ∃ ls : List Nat, ls.length = els.length ∧ gatherExpressions 2 1 els =
        some (ls.map (fun l => SCEV.addRecExpr (SCEV.constant ty 0) (SCEV.constant ty D) l)) := by
  intro els
  induction els with
  | nil => intro _; exact ⟨[], rfl, rfl⟩
  | cons e rest ih =>
    intro hel
    obtain ⟨h1, l, j, hs⟩ := hel e (List.mem_cons_self _ _)
    obtain ⟨ls, g1, g2⟩ := ih (fun x hx => hel x (List.mem_cons_of_mem _ hx))
    refine ⟨l :: ls, by simp [g1], ?_⟩
    simp [gatherExpressions, h1, hs, g2]

/-- C3 (amended): for an array without a hint whose accesses are all valid
element accesses with the subscripts [i * D, j], the product `i * D` being the
induction expression {0,+,D} of some loop and `D` a positive constant that
`countConstantMultipliers` factors, `fillArrayDimensionsSizes` stores the size
`D` for dimension 1 (dimension 0 not-computable) and marks the array
delinearized; `cleanSubscripts` then returns the array as it is: every access
keeps the subscripts [i * D, j] and no element is marked invalid. -/
theorem rowMajor_shape (SE : ScalarEvolution) (hSE : ConstantArithmetic SE) (ty : Nat)
    (D : Int) (hD0 : 0 < D) (hD1 : D < 2 ^ (ty - 1)) (hD2 : D < 2 ^ 64)
    (hfac : (countConstantMultipliers ty D).isSome = true) (A : Array)
    (hdims : A.Dims = []) (hne : A.Elements ≠ [])
    (hel : ∀ e ∈ A.Elements, e.IsElement = true ∧ e.IsValid = true ∧
      ∃ l j, e.Subscripts = [SCEV.addRecExpr (SCEV.constant ty 0) (SCEV.constant ty D) l, j]) :
    ∃ A1, fillArrayDimensionsSizes SE ty [] A = some ([-1, -1], A1) ∧
      A1 = { A with Dims := [some getCouldNotCompute, some (SCEV.constant ty D)],
                    Delinearized := true } ∧
      cleanSubscripts SE ty A1 = some A1 := by
  have hone : (1 : Int) < 2 ^ (ty - 1) := lt_of_le_of_lt (by omega) hD1
  have hc1 : getConstant ty 1 = SCEV.constant ty 1 := getConstant_of_lt ty 1 (by norm_num) hone
  have hnum : findNumberOfDims A.Elements = some 2 := by
    apply findNumberOfDims_uniform 2 _ hne
    intro e he
    obtain ⟨h1, h2, l, j, hs⟩ := hel e he
    exact ⟨h1, h2, by simp [hs]⟩
  obtain ⟨ls, hlen, hgather⟩ := gatherExpressions_rowMajor ty D A.Elements
    (fun e he => ⟨(hel e he).1, (hel e he).2.2⟩)
  have hls : ls ≠ [] := by
    intro h
    rw [h] at hlen
    exact hne (List.length_eq_zero.mp hlen.symm)
  have hgcd := findGCD_rowMajor SE hSE ty D hD0 hD1 hD2 hfac ls hls
  have hdiv := hSE.divide ty D 1 (le_of_lt hD0) (by norm_num) hD1 hone
  have hcand : candidateSize SE ty 2 [-1, -1]
      { A with Dims := [some getCouldNotCompute, none] } 1 (getConstant ty 1) =
      some (SCEV.constant ty D) := by
    simp [candidateSize, hgather, hgcd, hc1, hdiv]
  have hnz : (SCEV.constant ty D).isZero = false := by
    simp [SCEV.isZero]; omega
  refine ⟨_, ?_, rfl, ?_⟩
  · have h0 : A.getNumberOfDims = 0 := by simp [Array.getNumberOfDims, hdims]
    simp only [fillArrayDimensionsSizes, h0, if_true, hnum]
    simp [resizeDimSizes, Array.setNumberOfDims, Array.setDimSize, hdims, fillLoop, hcand, hnz,
      Array.setDelinearized]
  · have hfl : findLastConstDim
        { A with Dims := [some getCouldNotCompute, some (SCEV.constant ty D)],
                 Delinearized := true } 2 = some 1 := by
      simp [findLastConstDim, Array.getDimSize, SCEV.isConstant, getCouldNotCompute]
    simp [cleanSubscripts, Array.getNumberOfDims, hfl, cleanLoop]

/-- C3 (amended) at the two accesses [{0,+,10}, j] and [{0,+,10}, k]. -/
theorem rowMajor_shape_witness :
    ∃ A1, fillArrayDimensionsSizes refSE 64 [] rowMajorArray = some ([-1, -1], A1) ∧
      A1 = { rowMajorArray with Dims := [some getCouldNotCompute, some (SCEV.constant 64 10)],
                                Delinearized := true } ∧
      cleanSubscripts refSE 64 A1 = some A1 :=
  rowMajor_shape refSE refSE_constantArithmetic 64 10 (by norm_num) (by norm_num) (by norm_num)
    (by rfl) rowMajorArray rfl (by simp [rowMajorArray])
    (by
      intro e he
      simp only [rowMajorArray, List.mem_cons, List.mem_singleton, List.not_mem_nil,
        or_false] at he
      rcases he with rfl | rfl
      · exact ⟨rfl, rfl, 0, _, rfl⟩
      · exact ⟨rfl, rfl, 0, _, rfl⟩)

/-- C3 (as stated) fails: for the accesses [{0,+,10}, j] and [{0,+,10}, k], that
is i * 10 with the loop counter i = {0,+,1}, the size of dimension 1 is found
(10) and the array is delinearized, but `cleanSubscripts` leaves the first
subscript of every access as {0,+,10}; it is not replaced by i = {0,+,1}. -/
theorem rowMajor_not_normalized :
    fillArrayDimensionsSizes refSE 64 [] rowMajorArray =
      some ([-1, -1], { rowMajorArray with
        Dims := [some SCEV.couldNotCompute, some (SCEV.constant 64 10)],
        Delinearized := true }) ∧
    (cleanSubscripts refSE 64 { rowMajorArray with
        Dims := [some SCEV.couldNotCompute, some (SCEV.constant 64 10)],
        Delinearized := true }).map (fun A => A.Elements.map (fun e => e.Subscripts.head?)) =
      some [some (SCEV.addRecExpr (SCEV.constant 64 0) (SCEV.constant 64 10) 0),
            some (SCEV.addRecExpr (SCEV.constant 64 0) (SCEV.constant 64 10) 0)] ∧
    SCEV.beq (SCEV.addRecExpr (SCEV.constant 64 0) (SCEV.constant 64 10) 0)
      (SCEV.addRecExpr (SCEV.constant 64 0) (SCEV.constant 64 1) 0) = false :=
  ⟨rfl, rfl, rfl⟩

/-! ## The zero case of the GCD -/

theorem termsOfAll_zero (SE : ScalarEvolution) (rec : List SCEV → Option SCEV) :
    ∀ es : List SCEV, (∀ e ∈ es, e.isZero = true) → termsOfAll SE rec es = some es := by
  intro es
  induction es with
  | nil => intro _; rfl
  | cons e es ih =>
    intro h
    have he := h e (List.mem_cons_self _ _)
    have hes := ih (fun x hx => h x (List.mem_cons_of_mem _ hx))
    cases e <;> simp [SCEV.isZero] at he
    simp [termsOfAll, termsOfExpr, hes]

/-- C15: for a non-empty list in which every expression is the constant zero,
`findGCD` returns the constant 0 of the type of the first expression (not the
fallback 1), whatever the provider. -/
theorem findGCD_all_zero (SE : ScalarEvolution) (e0 : SCEV) (rest : List SCEV)
    (h : ∀ e ∈ e0 :: rest, e.isZero = true) :
    findGCD SE (e0 :: rest) = some (SCEV.constant e0.getType 0) := by
  have hT := termsOfAll_zero SE (findGCDAux SE (SCEV.sizeList (e0 :: rest))) (e0 :: rest) h
  have hfind : (e0 :: rest).find? (fun t => !t.isZero) = none := by
    rw [List.find?_eq_none]
    intro x hx
    simp [h x hx]
  unfold findGCD
  rw [findGCDAux]
  simp only [hT, gcdOfTerms, List.isEmpty_cons, Bool.false_eq_true, if_false, hfind]
  simp [getConstant, wrapSigned]

/-- C15 at the list [0, 0] of 64-bit constants. -/
theorem findGCD_all_zero_witness :
    findGCD refSE (SCEV.constant 64 0 :: [SCEV.constant 64 0]) =
      some (SCEV.constant (SCEV.constant 64 0).getType 0) :=
  findGCD_all_zero refSE (SCEV.constant 64 0) [SCEV.constant 64 0] (by decide)
/-! ## The decomposer without a loop, and under a cast -/

open SCEVBionmialSearch in
mutual
theorem visit_noLoop (SE : ScalarEvolution) :
    ∀ (E : SCEV) (s : SCEVBionmialSearch), s.L = none → reachesAddRec E = false →
      ∃ S, visit SE E s = some S ∧ S.L = none
  | SCEV.constant ty v, s, hs, _ => ⟨_, rfl, hs⟩
  | SCEV.unknown ty v, s, hs, _ => ⟨_, rfl, hs⟩
  | SCEV.udivExpr l r, s, hs, _ => ⟨_, rfl, hs⟩
  | SCEV.umaxExpr ops, s, hs, _ => ⟨_, rfl, hs⟩
  | SCEV.smaxExpr ops, s, hs, _ => ⟨_, rfl, hs⟩
  | SCEV.couldNotCompute, s, hs, _ => ⟨_, rfl, hs⟩
  | SCEV.addRecExpr _ _ _, s, _, h => by simp [reachesAddRec] at h
  | SCEV.truncate op ty, s, hs, h => by
    obtain ⟨S, h1, h2⟩ := visit_noLoop SE op { s with IsSafeCast := false } hs
      (by simpa [reachesAddRec] using h)
    exact ⟨recast (fun e => SE.getTruncateExpr e ty) S, by simp [visit, h1], h2⟩
  | SCEV.signExtend op ty, s, hs, h => by
    obtain ⟨S, h1, h2⟩ := visit_noLoop SE op { s with IsSafeCast := false } hs
      (by simpa [reachesAddRec] using h)
    exact ⟨recast (fun e => SE.getSignExtendExpr e ty) S, by simp [visit, h1], h2⟩
  | SCEV.zeroExtend op ty, s, hs, h => by
    obtain ⟨S, h1, h2⟩ := visit_noLoop SE op { s with IsSafeCast := false } hs
      (by simpa [reachesAddRec] using h)
    exact ⟨recast (fun e => SE.getZeroExtendExpr e ty) S, by simp [visit, h1], h2⟩
  | SCEV.mulExpr ops, s, hs, h => by
    obtain ⟨S, h1, h2⟩ := visitOperands_noLoop SE ops s hs (by simpa [reachesAddRec] using h)
    exact ⟨{ S with FreeTerm := some (SCEV.mulExpr ops) },
      by simp [visit, hs, h1, finishMul, h2], h2⟩
  | SCEV.addExpr ops, s, hs, h => by
    obtain ⟨S, h1, h2⟩ := visitOperands_noLoop SE ops s hs (by simpa [reachesAddRec] using h)
    exact ⟨{ S with FreeTerm := some (SCEV.addExpr ops) },
      by simp [visit, hs, h1, finishAdd, h2], h2⟩
theorem visitOperands_noLoop (SE : ScalarEvolution) :
    ∀ (ops : List SCEV) (s : SCEVBionmialSearch), s.L = none → anyReachesAddRec ops = false →
      ∃ S, visitOperands SE ops s = some (S, ops, []) ∧ S.L = none
  | [], s, hs, _ => ⟨s, rfl, hs⟩
  | op :: rest, s, hs, h => by
    simp only [anyReachesAddRec, Bool.or_eq_false_iff] at h
    obtain ⟨S1, h1, h2⟩ := visit_noLoop SE op s hs h.1
    obtain ⟨S2, g1, g2⟩ := visitOperands_noLoop SE rest S1 h2 h.2
    exact ⟨S2, by simp [visitOperands, h1, h2, g1], g2⟩
end

/-- C16: for an expression in which the decomposer reaches no induction
expression, casts or not, `computeSCEVAddRec` returns the expression itself
together with the safety flag true. -/
theorem no_loop_returns_expression (SE : ScalarEvolution) (E : SCEV)
    (h : reachesAddRec E = false) : computeSCEVAddRec SE E = some (E, true) := by
  obtain ⟨S, h1, h2⟩ := visit_noLoop SE E {} rfl h
  simp [computeSCEVAddRec, h1, h2]

/-- C16 at trunc(x + 3): the search clears its own flag at the cast, the result
is the expression unchanged with the flag true. -/
theorem no_loop_returns_expression_witness :
    computeSCEVAddRec refSE sampleCast = some (sampleCast, true) :=
  no_loop_returns_expression refSE sampleCast rfl

/-! ## The cast rule of the decomposer -/

/-- The fields of a search with the safety flag cleared. -/
theorem recast_clear (cast : SCEV → SCEV) (s : SCEVBionmialSearch) :
    SCEVBionmialSearch.recast cast { s with IsSafeCast := false } =
      { SCEVBionmialSearch.recast cast s with IsSafeCast := false } := rfl

open SCEVBionmialSearch in
mutual
theorem visit_clear (SE : ScalarEvolution) :
    ∀ (E : SCEV) (s : SCEVBionmialSearch),
      visit SE E { s with IsSafeCast := false } =
        (visit SE E s).map (fun r => { r with IsSafeCast := false })
  | SCEV.constant ty v, s => rfl
  | SCEV.unknown ty v, s => rfl
  | SCEV.udivExpr l r, s => rfl
  | SCEV.umaxExpr ops, s => rfl
  | SCEV.smaxExpr ops, s => rfl
  | SCEV.couldNotCompute, s => rfl
  | SCEV.addRecExpr _ _ _, s => rfl
  | SCEV.truncate op ty, s => by
    simp only [visit]
    have ih := visit_clear SE op s
    rw [ih]
    cases visit SE op s <;> rfl
  | SCEV.signExtend op ty, s => by
    simp only [visit]
    have ih := visit_clear SE op s
    rw [ih]
    cases visit SE op s <;> rfl
  | SCEV.zeroExtend op ty, s => by
    simp only [visit]
    have ih := visit_clear SE op s
    rw [ih]
    cases visit SE op s <;> rfl
  | SCEV.mulExpr ops, s => by
    simp only [visit]
    by_cases hL : s.L.isSome = true
    · simp [hL]
    · simp only [hL, if_false]
      rw [visitOperands_clear SE ops s]
      cases hv : visitOperands SE ops s with
      | none => rfl
      | some r =>
        obtain ⟨s1, pre, post⟩ := r
        simp only [Option.map_some', finishMul]
        cases s1.L with
        | none => rfl
        | some l =>
          simp only
          cases s1.FreeTerm <;> cases s1.Coef <;> rfl
  | SCEV.addExpr ops, s => by
    simp only [visit]
    by_cases hL : s.L.isSome = true
    · simp [hL]
    · simp only [hL, if_false]
      rw [visitOperands_clear SE ops s]
      cases hv : visitOperands SE ops s with
      | none => rfl
      | some r =>
        obtain ⟨s1, pre, post⟩ := r
        simp only [Option.map_some', finishAdd]
        cases s1.L with
        | none => rfl
        | some l =>
          simp only
          cases s1.FreeTerm <;> rfl
theorem visitOperands_clear (SE : ScalarEvolution) :
    ∀ (ops : List SCEV) (s : SCEVBionmialSearch),
      visitOperands SE ops { s with IsSafeCast := false } =
        (visitOperands SE ops s).map (fun r => ({ r.1 with IsSafeCast := false }, r.2))
  | [], s => rfl
  | op :: rest, s => by
    simp only [visitOperands]
    rw [visit_clear SE op s]
    cases hv : visit SE op s with
    | none => rfl
    | some s1 =>
      simp only [Option.map_some']
      by_cases hL : s1.L.isSome = true
      · simp [hL]
      · simp only [hL, if_false]
        rw [visitOperands_clear SE rest s1]
        cases visitOperands SE rest s1 with
        | none => rfl
        | some r => rfl
end

/-- C17: when `E1` decomposes to the coefficient `c` and the free term `f` on
the loop `L`, each of trunc(E1), sext(E1) and zext(E1) to the type `ty`
decomposes to the same cast of `c` and of `f` to `ty` on the same loop, with the
safety flag false; `computeSCEVAddRec` returns the induction expression built
from them and the flag false. -/
theorem cast_rule (SE : ScalarEvolution) (E1 : SCEV) (S1 : SCEVBionmialSearch) (L : Nat)
    (c f : SCEV) (ty : Nat) (hS : SCEVBionmialSearch.visit SE E1 {} = some S1)
    (hL : S1.L = some L) (hc : S1.Coef = some c) (hf : S1.FreeTerm = some f) :
    (SCEVBionmialSearch.visit SE (SCEV.truncate E1 ty) {} =
        some { Coef := some (SE.getTruncateExpr c ty), FreeTerm := some (SE.getTruncateExpr f ty),
               L := some L, IsSafeCast := false } ∧
      computeSCEVAddRec SE (SCEV.truncate E1 ty) =
        some (SE.getAddRecExpr (SE.getTruncateExpr f ty) (SE.getTruncateExpr c ty) L, false)) ∧
    (SCEVBionmialSearch.visit SE (SCEV.signExtend E1 ty) {} =
        some { Coef := some (SE.getSignExtendExpr c ty),
               FreeTerm := some (SE.getSignExtendExpr f ty), L := some L, IsSafeCast := false } ∧
      computeSCEVAddRec SE (SCEV.signExtend E1 ty) =
        some (SE.getAddRecExpr (SE.getSignExtendExpr f ty) (SE.getSignExtendExpr c ty) L,
          false)) ∧
    (SCEVBionmialSearch.visit SE (SCEV.zeroExtend E1 ty) {} =
        some { Coef := some (SE.getZeroExtendExpr c ty),
               FreeTerm := some (SE.getZeroExtendExpr f ty), L := some L, IsSafeCast := false } ∧
      computeSCEVAddRec SE (SCEV.zeroExtend E1 ty) =
        some (SE.getAddRecExpr (SE.getZeroExtendExpr f ty) (SE.getZeroExtendExpr c ty) L,
          false)) := by
  have hclear := visit_clear SE E1 {}
  rw [hS] at hclear
  simp only [Option.map_some'] at hclear
  have hv : ∀ cast : SCEV → SCEV,
      SCEVBionmialSearch.recast cast { S1 with IsSafeCast := false } =
        { Coef := some (cast c), FreeTerm := some (cast f), L := some L, IsSafeCast := false } := by
    intro cast
    simp [SCEVBionmialSearch.recast, hL, hc, hf]
  refine ⟨⟨?_, ?_⟩, ⟨?_, ?_⟩, ⟨?_, ?_⟩⟩ <;>
    simp [computeSCEVAddRec, SCEVBionmialSearch.visit, hclear, hv]

/-- C17 at the casts of x + 3 * {1,+,4}<7> to 32 bits. -/
theorem cast_rule_witness :
    (SCEVBionmialSearch.visit exactSE (SCEV.truncate sampleAffine 32) {} =
        some { Coef := some (exactSE.getTruncateExpr
                 (SCEV.mulExpr [SCEV.constant 64 3, SCEV.constant 64 4]) 32),
               FreeTerm := some (exactSE.getTruncateExpr (SCEV.addExpr [SCEV.unknown 64 0,
                 SCEV.mulExpr [SCEV.constant 64 3, SCEV.constant 64 1]]) 32),
               L := some 7, IsSafeCast := false } ∧
      computeSCEVAddRec exactSE (SCEV.truncate sampleAffine 32) =
        some (exactSE.getAddRecExpr
          (exactSE.getTruncateExpr (SCEV.addExpr [SCEV.unknown 64 0,
            SCEV.mulExpr [SCEV.constant 64 3, SCEV.constant 64 1]]) 32)
          (exactSE.getTruncateExpr (SCEV.mulExpr [SCEV.constant 64 3, SCEV.constant 64 4]) 32)
          7, false)) ∧
    (SCEVBionmialSearch.visit exactSE (SCEV.signExtend sampleAffine 32) {} =
        some { Coef := some (exactSE.getSignExtendExpr
                 (SCEV.mulExpr [SCEV.constant 64 3, SCEV.constant 64 4]) 32),
               FreeTerm := some (exactSE.getSignExtendExpr (SCEV.addExpr [SCEV.unknown 64 0,
                 SCEV.mulExpr [SCEV.constant 64 3, SCEV.constant 64 1]]) 32),
               L := some 7, IsSafeCast := false } ∧
      computeSCEVAddRec exactSE (SCEV.signExtend sampleAffine 32) =
        some (exactSE.getAddRecExpr
          (exactSE.getSignExtendExpr (SCEV.addExpr [SCEV.unknown 64 0,
            SCEV.mulExpr [SCEV.constant 64 3, SCEV.constant 64 1]]) 32)
          (exactSE.getSignExtendExpr (SCEV.mulExpr [SCEV.constant 64 3, SCEV.constant 64 4]) 32)
          7, false)) ∧
    (SCEVBionmialSearch.visit exactSE (SCEV.zeroExtend sampleAffine 32) {} =
        some { Coef := some (exactSE.getZeroExtendExpr
                 (SCEV.mulExpr [SCEV.constant 64 3, SCEV.constant 64 4]) 32),
               FreeTerm := some (exactSE.getZeroExtendExpr (SCEV.addExpr [SCEV.unknown 64 0,
                 SCEV.mulExpr [SCEV.constant 64 3, SCEV.constant 64 1]]) 32),
               L := some 7, IsSafeCast := false } ∧
      computeSCEVAddRec exactSE (SCEV.zeroExtend sampleAffine 32) =
        some (exactSE.getAddRecExpr
          (exactSE.getZeroExtendExpr (SCEV.addExpr [SCEV.unknown 64 0,
            SCEV.mulExpr [SCEV.constant 64 3, SCEV.constant 64 1]]) 32)
          (exactSE.getZeroExtendExpr (SCEV.mulExpr [SCEV.constant 64 3, SCEV.constant 64 4]) 32)
          7, false)) :=
  cast_rule exactSE sampleAffine
    { Coef := some (SCEV.mulExpr [SCEV.constant 64 3, SCEV.constant 64 4]),
      FreeTerm := some (SCEV.addExpr [SCEV.unknown 64 0,
            SCEV.mulExpr [SCEV.constant 64 3, SCEV.constant 64 1]]),
      L := some 7, IsSafeCast := true }
    7 _ _ 32 rfl rfl rfl rfl


/-! ## Validity of the collected elements -/

theorem addToArrays_last (BasePtr N : Nat) (El : Element) (ref : Bool) :
    ∀ (As As1 : List Array), addToArrays BasePtr N El ref As = some As1 →
      ∃ A ∈ As1, A.Base = BasePtr ∧ A.Elements.getLast? = some El ∧ A.getNumberOfDims = N := by
  intro As
  induction As with
  | nil =>
    intro As1 h
    simp [addToArrays] at h
    subst h
    refine ⟨_, List.mem_singleton_self _, rfl, rfl, ?_⟩
    simp [Array.getNumberOfDims, Array.setNumberOfDims]
  | cons A rest ih =>
    intro As1 h
    simp only [addToArrays] at h
    by_cases hb : A.Base = BasePtr
    · simp only [hb, if_true] at h
      by_cases hn : A.getNumberOfDims = N
      · simp [hn] at h
        subst h
        exact ⟨_, List.mem_cons_self _ _, by simp [hb], by simp, hn⟩
      · simp [hn] at h
    · simp only [hb, if_false] at h
      cases hr : addToArrays BasePtr N El ref rest with
      | none => simp [hr] at h
      | some rest1 =>
        simp [hr] at h
        subst h
        obtain ⟨B, hB, h1⟩ := ih rest1 hr
        exact ⟨B, List.mem_cons_of_mem _ hB, h1⟩

theorem makeElement_flags (SE : ScalarEvolution) (mIndexTy Ptr N : Nat) (scalar : Bool)
    (raw : List Value) :
    (makeElement SE mIndexTy scalar Ptr N raw).1.IsElement = scalar ∧
    (makeElement SE mIndexTy scalar Ptr N raw).1.IsValid = (!scalar || decide (N ≤ raw.length)) ∧
    (makeElement SE mIndexTy scalar Ptr N raw).1.Subscripts =
      (if scalar then List.replicate (N - raw.length) (getZero mIndexTy) else []) ++
        raw.map SE.getSCEV := by
  unfold makeElement
  cases scalar
  · by_cases he : raw = [] <;> simp [he]
  · by_cases he : raw = []
    · subst he
      by_cases hk : 0 < N
      · simp [hk]; omega
      · simp [hk]; omega
    · by_cases hk : raw.length < N
      · simp [he, hk]
      · simp [he, hk]; omega

/-- C20 (as stated) fails: the load `shortAccess` of an array hinted with two
dimensions has one raw subscript; the collector pads it to exactly two
subscripts and leaves it not valid. -/
theorem padded_element_left_invalid :
    collectArrays refSE 64 (fun _ => [-1, 10]) [shortAccess] = some shortAccessRegistry ∧
    shortAccessRegistry.Arrays.map (fun A => (A.getNumberOfDims,
      A.Elements.map (fun El => (El.Subscripts.length, El.IsElement, El.IsValid)))) =
      [(2, [(2, true, false)])] := by
  constructor <;> rfl

/-- C20 (amended): the element that the collector appends for a load, store or
atomic access with `k` raw subscripts of an array with `N` hinted dimensions is
an element access, is valid exactly when `N ≤ k`, that is when nothing is padded,
and has `max N k` subscripts; a padded element has exactly `N` subscripts and is
not valid. -/
theorem validity_after_padding (SE : ScalarEvolution) (mIndexTy : Nat) (Hint : Nat → List Int)
    (R R1 : Registry) (I : MemoryAccess) (N : Nat) (raw : List Value)
    (hscalar : I.IsScalarAccess = true)
    (hN : N = ((R.DimsCache.lookup I.BasePtr).getD (Hint I.BasePtr)).length)
    (hraw : extractSubscriptsFromGEPs (takeGEPs N I.GEPChain).reverse = some raw)
    (hR : processMemory SE mIndexTy Hint R I = some R1) :
    ∃ A ∈ R1.Arrays, ∃ El, A.Base = I.BasePtr ∧ A.getNumberOfDims = N ∧
      A.Elements.getLast? = some El ∧ El.IsElement = true ∧
      El.IsValid = decide (N ≤ raw.length) ∧ El.Subscripts.length = max N raw.length ∧
      (raw.length < N → El.Subscripts.length = N ∧ El.IsValid = false) := by
  have key : ∀ (Ptr : Nat) (As As1 : List Array),
      addToArrays I.BasePtr N (makeElement SE mIndexTy true Ptr N raw).1
        (makeElement SE mIndexTy true Ptr N raw).2 As = some As1 →
      ∃ A ∈ As1, ∃ El, A.Base = I.BasePtr ∧ A.getNumberOfDims = N ∧
        A.Elements.getLast? = some El ∧ El.IsElement = true ∧
        El.IsValid = decide (N ≤ raw.length) ∧ El.Subscripts.length = max N raw.length ∧
        (raw.length < N → El.Subscripts.length = N ∧ El.IsValid = false) := by
    intro Ptr As As1 ha
    obtain ⟨A, hA, h1, h2, h3⟩ := addToArrays_last _ _ _ _ _ _ ha
    obtain ⟨m1, m2, m3⟩ := makeElement_flags SE mIndexTy Ptr N true raw
    have hlen : (makeElement SE mIndexTy true Ptr N raw).1.Subscripts.length =
        max N raw.length := by
      rw [m3]; simp; omega
    refine ⟨A, hA, _, h1, h3, h2, m1, by simpa using m2, hlen, ?_⟩
    intro hk
    refine ⟨by rw [hlen]; omega, ?_⟩
    rw [m2]; simp; omega
  unfold processMemory at hR
  cases hc : R.DimsCache.lookup I.BasePtr with
  | none =>
    simp only [hc, Option.getD_none] at hN hR
    rw [← hN, hraw] at hR
    simp only [hscalar] at hR
    split at hR
    · rename_i As1 ha
      simp at hR
      subst hR
      exact key _ _ _ ha
    · simp at hR
  | some d =>
    simp only [hc, Option.getD_some] at hN hR
    rw [← hN, hraw] at hR
    simp only [hscalar] at hR
    split at hR
    · rename_i As1 ha
      simp at hR
      subst hR
      exact key _ _ _ ha
    · simp at hR

/-- C20 (amended) at the load `shortAccess`: one raw subscript, two dimensions. -/
theorem validity_after_padding_witness :
    ∃ A ∈ shortAccessRegistry.Arrays, ∃ El, A.Base = shortAccess.BasePtr ∧
      A.getNumberOfDims = 2 ∧
      A.Elements.getLast? = some El ∧ El.IsElement = true ∧
      El.IsValid = decide (2 ≤ [Value.other 9].length) ∧
      El.Subscripts.length = max 2 [Value.other 9].length ∧
      ([Value.other 9].length < 2 → El.Subscripts.length = 2 ∧ El.IsValid = false) :=
  validity_after_padding refSE 64 (fun _ => [-1, 10]) {} shortAccessRegistry shortAccess 2
    [Value.other 9] rfl rfl rfl rfl

/-! ## The expressions gathered for a GCD -/

/-- C19 (as stated) fails: the collector leaves the padded access [0, 3, 2] of
`paddedArray` not valid, yet its subscripts 3 and 0 are among the expressions
gathered for the GCD of dimension 2, and the sizes inferred are 6 and 1 where
the valid access alone gives 3 and 2. -/
theorem invalid_element_enters_gcd :
    collectArrays refSE 64 (fun _ => [-1, -1, -1]) paddedAccesses =
      some { DimsCache := [(0, [-1, -1, -1])], Arrays := [paddedArray] } ∧
    paddedArray.Elements.map (fun e => (e.IsElement, e.IsValid)) =
      [(true, true), (true, false)] ∧
    gatherExpressions 3 2 paddedArray.Elements =
      some [SCEV.constant 64 4, SCEV.constant 64 6, SCEV.constant 64 3, SCEV.constant 64 0] ∧
    (fillArrayDimensionsSizes refSE 64 [-1, -1, -1] paddedArray).map (fun r => r.2.Dims) =
      some [some SCEV.couldNotCompute, some (SCEV.constant 64 6), some (SCEV.constant 64 1)] ∧
    (fillArrayDimensionsSizes refSE 64 [-1, -1, -1] paddedArrayValidOnly).map
        (fun r => r.2.Dims) =
      some [some SCEV.couldNotCompute, some (SCEV.constant 64 3), some (SCEV.constant 64 2)] := by
  refine ⟨?_, ?_, ?_, ?_, ?_⟩ <;> rfl

theorem gatherExpressions_eq (N d : Nat) :
    ∀ (els : List Element) (es : List SCEV), gatherExpressions N d els = some es →
      es = els.foldr (fun e acc =>
        if e.IsElement then (e.Subscripts.take d).reverse ++ acc else acc) [] := by
  intro els
  induction els with
  | nil => intro es h; simp [gatherExpressions] at h; subst h; rfl
  | cons e els ih =>
    intro es h
    simp only [gatherExpressions] at h
    by_cases he : e.IsElement = true
    · simp only [he, Bool.not_true, Bool.false_eq_true, if_false] at h
      by_cases hn : e.Subscripts.length = N
      · simp only [hn, ne_eq, not_true_eq_false, if_false] at h
        cases hr : gatherExpressions N d els with
        | none => simp [hr] at h
        | some es1 =>
          simp only [hr, Option.some.injEq] at h
          subst h
          simp [he, ih es1 hr]
      · simp [hn] at h
    · simp only [he, Bool.not_false, if_true] at h
      simp [he, ih es h]

theorem gatherExpressions_valid_irrelevant (N d : Nat) (flag : Element → Bool) :
    ∀ els : List Element,
      gatherExpressions N d (els.map (fun e => { e with IsValid := flag e })) =
        gatherExpressions N d els := by
  intro els
  induction els with
  | nil => rfl
  | cons e els ih => simp only [List.map_cons, gatherExpressions, ih]

/-- C19 (amended): the expressions that `fillArrayDimensionsSizes` gathers for the
GCD of dimension `d` are, element by element in order, the subscripts at the
indices `d - 1` down to 0 of every range flagged as an element access, valid or
not; the valid flag has no influence on them. -/
theorem gathered_from_element_accesses (N d : Nat) (els : List Element) (es : List SCEV)
    (h : gatherExpressions N d els = some es) :
    es = els.foldr (fun e acc =>
        if e.IsElement then (e.Subscripts.take d).reverse ++ acc else acc) [] ∧
    (∀ x ∈ es, ∃ e ∈ els, e.IsElement = true ∧ ∃ j, j < d ∧ e.Subscripts[j]? = some x) ∧
    (∀ e ∈ els, e.IsElement = true → ∀ j x, j < d → e.Subscripts[j]? = some x → x ∈ es) ∧
    ∀ flag : Element → Bool,
      gatherExpressions N d (els.map (fun e => { e with IsValid := flag e })) = some es := by
  have heq := gatherExpressions_eq N d els es h
  refine ⟨heq, ?_, ?_, fun flag => by rw [gatherExpressions_valid_irrelevant, h]⟩
  · subst heq
    clear h
    induction els with
    | nil => intro x hx; simp at hx
    | cons e els ih =>
      intro x hx
      simp only [List.foldr_cons] at hx
      by_cases he : e.IsElement = true
      · simp only [he, if_true, List.mem_append, List.mem_reverse] at hx
        rcases hx with hx | hx
        · obtain ⟨j, hj⟩ := List.getElem?_of_mem hx
          have hjd : j < d := by
            by_contra hcon
            rw [List.getElem?_take_eq_none (by omega)] at hj
            simp at hj
          rw [List.getElem?_take_of_lt hjd] at hj
          exact ⟨e, List.mem_cons_self _ _, he, j, hjd, hj⟩
        · obtain ⟨e1, h1, h2⟩ := ih x hx
          exact ⟨e1, List.mem_cons_of_mem _ h1, h2⟩
      · simp only [he, if_false] at hx
        obtain ⟨e1, h1, h2⟩ := ih x hx
        exact ⟨e1, List.mem_cons_of_mem _ h1, h2⟩
  · subst heq
    clear h
    induction els with
    | nil => intro e he; simp at he
    | cons e0 els ih =>
      intro e he hel j x hj hx
      simp only [List.foldr_cons]
      rcases List.mem_cons.mp he with h0 | h0
      · subst h0
        simp only [hel, if_true, List.mem_append, List.mem_reverse]
        left
        have hx1 : (e.Subscripts.take d)[j]? = some x := by
          rw [List.getElem?_take_of_lt hj]
          exact hx
        exact List.mem_iff_getElem?.mpr ⟨j, hx1⟩
      · have := ih e h0 hel j x hj hx
        by_cases he0 : e0.IsElement = true
        · simp only [he0, if_true, List.mem_append]
          exact Or.inr this
        · simp only [he0, if_false]
          exact this

/-- C19 (amended) at the elements of `paddedArray` and dimension 2. -/
theorem gathered_from_element_accesses_witness :
    [SCEV.constant 64 4, SCEV.constant 64 6, SCEV.constant 64 3, SCEV.constant 64 0] =
      paddedArray.Elements.foldr (fun e acc =>
        if e.IsElement then (e.Subscripts.take 2).reverse ++ acc else acc) [] ∧
    (∀ x ∈ [SCEV.constant 64 4, SCEV.constant 64 6, SCEV.constant 64 3, SCEV.constant 64 0],
      ∃ e ∈ paddedArray.Elements, e.IsElement = true ∧
        ∃ j, j < 2 ∧ e.Subscripts[j]? = some x) ∧
    (∀ e ∈ paddedArray.Elements, e.IsElement = true → ∀ j x, j < 2 →
      e.Subscripts[j]? = some x →
      x ∈ [SCEV.constant 64 4, SCEV.constant 64 6, SCEV.constant 64 3, SCEV.constant 64 0]) ∧
    ∀ flag : Element → Bool,
      gatherExpressions 3 2 (paddedArray.Elements.map (fun e => { e with IsValid := flag e })) =
        some [SCEV.constant 64 4, SCEV.constant 64 6, SCEV.constant 64 3, SCEV.constant 64 0] :=
  gathered_from_element_accesses 3 2 paddedArray.Elements _ rfl

/-! ## The number of dimensions of an array without a hint -/

theorem findNumberOfDims_cons_invalid (e : Element) (els : List Element)
    (h : isValidElement e = false) : findNumberOfDims (e :: els) = findNumberOfDims els := by
  simp [findNumberOfDims, List.dropWhile_cons, h]

theorem findNumberOfDims_cons_valid (e : Element) (els : List Element)
    (h : isValidElement e = true) :
    findNumberOfDims (e :: els) =
      if els.all (fun x => !isValidElement x || x.Subscripts.length == e.Subscripts.length)
      then some e.Subscripts.length else none := by
  simp [findNumberOfDims, List.dropWhile_cons, h]

theorem findNumberOfDims_eq_some_iff (n : Nat) :
    ∀ els : List Element, findNumberOfDims els = some n ↔
      (∃ e ∈ els, isValidElement e = true) ∧
        ∀ e ∈ els, isValidElement e = true → e.Subscripts.length = n := by
  intro els
  induction els with
  | nil => simp [findNumberOfDims]
  | cons e els ih =>
    by_cases hv : isValidElement e = true
    · rw [findNumberOfDims_cons_valid e els hv]
      constructor
      · intro h
        split at h
        · rename_i hall
          injection h with h
          rw [List.all_eq_true] at hall
          refine ⟨⟨e, List.mem_cons_self _ _, hv⟩, ?_⟩
          intro x hx hxv
          rcases List.mem_cons.mp hx with h0 | h0
          · rw [h0]; exact h
          · have := hall x h0
            simp [hxv] at this
            omega
        · simp at h
      · rintro ⟨_, hall⟩
        have he := hall e (List.mem_cons_self _ _) hv
        have hall1 : els.all (fun x => !isValidElement x ||
            x.Subscripts.length == e.Subscripts.length) = true := by
          rw [List.all_eq_true]
          intro x hx
          by_cases hxv : isValidElement x = true
          · have := hall x (List.mem_cons_of_mem _ hx) hxv
            simp [hxv, this, he]
          · simp [hxv]
        rw [if_pos hall1, he]
    · have hv1 : isValidElement e = false := by simpa using hv
      rw [findNumberOfDims_cons_invalid e els hv1, ih]
      constructor
      · rintro ⟨⟨x, hx, hxv⟩, hall⟩
        refine ⟨⟨x, List.mem_cons_of_mem _ hx, hxv⟩, ?_⟩
        intro y hy hyv
        rcases List.mem_cons.mp hy with h0 | h0
        · rw [h0] at hyv; rw [hyv] at hv1; simp at hv1
        · exact hall y h0 hyv
      · rintro ⟨⟨x, hx, hxv⟩, hall⟩
        refine ⟨?_, fun y hy hyv => hall y (List.mem_cons_of_mem _ hy) hyv⟩
        rcases List.mem_cons.mp hx with h0 | h0
        · rw [h0] at hxv; rw [hxv] at hv1; simp at hv1
        · exact ⟨x, h0, hxv⟩

theorem findNumberOfDims_eq_none_iff (els : List Element) :
    findNumberOfDims els = none ↔
      (¬ ∃ e ∈ els, isValidElement e = true) ∨
        ∃ e1 ∈ els, ∃ e2 ∈ els, isValidElement e1 = true ∧ isValidElement e2 = true ∧
          e1.Subscripts.length ≠ e2.Subscripts.length := by
  constructor
  · intro h
    by_contra hcon
    push_neg at hcon
    obtain ⟨⟨e, he, hev⟩, hsame⟩ := hcon
    have : findNumberOfDims els = some e.Subscripts.length :=
      (findNumberOfDims_eq_some_iff _ els).mpr
        ⟨⟨e, he, hev⟩, fun x hx hxv => (hsame e he x hx hev hxv).symm⟩
    rw [h] at this
    simp at this
  · intro h
    cases hf : findNumberOfDims els with
    | none => rfl
    | some n =>
      obtain ⟨hex, hall⟩ := (findNumberOfDims_eq_some_iff n els).mp hf
      rcases h with h | ⟨e1, h1, e2, h2, v1, v2, hne⟩
      · exact absurd hex h
      · exact absurd ((hall e1 h1 v1).trans (hall e2 h2 v2).symm) hne

theorem gatherExpressions_isSome (N d : Nat) :
    ∀ els : List Element, (∀ e ∈ els, e.IsElement = true → e.Subscripts.length = N) →
      ∃ es, gatherExpressions N d els = some es := by
  intro els
  induction els with
  | nil => intro _; exact ⟨[], rfl⟩
  | cons e els ih =>
    intro h
    obtain ⟨es, hes⟩ := ih (fun x hx => h x (List.mem_cons_of_mem _ hx))
    by_cases he : e.IsElement = true
    · have := h e (List.mem_cons_self _ _) he
      exact ⟨(e.Subscripts.take d).reverse ++ es, by simp [gatherExpressions, he, this, hes]⟩
    · exact ⟨es, by simp [gatherExpressions, he, hes]⟩

theorem markOuterDims_length (ty : Nat) (DimSizes : List Int) :
    ∀ (Js : List Nat) (A A1 : Array), markOuterDims ty DimSizes Js A = some A1 →
      A1.Dims.length = A.Dims.length := by
  intro Js
  induction Js with
  | nil => intro A A1 h; simp [markOuterDims] at h; subst h; rfl
  | cons J Js ih =>
    intro A A1 h
    simp only [markOuterDims] at h
    split at h
    · simp at h
    · split at h
      · rename_i A2 hA2
        obtain ⟨_, hA2eq⟩ := setDimSize_eq _ _ _ _ hA2
        rw [ih _ _ h, hA2eq]
        simp
      · simp at h

theorem fillLoop_length (SE : ScalarEvolution) (ty N : Nat) (DimSizes : List Int) :
    ∀ (d : Nat) (Prev : SCEV) (A A1 : Array), fillLoop SE ty N DimSizes d Prev A = some A1 →
      A1.Dims.length = A.Dims.length ∧ A1.Elements = A.Elements ∧
        A1.Dims[0]? = A.Dims[0]? := by
  intro d
  induction d with
  | zero =>
    intro Prev A A1 h
    simp [fillLoop] at h
    subst h
    exact ⟨rfl, rfl, rfl⟩
  | succ d ih =>
    intro Prev A A1 h
    simp only [fillLoop] at h
    split at h
    · simp at h
    · rename_i c hc
      split at h
      · split at h
        · rename_i A2 hA2
          obtain ⟨hlt, hA2eq⟩ := setDimSize_eq _ _ _ _ hA2
          have hJs : ∀ J ∈ List.range' 1 d, J < A2.Dims.length ∧ J < DimSizes.length := by
            intro J hJ
            have hJ1 := List.mem_range'_1.mp hJ
            have hD : d + 1 < DimSizes.length := by
              unfold candidateSize at hc
              cases hg : DimSizes[d + 1]? with
              | none => simp [hg] at hc
              | some z => exact (List.getElem?_eq_some.mp hg).1
            rw [hA2eq]
            simp
            omega
          obtain ⟨D, hD1, hD2, hD3, _⟩ :=
            markOuterDims_spec ty DimSizes (List.range' 1 d) A2 hJs (List.nodup_range' _ _)
          rw [hD1] at h
          injection h with h
          subst h
          refine ⟨by simp [hD2, hA2eq], by simp [hA2eq], ?_⟩
          have := hD3 0 (by simp [List.mem_range'_1])
          simp only [this, hA2eq]
          simp
        · simp at h
      · split at h
        · rename_i A2 hA2
          obtain ⟨hlt, hA2eq⟩ := setDimSize_eq _ _ _ _ hA2
          obtain ⟨h1, h2, h3⟩ := ih _ _ _ h
          refine ⟨by simp [h1, hA2eq], by simp [h2, hA2eq], ?_⟩
          rw [h3, hA2eq]
          simp
        · simp at h

theorem fillLoop_isSome (SE : ScalarEvolution) (ty N : Nat) (DimSizes : List Int) :
    ∀ (d : Nat) (Prev : SCEV) (A : Array), d < A.Dims.length → d < DimSizes.length →
      (∀ e ∈ A.Elements, e.IsElement = true → e.Subscripts.length = N) →
      (∀ k es, 1 ≤ k → k ≤ d → gatherExpressions N k A.Elements = some es →
        (findGCD SE es).isSome = true) →
      ∃ A1, fillLoop SE ty N DimSizes d Prev A = some A1 := by
  intro d
  induction d with
  | zero => intro Prev A _ _ _ _; exact ⟨_, rfl⟩
  | succ d ih =>
    intro Prev A hA hD hel hgcd
    obtain ⟨sz, hsz⟩ : ∃ sz, DimSizes[d + 1]? = some sz :=
      ⟨_, List.getElem?_eq_getElem hD⟩
    obtain ⟨c, hc⟩ : ∃ c, candidateSize SE ty N DimSizes A (d + 1) Prev = some c := by
      unfold candidateSize
      rw [hsz]
      by_cases hpos : sz > 0
      · exact ⟨getConstant ty sz, by simp [hpos]⟩
      · obtain ⟨es, hes⟩ := gatherExpressions_isSome N (d + 1) A.Elements hel
        have hg := hgcd (d + 1) es (by omega) (le_refl _) hes
        obtain ⟨g, hg1⟩ := Option.isSome_iff_exists.mp hg
        exact ⟨(SE.divide g Prev).1, by simp [hpos, hes, hg1]⟩
    simp only [fillLoop, hc]
    by_cases hz : c.isZero = true
    · simp only [hz, if_true]
      have hs : A.setDimSize (d + 1) getCouldNotCompute =
          some { A with Dims := A.Dims.set (d + 1) (some getCouldNotCompute) } := by
        simp [Array.setDimSize, hA]
      rw [hs]
      have hJs : ∀ J ∈ List.range' 1 d,
          J < ({ A with Dims := A.Dims.set (d + 1) (some getCouldNotCompute) } : Array).Dims.length
            ∧ J < DimSizes.length := by
        intro J hJ
        have hJ1 := List.mem_range'_1.mp hJ
        simp
        omega
      obtain ⟨D, hD1, _⟩ :=
        markOuterDims_spec ty DimSizes (List.range' 1 d) _ hJs (List.nodup_range' _ _)
      exact ⟨_, hD1⟩
    · simp only [hz, if_false]
      have hs : A.setDimSize (d + 1) c =
          some { A with Dims := A.Dims.set (d + 1) (some c) } := by
        simp [Array.setDimSize, hA]
      rw [hs]
      exact ih _ _ (by simp; omega) (by omega) hel
        (fun k es h1 h2 h3 => hgcd k es h1 (by omega) h3)

/-- C18: the collector leaves `scalarArray` for a load of the
base object itself next to a call on `&base[x][w]`; its only valid element access
has no subscript, so all such elements have the same count 0, and
`fillArrayDimensionsSizes` stops at its own assertion that the count is
positive (`assert(NumberOfDims > 0)`) instead of returning the array with that
count. -/
theorem zero_subscript_count_asserts :
    collectArrays refSE 64 (fun _ => []) scalarAccesses =
      some { DimsCache := [(0, [])], Arrays := [scalarArray] } ∧
    scalarArray.getNumberOfDims = 0 ∧
    findNumberOfDims scalarArray.Elements = some 0 ∧
    fillArrayDimensionsSizes refSE 64 [] scalarArray = none := by
  refine ⟨?_, ?_, ?_, ?_⟩ <;> rfl

/-- The dimension count of an array that enters `fillArrayDimensionsSizes` with
no dimension. (a) If some element is flagged element and valid and all such
elements have the same subscript count `n ≥ 1`, every return leaves the hint
resized to `n`, the array with `n` dimensions, the same elements and dimension 0
not computable; and the function does return when every element access has `n`
subscripts and the GCD of every gathered list is found. (b) If there is no such
element, or two of them differ in subscript count, the function returns the hint
and the array unchanged. -/
theorem dimension_count_without_hint (SE : ScalarEvolution) (ty : Nat) (DimSizes : List Int)
    (A : Array) (h0 : A.getNumberOfDims = 0) :
    (∀ n, 1 ≤ n → (∃ e ∈ A.Elements, isValidElement e = true) →
      (∀ e ∈ A.Elements, isValidElement e = true → e.Subscripts.length = n) →
      (∀ r, fillArrayDimensionsSizes SE ty DimSizes A = some r →
        r.1 = resizeDimSizes DimSizes n ∧ r.2.getNumberOfDims = n ∧
          r.2.Elements = A.Elements ∧ r.2.getDimSize 0 = some getCouldNotCompute) ∧
      ((∀ e ∈ A.Elements, e.IsElement = true → e.Subscripts.length = n) →
        (∀ k es, 1 ≤ k → k < n → gatherExpressions n k A.Elements = some es →
          (findGCD SE es).isSome = true) →
        ∃ r, fillArrayDimensionsSizes SE ty DimSizes A = some r)) ∧
    ((¬ ∃ e ∈ A.Elements, isValidElement e = true) ∨
        (∃ e1 ∈ A.Elements, ∃ e2 ∈ A.Elements, isValidElement e1 = true ∧
          isValidElement e2 = true ∧ e1.Subscripts.length ≠ e2.Subscripts.length) →
      fillArrayDimensionsSizes SE ty DimSizes A = some (DimSizes, A)) := by
  have hD : A.Dims = [] := List.length_eq_zero.mp h0
  constructor
  · intro n hn hex hall
    have hf := (findNumberOfDims_eq_some_iff n A.Elements).mpr ⟨hex, hall⟩
    have hn0 : n ≠ 0 := by omega
    have hset : (A.setNumberOfDims n).setDimSize 0 getCouldNotCompute =
        some { A with Dims := (List.replicate n none).set 0 (some getCouldNotCompute) } := by
      simp [Array.setNumberOfDims, Array.setDimSize, hD]
      omega
    have hfill : fillArrayDimensionsSizes SE ty DimSizes A =
        match fillLoop SE ty n (resizeDimSizes DimSizes n) (n - 1) (getConstant ty 1)
          { A with Dims := (List.replicate n none).set 0 (some getCouldNotCompute) } with
        | some A2 => some (resizeDimSizes DimSizes n, A2)
        | none => none := by
      unfold fillArrayDimensionsSizes
      simp only [h0, if_true, hf, hn0, if_false, hset]
    constructor
    · intro r hr
      rw [hfill] at hr
      split at hr
      · rename_i A2 hA2
        injection hr with hr
        subst hr
        obtain ⟨h1, h2, h3⟩ := fillLoop_length _ _ _ _ _ _ _ _ hA2
        refine ⟨rfl, ?_, h2, ?_⟩
        · simp [Array.getNumberOfDims, h1]
        · simp only [Array.getDimSize, h3]
          cases n with
          | zero => omega
          | succ m => simp [List.replicate_succ, getCouldNotCompute]
      · simp at hr
    · intro hel hgcd
      have hlenD : (resizeDimSizes DimSizes n).length = n := by
        simp [resizeDimSizes]
        omega
      obtain ⟨A1, hA1⟩ := fillLoop_isSome SE ty n (resizeDimSizes DimSizes n) (n - 1)
        (getConstant ty 1)
        { A with Dims := (List.replicate n none).set 0 (some getCouldNotCompute) }
        (by simp; omega) (by omega) hel
        (fun k es h1 h2 h3 => hgcd k es h1 (by omega) h3)
      exact ⟨(resizeDimSizes DimSizes n, A1), by rw [hfill, hA1]⟩
  · intro h
    have hf := (findNumberOfDims_eq_none_iff A.Elements).mpr h
    unfold fillArrayDimensionsSizes
    simp only [h0, if_true, hf]

/-- The dimension count at `mixedArray` (two subscripts in every valid element
access) and at `conflictingArray` (one and two subscripts). -/
theorem dimension_count_without_hint_witness :
    (∀ r, fillArrayDimensionsSizes refSE 64 [] mixedArray = some r →
        r.1 = resizeDimSizes [] 2 ∧ r.2.getNumberOfDims = 2 ∧
          r.2.Elements = mixedArray.Elements ∧ r.2.getDimSize 0 = some getCouldNotCompute) ∧
    (∃ r, fillArrayDimensionsSizes refSE 64 [] mixedArray = some r) ∧
    fillArrayDimensionsSizes refSE 64 [] conflictingArray = some ([], conflictingArray) := by
  have hmem : ∀ e ∈ mixedArray.Elements, e.Subscripts.length = 2 := by
    intro e he
    simp only [mixedArray, List.mem_cons, List.mem_singleton, List.not_mem_nil,
      or_false] at he
    rcases he with rfl | rfl | rfl <;> rfl
  have ha := (dimension_count_without_hint refSE 64 [] mixedArray rfl).1 2 (by decide)
    ⟨access 2 [SCEV.mulExpr [SCEV.unknown 64 100, SCEV.unknown 64 3], SCEV.unknown 64 4],
      by simp [mixedArray], rfl⟩
    (fun e he _ => hmem e he)
  refine ⟨ha.1, ha.2 (fun e he _ => hmem e he) ?_,
    (dimension_count_without_hint refSE 64 [] conflictingArray rfl).2
      (Or.inr ⟨access 1 [SCEV.unknown 64 1], by simp [conflictingArray],
        access 2 [SCEV.unknown 64 2, SCEV.unknown 64 3], by simp [conflictingArray],
        rfl, rfl, by decide⟩)⟩
  intro k es h1 h2 h
  obtain rfl : k = 1 := by omega
  have hes : gatherExpressions 2 1 mixedArray.Elements =
      some [SCEV.mulExpr [SCEV.unknown 64 100, SCEV.unknown 64 3],
            SCEV.mulExpr [SCEV.unknown 64 100, SCEV.unknown 64 5]] := rfl
  rw [hes] at h
  injection h with h
  subst h
  rfl


/-! ## The cached prime table -/

theorem cachedPrimes_prime : ∀ p ∈ CachedPrimes, Nat.Prime p := by
  unfold CachedPrimes
  simp only [List.forall_mem_cons, List.not_mem_nil, false_imp_iff, implies_true, and_true]
  norm_num

theorem cachedPrimes_sorted : CachedPrimes.Pairwise (fun a b => a < b) := by
  unfold CachedPrimes
  decide

/-- The divisor test by trial division over 2 .. q - 1. -/
theorem trial_of_prime (q : Nat) (hq : Nat.Prime q) :
    (decide (2 ≤ q) && (List.range' 2 (q - 2)).all (fun m => q % m != 0)) = true := by
  simp only [Bool.and_eq_true, decide_eq_true_eq, List.all_eq_true, bne_iff_ne, ne_eq]
  refine ⟨hq.two_le, ?_⟩
  intro m hm
  have hm1 := List.mem_range'_1.mp hm
  intro h0
  have hdvd : m ∣ q := Nat.dvd_of_mod_eq_zero h0
  rcases (Nat.dvd_prime hq).mp hdvd with h | h <;> omega

set_option maxRecDepth 100000 in
theorem cachedPrimes_check :
    ∀ q < 282, (decide (2 ≤ q) && (List.range' 2 (q - 2)).all (fun m => q % m != 0)) = true →
      q ∈ CachedPrimes := by
  decide!

theorem cachedPrimes_complete (q : Nat) (hq : Nat.Prime q) (h : q ≤ 281) : q ∈ CachedPrimes :=
  cachedPrimes_check q (by omega) (trial_of_prime q hq)

theorem takeWhile_le_of_sorted (c : Nat) :
    ∀ l : List Nat, l.Pairwise (fun a b => a < b) →
      l.takeWhile (fun p => decide (p ≤ c)) = l.filter (fun p => decide (p ≤ c)) := by
  intro l
  induction l with
  | nil => intro _; rfl
  | cons a l ih =>
    intro h
    rw [List.pairwise_cons] at h
    by_cases ha : a ≤ c
    · simp [List.takeWhile_cons, List.filter_cons, ha, ih h.2]
    · have hnil : l.filter (fun p => decide (p ≤ c)) = [] := by
        rw [List.filter_eq_nil_iff]
        intro b hb
        have := h.1 b hb
        simp
        omega
      simp [List.takeWhile_cons, List.filter_cons, ha, hnil]

theorem countPrimeNumbers_cached (Bound : Nat) (h : Bound ≤ 281) :
    ∃ ps, countPrimeNumbers Bound = some ps ∧ ps.Pairwise (fun a b => a < b) ∧
      ∀ p, p ∈ ps ↔ Nat.Prime p ∧ p ≤ Bound := by
  refine ⟨CachedPrimes.takeWhile (fun p => decide (p ≤ Bound)), by simp [countPrimeNumbers, h],
    ?_, ?_⟩
  · rw [takeWhile_le_of_sorted Bound _ cachedPrimes_sorted]
    exact List.Pairwise.filter _ cachedPrimes_sorted
  · intro p
    rw [takeWhile_le_of_sorted Bound _ cachedPrimes_sorted, List.mem_filter]
    simp only [decide_eq_true_eq]
    constructor
    · rintro ⟨h1, h2⟩
      exact ⟨cachedPrimes_prime p h1, h2⟩
    · rintro ⟨h1, h2⟩
      exact ⟨cachedPrimes_complete p h1 (by omega), h2⟩

theorem factorLoop_mem (ty : Nat) (Primes : List Nat) :
    ∀ (fuel c i : Nat) (acc out : List SCEV),
      factorLoop ty Primes fuel c i acc = some out →
      ∃ ps : List Nat, out = acc ++ ps.map (fun p : Nat => getConstant ty (p : Int)) ∧
        ps.prod * (if c > 1 then 1 else c) = c ∧ (∀ p ∈ ps, p ∈ Primes) := by
  intro fuel
  induction fuel with
  | zero => intro c i acc out h; simp [factorLoop] at h
  | succ fuel ih =>
    intro c i acc out h
    simp only [factorLoop] at h
    by_cases hc : c > 1
    · simp only [hc, if_true] at h
      cases hp : Primes[i]? with
      | none => simp [hp] at h
      | some p =>
        simp only [hp] at h
        by_cases hd : c % p = 0
        · simp only [hd, if_true] at h
          obtain ⟨ps, h1, h2, h3⟩ := ih _ _ _ _ h
          refine ⟨p :: ps, by simp [h1], ?_, ?_⟩
          · simp only [hc, if_true, mul_one, List.prod_cons]
            have hpc : p * (c / p) = c := Nat.mul_div_cancel' (Nat.dvd_of_mod_eq_zero hd)
            by_cases hq : c / p > 1
            · simp only [hq, if_true, mul_one] at h2
              rw [h2, hpc]
            · simp only [hq, if_false] at h2
              have hq1 : c / p = 1 := by
                have : c / p ≠ 0 := by
                  intro h0
                  rw [h0] at hpc
                  omega
                omega
              rw [hq1] at h2 hpc
              simp at h2
              rw [h2]
              omega
          · intro q hq
            rcases List.mem_cons.mp hq with rfl | hq
            · exact List.mem_iff_getElem?.mpr ⟨i, hp⟩
            · exact h3 q hq
        · simp only [hd, if_false] at h
          cases i with
          | zero => simp at h
          | succ k =>
            simp only at h
            obtain ⟨ps, h1, h2, h3⟩ := ih _ _ _ _ h
            exact ⟨ps, h1, by simpa [hc] using h2, h3⟩
    · simp only [hc, if_false] at h
      injection h with h
      subst h
      exact ⟨[], by simp, by simp [hc], by simp⟩

theorem factorLoop_isSome (ty : Nat) (Primes : List Nat) :
    ∀ (fuel c i : Nat) (acc : List SCEV), c + i + 1 ≤ fuel → 1 ≤ c → i < Primes.length →
      (∀ q, Nat.Prime q → q ∣ c → ∃ j, j ≤ i ∧ Primes[j]? = some q) →
      (∀ p ∈ Primes, 2 ≤ p) →
      ∃ out, factorLoop ty Primes fuel c i acc = some out := by
  intro fuel
  induction fuel with
  | zero => intro c i acc h; omega
  | succ fuel ih =>
    intro c i acc hfuel hc1 hi hinv h2
    simp only [factorLoop]
    by_cases hc : c > 1
    · simp only [hc, if_true]
      have hp : Primes[i]? = some Primes[i] := List.getElem?_eq_getElem hi
      rw [hp]
      simp only
      have hp2 : 2 ≤ Primes[i] := h2 _ (List.getElem_mem hi)
      by_cases hd : c % Primes[i] = 0
      · simp only [hd, if_true]
        have hdvd : Primes[i] ∣ c := Nat.dvd_of_mod_eq_zero hd
        have hlt : c / Primes[i] < c := Nat.div_lt_self (by omega) (by omega)
        have hpos : 1 ≤ c / Primes[i] := Nat.div_pos (Nat.le_of_dvd (by omega) hdvd) (by omega)
        apply ih _ _ _ (by omega) hpos hi _ h2
        intro q hq hqd
        exact hinv q hq (Nat.dvd_trans hqd (Nat.div_dvd_of_dvd hdvd))
      · simp only [hd, if_false]
        obtain ⟨q, hq, hqd⟩ := Nat.exists_prime_and_dvd (show c ≠ 1 by omega)
        cases i with
        | zero =>
          exfalso
          obtain ⟨j, hj, hjq⟩ := hinv q hq hqd
          have hj0 : j = 0 := by omega
          subst hj0
          rw [hp] at hjq
          injection hjq with hjq
          rw [hjq] at hd
          exact hd (Nat.mod_eq_zero_of_dvd hqd)
        | succ k =>
          simp only
          apply ih _ _ _ (by omega) hc1 (by omega) _ h2
          intro r hr hrd
          obtain ⟨j, hj, hjr⟩ := hinv r hr hrd
          refine ⟨j, ?_, hjr⟩
          by_contra hcon
          have hjk : j = k + 1 := by omega
          subst hjk
          rw [hp] at hjr
          injection hjr with hjr
          rw [hjr] at hd
          exact hd (Nat.mod_eq_zero_of_dvd hrd)
    · exact ⟨acc, by simp [hc]⟩


theorem foldl_gcd_one : ∀ ts : List Nat, ts.foldl Nat.gcd 1 = 1 := by
  intro ts
  induction ts with
  | nil => rfl
  | cons t ts ih => simp [List.foldl_cons, ih]

theorem foldl_gcd_eq : ∀ (ts : List Nat) (x : Nat),
    ts.foldl Nat.gcd x = Nat.gcd x (ts.foldr Nat.gcd 0) := by
  intro ts
  induction ts with
  | nil => intro x; simp
  | cons t ts ih =>
    intro x
    simp only [List.foldl_cons, List.foldr_cons, ih, Nat.gcd_assoc]

theorem foldr_gcd_dvd : ∀ (ts : List Nat) (t : Nat), t ∈ ts → ts.foldr Nat.gcd 0 ∣ t := by
  intro ts
  induction ts with
  | nil => intro t h; simp at h
  | cons a ts ih =>
    intro t h
    simp only [List.foldr_cons]
    rcases List.mem_cons.mp h with rfl | h
    · exact Nat.gcd_dvd_left _ _
    · exact Nat.dvd_trans (Nat.gcd_dvd_right _ _) (ih t h)

theorem prod_primes_two_le : ∀ ds : List Nat, (∀ d ∈ ds, Nat.Prime d) → ds ≠ [] →
    2 ≤ ds.prod := by
  intro ds
  induction ds with
  | nil => intro _ h; exact absurd rfl h
  | cons d ds ih =>
    intro hp _
    have hd := (hp d (List.mem_cons_self _ _)).two_le
    have hpos : 0 < ds.prod := List.prod_pos (fun x hx =>
      (hp x (List.mem_cons_of_mem _ hx)).pos)
    simp only [List.prod_cons]
    nlinarith

theorem find_opening_nat (ty : Nat) (vs : List Nat) :
    (vs.map (fun n : Nat => SCEV.constant ty (n : Int))).find? (fun t => !t.isZero) =
      (vs.find? (fun v => v != 0)).map (fun n : Nat => SCEV.constant ty (n : Int)) := by
  induction vs with
  | nil => rfl
  | cons v vs ih =>
    rw [List.map_cons, List.find?_cons, List.find?_cons]
    have h1 : (!(SCEV.constant ty (v : Int)).isZero) = (v != 0) := by
      simp [SCEV.isZero, bne]
    rw [h1]
    cases (v != 0)
    · exact ih
    · rfl

theorem stepDividers_gcd (SE : ScalarEvolution) (hSE : ConstantArithmetic SE) (ty : Nat) :
    ∀ (ds : List Nat) (t : Nat), (∀ d ∈ ds, Nat.Prime d ∧ (d : Int) < 2 ^ (ty - 1)) →
      (t : Int) < 2 ^ (ty - 1) →
      ∃ ds1 : List Nat,
        stepDividers SE (ds.map (fun n : Nat => SCEV.constant ty (n : Int)))
            (SCEV.constant ty (t : Int)) =
          ds1.map (fun n : Nat => SCEV.constant ty (n : Int)) ∧
        ds1.Sublist ds ∧ ds1.prod = Nat.gcd ds.prod t := by
  intro ds
  induction ds with
  | nil => intro t _ _; exact ⟨[], rfl, List.Sublist.refl _, by simp⟩
  | cons d ds ih =>
    intro t hds ht1
    obtain ⟨hdp, hd1⟩ := hds d (List.mem_cons_self _ _)
    have hds1 : ∀ x ∈ ds, Nat.Prime x ∧ (x : Int) < 2 ^ (ty - 1) :=
      fun x hx => hds x (List.mem_cons_of_mem _ hx)
    have hd0 : (0 : Int) < (d : Int) := by exact_mod_cast hdp.pos
    have hdiv := hSE.divide ty (t : Int) (d : Int) (by omega) hd0 ht1 hd1
    have e1 : (t : Int) / (d : Int) = ((t / d : Nat) : Int) := by norm_cast
    have e2 : (t : Int) % (d : Int) = ((t % d : Nat) : Int) := by norm_cast
    rw [e1, e2] at hdiv
    have hstep : stepDividers SE ((d :: ds).map (fun n : Nat => SCEV.constant ty (n : Int)))
        (SCEV.constant ty (t : Int)) =
        if t % d = 0 then
          SCEV.constant ty (d : Int) ::
            stepDividers SE (ds.map (fun n : Nat => SCEV.constant ty (n : Int)))
              (SCEV.constant ty ((t / d : Nat) : Int))
        else stepDividers SE (ds.map (fun n : Nat => SCEV.constant ty (n : Int)))
              (SCEV.constant ty (t : Int)) := by
      simp only [List.map_cons, stepDividers, hdiv, SCEV.isZero]
      by_cases hmod : t % d = 0
      · simp only [hmod, Nat.cast_zero, beq_self_eq_true, if_true]
      · have hne : ((t % d : Nat) : Int) ≠ 0 := by exact_mod_cast hmod
        simp only [hmod, beq_iff_eq, hne, if_false]
    rw [hstep]
    by_cases hmod : t % d = 0
    · have hq1 : ((t / d : Nat) : Int) < 2 ^ (ty - 1) := by
        have : ((t / d : Nat) : Int) ≤ (t : Int) := by exact_mod_cast Nat.div_le_self t d
        omega
      obtain ⟨ds1, h1, h2, h3⟩ := ih (t / d) hds1 hq1
      refine ⟨d :: ds1, by rw [if_pos hmod, h1]; rfl, h2.cons₂ d, ?_⟩
      have hdt : d ∣ t := Nat.dvd_of_mod_eq_zero hmod
      have ht : t = d * (t / d) := (Nat.mul_div_cancel' hdt).symm
      simp only [List.prod_cons, h3]
      conv_rhs => rw [ht]
      rw [Nat.gcd_mul_left]
    · obtain ⟨ds1, h1, h2, h3⟩ := ih t hds1 ht1
      refine ⟨ds1, by rw [if_neg hmod, h1], h2.cons d, ?_⟩
      have hcop : Nat.Coprime d t := by
        rw [Nat.Prime.coprime_iff_not_dvd hdp]
        intro hdvd
        exact hmod (Nat.mod_eq_zero_of_dvd hdvd)
      simp only [List.prod_cons, h3]
      exact (Nat.Coprime.gcd_mul_left_cancel ds.prod hcop).symm

theorem reduceDividers_gcd (SE : ScalarEvolution) (hSE : ConstantArithmetic SE) (ty : Nat) :
    ∀ (ts ds : List Nat), (∀ t ∈ ts, (t : Int) < 2 ^ (ty - 1)) →
      (∀ d ∈ ds, Nat.Prime d ∧ (d : Int) < 2 ^ (ty - 1)) → ds ≠ [] →
      (ts.foldl Nat.gcd ds.prod = 1 →
        reduceDividers SE (ts.map (fun n : Nat => SCEV.constant ty (n : Int)))
          (ds.map (fun n : Nat => SCEV.constant ty (n : Int))) = none) ∧
      (ts.foldl Nat.gcd ds.prod ≠ 1 →
        ∃ ds1 : List Nat,
          reduceDividers SE (ts.map (fun n : Nat => SCEV.constant ty (n : Int)))
            (ds.map (fun n : Nat => SCEV.constant ty (n : Int))) =
            some (ds1.map (fun n : Nat => SCEV.constant ty (n : Int))) ∧
          ds1 ≠ [] ∧ (∀ d ∈ ds1, Nat.Prime d) ∧ ds1.prod = ts.foldl Nat.gcd ds.prod) := by
  intro ts
  induction ts with
  | nil =>
    intro ds _ hds hne
    have h2 := prod_primes_two_le ds (fun d hd => (hds d hd).1) hne
    constructor
    · intro h1
      simp only [List.foldl_nil] at h1
      omega
    · intro _
      exact ⟨ds, rfl, hne, fun d hd => (hds d hd).1, rfl⟩
  | cons t ts ih =>
    intro ds hts hds hne
    have hts1 : ∀ x ∈ ts, (x : Int) < 2 ^ (ty - 1) :=
      fun x hx => hts x (List.mem_cons_of_mem _ hx)
    obtain ⟨ds1, h1, h2, h3⟩ :=
      stepDividers_gcd SE hSE ty ds t hds (hts t (List.mem_cons_self _ _))
    simp only [List.map_cons, reduceDividers, h1, List.foldl_cons]
    cases ds1 with
    | nil =>
      simp only [List.prod_nil] at h3
      rw [← h3, foldl_gcd_one]
      simp
    | cons a b =>
      simp only [List.map_cons]
      have hds1 : ∀ d ∈ a :: b, Nat.Prime d ∧ (d : Int) < 2 ^ (ty - 1) :=
        fun d hd => hds d (h2.subset hd)
      have := ih (a :: b) hts1 hds1 (List.cons_ne_nil _ _)
      rw [h3] at this
      simpa only [List.map_cons] using this

theorem foldr_gcd_zero : ∀ vs : List Nat, (∀ v ∈ vs, v = 0) → vs.foldr Nat.gcd 0 = 0 := by
  intro vs
  induction vs with
  | nil => intro _; rfl
  | cons a vs ih =>
    intro h
    simp only [List.foldr_cons, ih (fun v hv => h v (List.mem_cons_of_mem _ hv)),
      h a (List.mem_cons_self _ _), Nat.gcd_zero_left]

theorem reduceDividers_one (SE : ScalarEvolution) (hSE : ConstantArithmetic SE) (ty : Nat)
    (hone : (1 : Int) < 2 ^ (ty - 1)) :
    ∀ ts : List Nat, (∀ t ∈ ts, (t : Int) < 2 ^ (ty - 1)) →
      reduceDividers SE (ts.map (fun n : Nat => SCEV.constant ty (n : Int)))
        [SCEV.constant ty 1] = some [SCEV.constant ty 1] := by
  intro ts
  induction ts with
  | nil => intro _; rfl
  | cons t ts ih =>
    intro hts
    have hdiv := hSE.divide ty (t : Int) 1 (by omega) (by norm_num)
      (hts t (List.mem_cons_self _ _)) hone
    simp only [List.map_cons, reduceDividers, stepDividers, hdiv, SCEV.isZero, Int.emod_one,
      beq_self_eq_true, if_true]
    exact ih (fun x hx => hts x (List.mem_cons_of_mem _ hx))

/-- C12: for the 64-bit constant 2^31 the prime table is sieved
up to the constant itself with `int` counters, which cannot reach the bound;
nothing is appended.  The constants 12 and 1 give 3, 2, 2 and 1. -/
theorem countConstantMultipliers_large_fails :
    getLimitedValue 64 (2 ^ 31) = 2 ^ 31 ∧
    countPrimeNumbers (2 ^ 31) = none ∧
    countConstantMultipliers 64 (2 ^ 31) = none ∧
    countConstantMultipliers 64 12 =
      some [SCEV.constant 64 3, SCEV.constant 64 2, SCEV.constant 64 2] ∧
    countConstantMultipliers 64 1 = some [SCEV.constant 64 1] := by
  refine ⟨?_, ?_, ?_, ?_, ?_⟩ <;> rfl

/-- C13: `ConstValue` is unsigned, the branch for a negative
value is never taken and no -1 is pushed.  The 8-bit constant -6 is factored as
250 = 5 * 5 * 5 * 2; the 64-bit constant -6 is read as 2^64 - 6 and nothing is
appended. -/
theorem negative_constant_read_unsigned :
    getLimitedValue 8 (-6) = 250 ∧
    countConstantMultipliers 8 (-6) =
      some [SCEV.constant 8 5, SCEV.constant 8 5, SCEV.constant 8 5, SCEV.constant 8 2] ∧
    getLimitedValue 64 (-6) = 2 ^ 64 - 6 ∧
    countConstantMultipliers 64 (-6) = none := by
  refine ⟨?_, ?_, ?_, ?_⟩ <;> rfl

set_option maxRecDepth 1000000 in
theorem countPrimeNumbers_300 : countPrimeNumbers 300 = some (CachedPrimes ++ [283, 293]) := by
  have hs : Nat.sqrt 300 = 17 := (Nat.eq_sqrt.mpr ⟨by norm_num, by norm_num⟩).symm
  have h : countPrimeNumbers 300 =
      some ([2, 3, 5] ++ (List.range' 6 (300 - 5)).filter (fun i =>
        (sieveSquares 300 (Nat.sqrt 300) (sieveFlips 300 (Nat.sqrt 300)
          (((List.replicate (300 + 1) false).set 2 true).set 3 true))).getD i false
          && i % 3 != 0 && i % 5 != 0)) := rfl
  rw [h, hs]
  decide!

/-- C14: for the bound 2^64 - 1 the flag table is resized to
`Bound + 1`, which wraps to 0, and for a bound of 2^31 or more the `int`
counters cannot reach the bound; nothing is returned.  The bounds 30, 1 and 0
on the cached branch give the primes up to 29 and the empty list, the bound 300
on the sieve branch the primes up to 293. -/
theorem countPrimeNumbers_large_fails :
    countPrimeNumbers (2 ^ 64 - 1) = none ∧
    countPrimeNumbers (2 ^ 31) = none ∧
    countPrimeNumbers 30 = some [2, 3, 5, 7, 11, 13, 17, 19, 23, 29] ∧
    countPrimeNumbers 300 = some (CachedPrimes ++ [283, 293]) ∧
    countPrimeNumbers 1 = some [] ∧ countPrimeNumbers 0 = some [] :=
  ⟨rfl, rfl, rfl, countPrimeNumbers_300, rfl, rfl⟩


/-! ## The assertions of the decomposer -/

open SCEVBionmialSearch in
mutual
theorem visit_isSome (SE : ScalarEvolution) :
    ∀ (E : SCEV) (s : SCEVBionmialSearch), s.L = none →
      ∃ S, visit SE E s = some S ∧ S.L.isSome = reachesAddRec E ∧
        (S.L.isSome = true → S.Coef.isSome = true ∧ S.FreeTerm.isSome = true) ∧
        S.IsSafeCast = (s.IsSafeCast && keepsFlag E)
  | SCEV.constant ty v, s, hs => ⟨_, rfl, by simp [hs, reachesAddRec], by simp [hs],
      by simp [keepsFlag]⟩
  | SCEV.unknown ty v, s, hs => ⟨_, rfl, by simp [hs, reachesAddRec], by simp [hs],
      by simp [keepsFlag]⟩
  | SCEV.udivExpr l r, s, hs => ⟨_, rfl, by simp [hs, reachesAddRec], by simp [hs],
      by simp [keepsFlag]⟩
  | SCEV.umaxExpr ops, s, hs => ⟨_, rfl, by simp [hs, reachesAddRec], by simp [hs],
      by simp [keepsFlag]⟩
  | SCEV.smaxExpr ops, s, hs => ⟨_, rfl, by simp [hs, reachesAddRec], by simp [hs],
      by simp [keepsFlag]⟩
  | SCEV.couldNotCompute, s, hs => ⟨_, rfl, by simp [hs, reachesAddRec], by simp [hs],
      by simp [keepsFlag]⟩
  | SCEV.addRecExpr _ _ _, s, _ => ⟨_, rfl, by simp [reachesAddRec], by simp,
      by simp [keepsFlag]⟩
  | SCEV.truncate op ty, s, hs => by
    obtain ⟨S, h1, h2, h3, h4⟩ := visit_isSome SE op { s with IsSafeCast := false } hs
    refine ⟨recast (fun e => SE.getTruncateExpr e ty) S, by simp [visit, h1], ?_, ?_, ?_⟩
    · simpa [recast, reachesAddRec] using h2
    · intro h
      have := h3 (by simpa [recast] using h)
      simpa [recast] using this
    · simpa [recast, keepsFlag] using h4
  | SCEV.signExtend op ty, s, hs => by
    obtain ⟨S, h1, h2, h3, h4⟩ := visit_isSome SE op { s with IsSafeCast := false } hs
    refine ⟨recast (fun e => SE.getSignExtendExpr e ty) S, by simp [visit, h1], ?_, ?_, ?_⟩
    · simpa [recast, reachesAddRec] using h2
    · intro h
      have := h3 (by simpa [recast] using h)
      simpa [recast] using this
    · simpa [recast, keepsFlag] using h4
  | SCEV.zeroExtend op ty, s, hs => by
    obtain ⟨S, h1, h2, h3, h4⟩ := visit_isSome SE op { s with IsSafeCast := false } hs
    refine ⟨recast (fun e => SE.getZeroExtendExpr e ty) S, by simp [visit, h1], ?_, ?_, ?_⟩
    · simpa [recast, reachesAddRec] using h2
    · intro h
      have := h3 (by simpa [recast] using h)
      simpa [recast] using this
    · simpa [recast, keepsFlag] using h4
  | SCEV.mulExpr ops, s, hs => by
    obtain ⟨S, pre, post, h1, h2, h3, h4⟩ := visitOperands_isSome SE ops s hs
    cases hL : S.L with
    | none =>
      refine ⟨{ S with FreeTerm := some (SCEV.mulExpr ops) },
        by simp [visit, hs, h1, finishMul, hL], ?_, ?_, ?_⟩
      · rw [hL] at h2
        simpa [hL, reachesAddRec] using h2
      · simp [hL]
      · simpa [keepsFlag] using h4
    | some l =>
      obtain ⟨c, hc⟩ := Option.isSome_iff_exists.mp (h3 (by simp [hL])).1
      obtain ⟨f, hf⟩ := Option.isSome_iff_exists.mp (h3 (by simp [hL])).2
      refine ⟨{ S with FreeTerm := some (SE.getMulExpr (pre ++ post ++ [f])),
                       Coef := some (SE.getMulExpr (pre ++ post ++ [c])) },
        by simp [visit, hs, h1, finishMul, hL, hc, hf], ?_, ?_, ?_⟩
      · rw [hL] at h2
        simpa [hL, reachesAddRec] using h2
      · simp
      · simpa [keepsFlag] using h4
  | SCEV.addExpr ops, s, hs => by
    obtain ⟨S, pre, post, h1, h2, h3, h4⟩ := visitOperands_isSome SE ops s hs
    cases hL : S.L with
    | none =>
      refine ⟨{ S with FreeTerm := some (SCEV.addExpr ops) },
        by simp [visit, hs, h1, finishAdd, hL], ?_, ?_, ?_⟩
      · rw [hL] at h2
        simpa [hL, reachesAddRec] using h2
      · simp [hL]
      · simpa [keepsFlag] using h4
    | some l =>
      obtain ⟨c, hc⟩ := Option.isSome_iff_exists.mp (h3 (by simp [hL])).1
      obtain ⟨f, hf⟩ := Option.isSome_iff_exists.mp (h3 (by simp [hL])).2
      refine ⟨{ S with FreeTerm := some (SE.getAddExpr (pre ++ post ++ [f])) },
        by simp [visit, hs, h1, finishAdd, hL, hf], ?_, ?_, ?_⟩
      · rw [hL] at h2
        simpa [hL, reachesAddRec] using h2
      · simp [hc]
      · simpa [keepsFlag] using h4
theorem visitOperands_isSome (SE : ScalarEvolution) :
    ∀ (ops : List SCEV) (s : SCEVBionmialSearch), s.L = none →
      ∃ S pre post, visitOperands SE ops s = some (S, pre, post) ∧
        S.L.isSome = anyReachesAddRec ops ∧
        (S.L.isSome = true → S.Coef.isSome = true ∧ S.FreeTerm.isSome = true) ∧
        S.IsSafeCast = (s.IsSafeCast && keepsFlagOperands ops)
  | [], s, hs => ⟨s, [], [], rfl, by simp [hs, anyReachesAddRec], by simp [hs],
      by simp [keepsFlagOperands]⟩
  | op :: rest, s, hs => by
    obtain ⟨S1, h1, h2, h3, h4⟩ := visit_isSome SE op s hs
    cases hL : S1.L with
    | some l =>
      have hr : reachesAddRec op = true := by rw [← h2, hL]; rfl
      refine ⟨S1, [], rest, by simp [visitOperands, h1, hL], ?_, h3, ?_⟩
      · simp [hL, anyReachesAddRec, hr]
      · simp [h4, keepsFlagOperands, hr]
    | none =>
      have hr : reachesAddRec op = false := by rw [← h2, hL]; rfl
      obtain ⟨S2, pre, post, g1, g2, g3, g4⟩ := visitOperands_isSome SE rest S1 hL
      refine ⟨S2, op :: pre, post, by simp [visitOperands, h1, hL, g1], ?_, g3, ?_⟩
      · simp [g2, anyReachesAddRec, hr]
      · simp [g4, h4, keepsFlagOperands, hr, Bool.and_assoc]
end

/-- C29: for every expression the walk of the decomposer from its initial state
returns: no entry into `visitAddExpr` or `visitMulExpr` finds a loop already
recorded, and a recorded loop comes with a coefficient and a free term, so
`computeSCEVAddRec` returns too. -/
theorem decomposer_assertions_hold (SE : ScalarEvolution) (E : SCEV) :
    (∃ S, SCEVBionmialSearch.visit SE E {} = some S ∧
      (S.L.isSome = true → S.Coef.isSome = true ∧ S.FreeTerm.isSome = true)) ∧
    ∃ r, computeSCEVAddRec SE E = some r := by
  obtain ⟨S, h1, h2, h3, h4⟩ := visit_isSome SE E {} rfl
  refine ⟨⟨S, h1, h3⟩, ?_⟩
  unfold computeSCEVAddRec
  rw [h1]
  cases hL : S.L with
  | none => exact ⟨(E, true), by simp [hL]⟩
  | some l =>
    obtain ⟨c, hc⟩ := Option.isSome_iff_exists.mp (h3 (by simp [hL])).1
    obtain ⟨f, hf⟩ := Option.isSome_iff_exists.mp (h3 (by simp [hL])).2
    exact ⟨(SE.getAddRecExpr f c l, S.IsSafeCast), by simp [hL, hc, hf]⟩

/-! ## The safety flag and the order of operands -/

theorem computeSCEVAddRec_flag (SE : ScalarEvolution) (E : SCEV) :
    (computeSCEVAddRec SE E).map Prod.snd = some (!reachesAddRec E || keepsFlag E) := by
  obtain ⟨S, h1, h2, h3, h4⟩ := visit_isSome SE E {} rfl
  unfold computeSCEVAddRec
  rw [h1]
  cases hL : S.L with
  | none =>
    have hr : reachesAddRec E = false := by rw [← h2, hL]; rfl
    simp [hL, hr]
  | some l =>
    have hr : reachesAddRec E = true := by rw [← h2, hL]; rfl
    obtain ⟨c, hc⟩ := Option.isSome_iff_exists.mp (h3 (by simp [hL])).1
    obtain ⟨f, hf⟩ := Option.isSome_iff_exists.mp (h3 (by simp [hL])).2
    simp [hL, hc, hf, hr, h4]

theorem anyReachesAddRec_append (pre post : List SCEV) (X : SCEV)
    (hX : reachesAddRec X = true) : anyReachesAddRec (pre ++ X :: post) = true := by
  induction pre with
  | nil => simp [anyReachesAddRec, hX]
  | cons p pre ih => simp [anyReachesAddRec, ih]

theorem keepsFlagOperands_append (pre post : List SCEV) (X : SCEV)
    (hpre : ∀ p ∈ pre, reachesAddRec p = false) (hX : reachesAddRec X = true) :
    keepsFlagOperands (pre ++ X :: post) = (pre.all keepsFlag && keepsFlag X) := by
  induction pre with
  | nil => simp [keepsFlagOperands, hX]
  | cons p pre ih =>
    have hp := hpre p (List.mem_cons_self _ _)
    simp [keepsFlagOperands, hp, ih (fun q hq => hpre q (List.mem_cons_of_mem _ hq)),
      Bool.and_assoc]

/-- C30 (as stated) fails: in the sum trunc(x) + {1,+,4}<7> the cast stands in
the loop-free operand, not around the induction expression, and the flag is
false; with the two operands exchanged the cast is never visited and the flag
is true. -/
theorem flag_depends_on_operand_order :
    (computeSCEVAddRec exactSE (SCEV.addExpr [SCEV.truncate (SCEV.unknown 64 0) 32,
        SCEV.addRecExpr (SCEV.constant 32 1) (SCEV.constant 32 4) 7])).map Prod.snd =
      some false ∧
    (computeSCEVAddRec exactSE (SCEV.addExpr
        [SCEV.addRecExpr (SCEV.constant 32 1) (SCEV.constant 32 4) 7,
         SCEV.truncate (SCEV.unknown 64 0) 32])).map Prod.snd = some true := by
  constructor <;> rfl

/-- C30 (amended): for a sum or a product whose operands are `pre`, then an
operand `X` in which an induction expression is reached, then `post`, no operand
of `pre` reaching one: the flag returned by `computeSCEVAddRec` is true exactly
when no cast is entered in an operand of `pre` and none encloses the induction
expression reached in `X`; the operands `post` have no influence. -/
theorem safety_flag_formula (SE : ScalarEvolution) (pre post : List SCEV) (X : SCEV)
    (hpre : ∀ p ∈ pre, reachesAddRec p = false) (hX : reachesAddRec X = true) :
    (computeSCEVAddRec SE (SCEV.addExpr (pre ++ X :: post))).map Prod.snd =
      some (pre.all keepsFlag && keepsFlag X) ∧
    (computeSCEVAddRec SE (SCEV.mulExpr (pre ++ X :: post))).map Prod.snd =
      some (pre.all keepsFlag && keepsFlag X) := by
  constructor
  · rw [computeSCEVAddRec_flag]
    simp [reachesAddRec, keepsFlag, anyReachesAddRec_append pre post X hX,
      keepsFlagOperands_append pre post X hpre hX]
  · rw [computeSCEVAddRec_flag]
    simp [reachesAddRec, keepsFlag, anyReachesAddRec_append pre post X hX,
      keepsFlagOperands_append pre post X hpre hX]

/-- C30 (amended) at trunc(x) before {1,+,4}<7> with y behind: the flag is
false. -/
theorem safety_flag_formula_witness :
    (computeSCEVAddRec exactSE (SCEV.addExpr ([SCEV.truncate (SCEV.unknown 64 0) 32] ++
        SCEV.addRecExpr (SCEV.constant 32 1) (SCEV.constant 32 4) 7 ::
          [SCEV.unknown 32 1]))).map Prod.snd =
      some ([SCEV.truncate (SCEV.unknown 64 0) 32].all keepsFlag &&
        keepsFlag (SCEV.addRecExpr (SCEV.constant 32 1) (SCEV.constant 32 4) 7)) ∧
    (computeSCEVAddRec exactSE (SCEV.mulExpr ([SCEV.truncate (SCEV.unknown 64 0) 32] ++
        SCEV.addRecExpr (SCEV.constant 32 1) (SCEV.constant 32 4) 7 ::
          [SCEV.unknown 32 1]))).map Prod.snd =
      some ([SCEV.truncate (SCEV.unknown 64 0) 32].all keepsFlag &&
        keepsFlag (SCEV.addRecExpr (SCEV.constant 32 1) (SCEV.constant 32 4) 7)) :=
  safety_flag_formula exactSE [SCEV.truncate (SCEV.unknown 64 0) 32] [SCEV.unknown 32 1]
    (SCEV.addRecExpr (SCEV.constant 32 1) (SCEV.constant 32 4) 7)
    (by
      intro p hp
      simp only [List.mem_singleton] at hp
      rw [hp]
      rfl)
    rfl


/-! ## Raw subscript extraction -/

/-- C28 (as stated) fails: a step whose single index is the constant 0
contributes that zero, and the step with the indices %1, 0, %3 contributes all
three of them, its first index and the zero included. -/
theorem zero_index_collected :
    extractSubscriptsFromGEPs [{ id := 1, Indices := [Value.constantInt 64 0] }] =
      some [Value.constantInt 64 0] ∧
    extractSubscriptsFromGEPs
        [{ id := 1, Indices := [Value.other 1, Value.constantInt 64 0, Value.other 3] }] =
      some [Value.other 1, Value.constantInt 64 0, Value.other 3] ∧
    extractSubscriptsFromGEPs
        [{ id := 1, Indices := [Value.constantInt 64 0, Value.constantInt 64 0, Value.other 3] }] =
      some [Value.constantInt 64 0, Value.other 3] := by
  refine ⟨?_, ?_, ?_⟩ <;> rfl

theorem extractSubscriptsFromGEP_eq (G : GEP) (h : G.Indices ≠ []) :
    extractSubscriptsFromGEP G =
      some (if 2 ≤ G.Indices.length ∧ G.Indices.head?.map Value.isZeroConstant = some true
            then G.Indices.drop 1 else G.Indices) := by
  unfold extractSubscriptsFromGEP
  cases hI : G.Indices with
  | nil => exact absurd hI h
  | cons i rest =>
    cases rest with
    | nil => simp
    | cons j rest =>
      by_cases hz : i.isZeroConstant = true
      · simp [hz]
      · simp [hz]

/-- C28 (amended): for a chain in which every step has an index operand,
`extractSubscriptsFromGEPs` returns, in chain order and operand order, all index
operands of every step, zero or not, except the first index operand of a step
with two or more index operands when that operand is a zero constant. -/
theorem extraction_formula (gs : List GEP) (h : ∀ G ∈ gs, G.Indices ≠ []) :
    extractSubscriptsFromGEPs gs =
      some (gs.foldr (fun G acc =>
        (if 2 ≤ G.Indices.length ∧ G.Indices.head?.map Value.isZeroConstant = some true
         then G.Indices.drop 1 else G.Indices) ++ acc) []) := by
  induction gs with
  | nil => rfl
  | cons G gs ih =>
    have h1 := extractSubscriptsFromGEP_eq G (h G (List.mem_cons_self _ _))
    have h2 := ih (fun X hX => h X (List.mem_cons_of_mem _ hX))
    simp only [extractSubscriptsFromGEPs, h1, h2, List.foldr_cons]

/-- C28 (amended) at the chain of the steps with the indices 0, then 0, %2, 0,
then %4, 0: the result is 0, %2, 0, %4, 0. -/
theorem extraction_formula_witness :
    extractSubscriptsFromGEPs
        [{ id := 1, Indices := [Value.constantInt 64 0] },
         { id := 2, Indices := [Value.constantInt 64 0, Value.other 2, Value.constantInt 64 0] },
         { id := 3, Indices := [Value.other 4, Value.constantInt 64 0] }] =
      some (([{ id := 1, Indices := [Value.constantInt 64 0] },
         { id := 2, Indices := [Value.constantInt 64 0, Value.other 2, Value.constantInt 64 0] },
         { id := 3, Indices := [Value.other 4, Value.constantInt 64 0] }] : List GEP).foldr
        (fun G acc =>
          (if 2 ≤ G.Indices.length ∧ G.Indices.head?.map Value.isZeroConstant = some true
           then G.Indices.drop 1 else G.Indices) ++ acc) []) :=
  extraction_formula _ (by
    intro G hG
    simp only [List.mem_cons, List.mem_singleton, List.not_mem_nil, or_false] at hG
    rcases hG with rfl | rfl | rfl <;> simp)

/-! ## Which subscripts the normalizer divides -/

theorem findLastConstDim_inv (A : Array) :
    ∀ (k m : Nat), findLastConstDim A k = some m →
      m ≤ k ∧ (∀ i, m ≤ i → i < k → ∃ e, A.getDimSize i = some e ∧ e.isConstant = true) ∧
      (m = 0 ∨ ∃ e, A.getDimSize (m - 1) = some e ∧ e.isConstant = false) := by
  intro k
  induction k with
  | zero =>
    intro m h
    simp [findLastConstDim] at h
    subst h
    exact ⟨le_refl _, fun i _ hi => by omega, Or.inl rfl⟩
  | succ k ih =>
    intro m h
    simp only [findLastConstDim] at h
    cases hg : A.getDimSize k with
    | none => simp [hg] at h
    | some e =>
      simp only [hg] at h
      by_cases hc : e.isConstant = true
      · simp only [hc, if_true] at h
        obtain ⟨h1, h2, h3⟩ := ih m h
        refine ⟨by omega, ?_, h3⟩
        intro i hi1 hi2
        by_cases hik : i = k
        · subst hik; exact ⟨e, hg, hc⟩
        · exact h2 i hi1 (by omega)
      · simp only [hc, if_false] at h
        injection h with h
        subst h
        refine ⟨le_refl _, fun i h1 h2 => by omega, Or.inr ⟨e, by simpa using hg, ?_⟩⟩
        simpa using hc

/-- C23 (as stated) fails: dimension 1 of `symbolicArrayFilled` has the symbolic
size `n`, and `cleanSubscripts` divides the subscripts n * y and n * z by it,
leaving y and z; dimension 1 of `constantSizeArray` has the constant size 10,
and the subscript 20 is left as it is. -/
theorem symbolic_size_divides :
    fillArrayDimensionsSizes refSE 64 [] symbolicArray = some ([-1, -1], symbolicArrayFilled) ∧
    (symbolicArrayFilled.getDimSize 1).map SCEV.isConstant = some false ∧
    (cleanSubscripts refSE 64 symbolicArrayFilled).map
        (fun A => A.Elements.map (fun e => e.Subscripts)) =
      some [[SCEV.unknown 64 3, SCEV.unknown 64 4], [SCEV.unknown 64 5, SCEV.unknown 64 6]] ∧
    (constantSizeArray.getDimSize 1).map SCEV.isConstant = some true ∧
    cleanSubscripts refSE 64 constantSizeArray = some constantSizeArray := by
  refine ⟨?_, ?_, ?_, ?_, ?_⟩ <;> rfl

theorem prevDimSizesProduct_elements (SE : ScalarEvolution) (ty : Nat) (A : Array)
    (els : List Element) :
    ∀ (d : Nat) (Prev : SCEV) (k : Nat),
      prevDimSizesProduct SE ty { A with Elements := els } d Prev k =
        prevDimSizesProduct SE ty A d Prev k := by
  intro d
  induction d with
  | zero => intro Prev k; rfl
  | succ d ih =>
    intro Prev k
    simp only [prevDimSizesProduct, Array.getDimSize]
    split
    · rfl
    · split
      · rfl
      · exact ih _ _

theorem cleanElements_exact (SE : ScalarEvolution) (k : Nat) (Prev : SCEV) :
    ∀ (els els1 : List Element),
      (∀ x ∈ els, ∀ s, x.Subscripts[k - 1]? = some s → (SE.divide s Prev).2.isZero = true) →
      cleanElements SE k Prev els = some els1 →
      els1.length = els.length ∧
      ∀ (p : Nat) (x : Element), els[p]? = some x →
        ∃ s, x.Subscripts[k - 1]? = some s ∧
          els1[p]? = some { x with Subscripts := x.Subscripts.set (k - 1) (SE.divide s Prev).1 } := by
  intro els
  induction els with
  | nil =>
    intro els1 _ h
    simp [cleanElements] at h
    subst h
    exact ⟨rfl, fun p x hp => by simp at hp⟩
  | cons e rest ih =>
    intro els1 hex h
    simp only [cleanElements] at h
    cases hs : e.Subscripts[k - 1]? with
    | none => simp [hs] at h
    | some s =>
      have hz := hex e (List.mem_cons_self _ _) s hs
      simp only [hs, hz, Bool.not_true, Bool.false_eq_true, if_false] at h
      cases hr : cleanElements SE k Prev rest with
      | none => simp [hr] at h
      | some rest1 =>
        simp only [hr] at h
        injection h with h
        subst h
        obtain ⟨h1, h2⟩ := ih rest1 (fun x hx => hex x (List.mem_cons_of_mem _ hx)) hr
        refine ⟨by simp [h1], ?_⟩
        intro p x hp
        cases p with
        | zero =>
          simp only [List.getElem?_cons_zero, Option.some.injEq] at hp
          subst hp
          exact ⟨s, hs, by simp⟩
        | succ p =>
          simp only [List.getElem?_cons_succ] at hp
          obtain ⟨s1, g1, g2⟩ := h2 p x hp
          exact ⟨s1, g1, by simpa using g2⟩

theorem cleanLoop_exact (SE : ScalarEvolution) (ty : Nat) :
    ∀ (d : Nat) (Prev : SCEV) (A A1 : Array),
      cleanLoop SE ty d Prev A = some A1 →
      (∀ k P, 1 ≤ k → k ≤ d → prevDimSizesProduct SE ty A d Prev k = some P →
        ∀ x ∈ A.Elements, ∀ s, x.Subscripts[k - 1]? = some s →
          (SE.divide s P).2.isZero = true) →
      ∀ (p : Nat) (x : Element), A.Elements[p]? = some x →
        ∃ x1 : Element, A1.Elements[p]? = some x1 ∧ x1.IsValid = x.IsValid ∧
          (∀ j, d ≤ j → x1.Subscripts[j]? = x.Subscripts[j]?) ∧
          ∀ k, 1 ≤ k → k ≤ d → ∃ P s, prevDimSizesProduct SE ty A d Prev k = some P ∧
            x.Subscripts[k - 1]? = some s ∧
            x1.Subscripts[k - 1]? = some (SE.divide s P).1 := by
  intro d
  induction d with
  | zero =>
    intro Prev A A1 h _ p x hp
    simp [cleanLoop] at h
    subst h
    exact ⟨x, hp, rfl, fun _ _ => rfl, fun k h1 h2 => by omega⟩
  | succ d ih =>
    intro Prev A A1 h hex p x hp
    simp only [cleanLoop] at h
    split at h
    · simp at h
    · cases hsz : A.getDimSize (d + 1) with
      | none => simp [hsz] at h
      | some sz =>
        simp only [hsz] at h
        have hprod : prevDimSizesProduct SE ty A (d + 1) Prev (d + 1) =
            some (SE.getMulExpr [Prev, SE.getTruncateOrZeroExtend sz ty]) := by
          simp [prevDimSizesProduct, hsz]
        have hprodlt : ∀ k, k ≤ d → prevDimSizesProduct SE ty A (d + 1) Prev k =
            prevDimSizesProduct SE ty A d
              (SE.getMulExpr [Prev, SE.getTruncateOrZeroExtend sz ty]) k := by
          intro k hk
          have hne : k ≠ d + 1 := by omega
          simp [prevDimSizesProduct, hsz, hne]
        cases hels : cleanElements SE (d + 1)
            (SE.getMulExpr [Prev, SE.getTruncateOrZeroExtend sz ty]) A.Elements with
        | none => simp [hels] at h
        | some els =>
          simp only [hels] at h
          obtain ⟨hlen, hmap⟩ := cleanElements_exact SE (d + 1) _ A.Elements els
            (hex (d + 1) _ (by omega) (le_refl _) hprod) hels
          obtain ⟨s, hs, hx'⟩ := hmap p x hp
          simp only [Nat.add_sub_cancel] at hs hx'
          have hex' : ∀ k P, 1 ≤ k → k ≤ d →
              prevDimSizesProduct SE ty { A with Elements := els } d
                (SE.getMulExpr [Prev, SE.getTruncateOrZeroExtend sz ty]) k = some P →
              ∀ y ∈ ({ A with Elements := els } : Array).Elements, ∀ t,
                y.Subscripts[k - 1]? = some t → (SE.divide t P).2.isZero = true := by
            intro k P hk1 hkd hP y hy t ht
            rw [prevDimSizesProduct_elements, ← hprodlt k hkd] at hP
            obtain ⟨q, hq⟩ := List.mem_iff_getElem?.mp hy
            have hq' : els[q]? = some y := hq
            have hqlt : q < A.Elements.length := by
              have := (List.getElem?_eq_some.mp hq').1
              omega
            obtain ⟨s2, g1, g2⟩ := hmap q (A.Elements[q]) (List.getElem?_eq_getElem hqlt)
            rw [hq'] at g2
            injection g2 with g2
            subst g2
            have hne : d + 1 - 1 ≠ k - 1 := by omega
            simp only [List.getElem?_set_ne hne] at ht
            exact hex k P hk1 (by omega) hP _ (List.getElem_mem _) t ht
          obtain ⟨x1, f1, f2, f3, f4⟩ := ih _ _ _ h hex' p _ hx'
          refine ⟨x1, f1, f2, ?_, ?_⟩
          · intro j hj
            rw [f3 j (by omega)]
            have hne : d ≠ j := by omega
            simp [List.getElem?_set_ne hne]
          · intro k hk1 hkd
            by_cases hkeq : k = d + 1
            · subst hkeq
              refine ⟨_, s, hprod, by simpa using hs, ?_⟩
              simp only [Nat.add_sub_cancel]
              rw [f3 d (le_refl _)]
              have hlt : d < x.Subscripts.length := (List.getElem?_eq_some.mp hs).1
              simp [hlt]
            · obtain ⟨P, t, g1, g2, g3⟩ := f4 k hk1 (by omega)
              rw [prevDimSizesProduct_elements, ← hprodlt k (by omega)] at g1
              have hne : d ≠ k - 1 := by omega
              simp only [List.getElem?_set_ne hne] at g2
              exact ⟨P, t, g1, g2, g3⟩

/-- C23 (amended): let `L - 1` be the last dimension of a delinearized array
whose size is not a constant (`L` = 0 when all sizes are constants), and let
`cleanSubscripts` return.  The sizes of the dimensions from `L` on are
constants, and the subscripts at the indices from `L - 1` on, which those sizes
would divide, are left as they were; for `L` ≤ 1 nothing changes at all.  For
`L` ≥ 2 the division starts with the symbolic size: the running product at the
level `L - 1` is 1 times the size of dimension `L - 1`, and the subscript
`L - 2` of the first element, when that product divides it exactly, is replaced
by the quotient.  When every division of the run is exact, every element keeps
its valid flag and, at every level `k` from `L - 1` down to 1, its subscript
`k - 1` is replaced by the quotient of its division by the running product of
the sizes of the dimensions `L - 1`, ..., `k`. -/
theorem normalizer_starts_at_symbolic_size (SE : ScalarEvolution) (ty L : Nat) (A A1 : Array)
    (hL : findLastConstDim A A.getNumberOfDims = some L)
    (hclean : cleanSubscripts SE ty A = some A1) :
    (∀ i, L ≤ i → i < A.getNumberOfDims →
      ∃ e, A.getDimSize i = some e ∧ e.isConstant = true) ∧
    (L = 0 ∨ ∃ e, A.getDimSize (L - 1) = some e ∧ e.isConstant = false) ∧
    (L ≤ 1 → A1 = A) ∧
    (∀ (p : Nat) (x : Element), A.Elements[p]? = some x →
      ∃ x1 : Element, A1.Elements[p]? = some x1 ∧
        ∀ j, L - 1 ≤ j → x1.Subscripts[j]? = x.Subscripts[j]?) ∧
    (∀ sz : SCEV, 2 ≤ L → A.getDimSize (L - 1) = some sz →
      prevDimSizesProduct SE ty A (L - 1) (getConstant ty 1) (L - 1) =
        some (SE.getMulExpr [getConstant ty 1, SE.getTruncateOrZeroExtend sz ty])) ∧
    (∀ (x : Element) (sz s : SCEV), 2 ≤ L → A.Elements[0]? = some x →
      A.getDimSize (L - 1) = some sz → x.Subscripts[L - 2]? = some s →
      (SE.divide s (SE.getMulExpr [getConstant ty 1,
        SE.getTruncateOrZeroExtend sz ty])).2.isZero = true →
      ∃ x1 : Element, A1.Elements[0]? = some x1 ∧
        x1.Subscripts[L - 2]? = some (SE.divide s (SE.getMulExpr [getConstant ty 1,
          SE.getTruncateOrZeroExtend sz ty])).1) ∧
    ((∀ k P, 1 ≤ k → k < L →
        prevDimSizesProduct SE ty A (L - 1) (getConstant ty 1) k = some P →
        ∀ x ∈ A.Elements, ∀ s, x.Subscripts[k - 1]? = some s →
          (SE.divide s P).2.isZero = true) →
      ∀ (p : Nat) (x : Element), A.Elements[p]? = some x →
        ∃ x1 : Element, A1.Elements[p]? = some x1 ∧ x1.IsValid = x.IsValid ∧
          ∀ k, 1 ≤ k → k < L →
            ∃ P s, prevDimSizesProduct SE ty A (L - 1) (getConstant ty 1) k = some P ∧
              x.Subscripts[k - 1]? = some s ∧
              x1.Subscripts[k - 1]? = some (SE.divide s P).1) := by
  obtain ⟨h1, h2, h3⟩ := findLastConstDim_inv A _ _ hL
  unfold cleanSubscripts at hclean
  by_cases hdel : A.Delinearized = true
  · simp only [hdel, Bool.not_true, Bool.false_eq_true, if_false, hL] at hclean
    refine ⟨h2, h3, ?_, ?_, ?_, ?_, ?_⟩
    · intro hle
      by_cases h0 : L = 0
      · simp only [h0, if_true] at hclean
        injection hclean with hclean
        exact hclean.symm
      · have hL1 : L = 1 := by omega
        subst hL1
        simp [cleanLoop] at hclean
        exact hclean.symm
    · intro p x hp
      by_cases h0 : L = 0
      · simp only [h0, if_true] at hclean
        injection hclean with hclean
        subst hclean
        exact ⟨x, hp, fun _ _ => rfl⟩
      · simp only [h0, if_false] at hclean
        obtain ⟨x1, g1, _, g3⟩ := cleanLoop_frame SE ty _ _ _ _ hclean p x hp
        exact ⟨x1, g1, g3⟩
    · intro sz hL2 hsz
      obtain ⟨d, hd⟩ : ∃ d, L = d + 2 := ⟨L - 2, by omega⟩
      subst hd
      simp only [show d + 2 - 1 = d + 1 by omega] at hsz ⊢
      simp [prevDimSizesProduct, hsz]
    · intro x sz s hL2 hx hsz hs hrem
      have h0 : L ≠ 0 := by omega
      simp only [h0, if_false] at hclean
      obtain ⟨d, hd⟩ : ∃ d, L = d + 2 := ⟨L - 2, by omega⟩
      subst hd
      simp only [Nat.add_sub_cancel, show d + 2 - 1 = d + 1 by omega] at hclean hsz hs
      simp only [cleanLoop, hsz] at hclean
      split at hclean
      · simp at hclean
      · cases hE : A.Elements with
        | nil => rw [hE] at hx; simp at hx
        | cons e rest =>
          rw [hE] at hx
          simp only [List.getElem?_cons_zero, Option.some.injEq] at hx
          subst hx
          rw [hE] at hclean
          simp only [cleanElements, Nat.add_sub_cancel, hs, hrem, Bool.not_true,
            Bool.false_eq_true, if_false] at hclean
          split at hclean
          · rename_i els hels
            split at hels
            · rename_i rest1 hrest1
              injection hels with hels
              subst hels
              obtain ⟨x1, g1, _, g3⟩ := cleanLoop_frame SE ty _ _ _ _ hclean 0
                { e with Subscripts := (e.Subscripts.set d
                    (SE.divide s (SE.getMulExpr [getConstant ty 1,
                      SE.getTruncateOrZeroExtend sz ty])).1) } (by simp)
              refine ⟨x1, g1, ?_⟩
              rw [show d + 2 - 2 = d by omega, g3 d (le_refl _)]
              have hlen : d < e.Subscripts.length := (List.getElem?_eq_some.mp hs).1
              simp [hlen]
            · simp at hels
          · simp at hclean
    · intro hex p x hp
      by_cases h0 : L = 0
      · simp only [h0, if_true] at hclean
        injection hclean with hclean
        subst hclean
        exact ⟨x, hp, rfl, fun k hk1 hk2 => by omega⟩
      · simp only [h0, if_false] at hclean
        obtain ⟨x1, g1, g2, _, g4⟩ := cleanLoop_exact SE ty _ _ _ _ hclean
          (fun k P hk1 hk2 hP => hex k P hk1 (by omega) hP) p x hp
        exact ⟨x1, g1, g2, fun k hk1 hk2 => g4 k hk1 (by omega)⟩
  · simp [hdel] at hclean

/-- C23 (amended) at `threeLevelArrayFilled`, whose sizes `m` and `n` are both
symbolic (`L` = 3): every division is exact, the subscripts n * b and n * e are
divided by the running product `n` of level 2, the subscripts n * m * a and
n * m * d by the running product `n * m` of level 1, and every element keeps its
valid flag. -/
theorem normalizer_starts_at_symbolic_size_witness :
    findLastConstDim threeLevelArrayFilled threeLevelArrayFilled.getNumberOfDims = some 3 ∧
    prevDimSizesProduct refSE 64 threeLevelArrayFilled 2 (getConstant 64 1) 2 =
      some (SCEV.unknown 64 100) ∧
    prevDimSizesProduct refSE 64 threeLevelArrayFilled 2 (getConstant 64 1) 1 =
      some (SCEV.mulExpr [SCEV.unknown 64 100, SCEV.unknown 64 101]) ∧
    cleanSubscripts refSE 64 threeLevelArrayFilled =
      some { threeLevelArrayFilled with
        Elements := [access 1 [SCEV.unknown 64 1, SCEV.unknown 64 2, SCEV.unknown 64 3],
                     access 2 [SCEV.unknown 64 4, SCEV.unknown 64 5, SCEV.unknown 64 6]] } ∧
    ∀ (p : Nat) (x : Element), threeLevelArrayFilled.Elements[p]? = some x →
      ∃ x1 : Element, ({ threeLevelArrayFilled with
          Elements := [access 1 [SCEV.unknown 64 1, SCEV.unknown 64 2, SCEV.unknown 64 3],
                       access 2 [SCEV.unknown 64 4, SCEV.unknown 64 5, SCEV.unknown 64 6]] } :
            Array).Elements[p]? = some x1 ∧ x1.IsValid = x.IsValid ∧
        ∀ k, 1 ≤ k → k < 3 →
          ∃ P s, prevDimSizesProduct refSE 64 threeLevelArrayFilled (3 - 1)
              (getConstant 64 1) k = some P ∧
            x.Subscripts[k - 1]? = some s ∧
            x1.Subscripts[k - 1]? = some (refSE.divide s P).1 := by
  refine ⟨rfl, rfl, rfl, rfl, ?_⟩
  refine (normalizer_starts_at_symbolic_size refSE 64 3 threeLevelArrayFilled
    { threeLevelArrayFilled with
      Elements := [access 1 [SCEV.unknown 64 1, SCEV.unknown 64 2, SCEV.unknown 64 3],
                   access 2 [SCEV.unknown 64 4, SCEV.unknown 64 5, SCEV.unknown 64 6]] }
    rfl rfl).2.2.2.2.2.2 ?_
  intro k P hk1 hk3 hP x hx s hs
  have hk : k = 1 ∨ k = 2 := by omega
  have e2 : prevDimSizesProduct refSE 64 threeLevelArrayFilled (3 - 1) (getConstant 64 1) 2 =
      some (SCEV.unknown 64 100) := rfl
  have e1 : prevDimSizesProduct refSE 64 threeLevelArrayFilled (3 - 1) (getConstant 64 1) 1 =
      some (SCEV.mulExpr [SCEV.unknown 64 100, SCEV.unknown 64 101]) := rfl
  simp only [threeLevelArrayFilled, threeLevelArray, List.mem_cons, List.mem_singleton,
    List.not_mem_nil, or_false] at hx
  rcases hk with rfl | rfl
  · rw [e1] at hP
    injection hP with hP
    subst hP
    rcases hx with rfl | rfl
    · simp only [access, Nat.sub_self, List.getElem?_cons_zero, Option.some.injEq] at hs
      subst hs
      rfl
    · simp only [access, Nat.sub_self, List.getElem?_cons_zero, Option.some.injEq] at hs
      subst hs
      rfl
  · rw [e2] at hP
    injection hP with hP
    subst hP
    rcases hx with rfl | rfl
    · simp only [access, show 2 - 1 = 1 by rfl, List.getElem?_cons_succ,
        List.getElem?_cons_zero, Option.some.injEq] at hs
      subst hs
      rfl
    · simp only [access, show 2 - 1 = 1 by rfl, List.getElem?_cons_succ,
        List.getElem?_cons_zero, Option.some.injEq] at hs
      subst hs
      rfl

/-! ## Fatal paths -/

/-- C21: three array states that the collector produces and on which an
assertion fails or a list is read outside its bounds.  An object hinted with two
dimensions and touched only by a call has no element access, so the list handed
to `findGCD` is empty.  A load with three indices of an object hinted with two
dimensions fails the assertion on the subscript count.  An object without a hint
that is loaded with two subscripts and passed whole to a call is delinearized,
and `cleanSubscripts` then reads subscript 0 of the range of the call, which has
no subscript. -/
theorem fatal_paths_reachable :
    collectArrays refSE 64 (fun _ => [-1, -1]) callOnlyAccesses =
      some { DimsCache := [(0, [-1, -1])],
             Arrays := [{ Base := 0, Dims := [none, none], Elements := [callRange],
                          RangeRef := true }] } ∧
    gatherExpressions 2 1 [callRange] = some [] ∧
    findGCD refSE [] = none ∧
    fillArrayDimensionsSizes refSE 64 [-1, -1]
      { Base := 0, Dims := [none, none], Elements := [callRange], RangeRef := true } = none ∧
    collectArrays refSE 64 (fun _ => [-1, -1]) longStepAccesses =
      some { DimsCache := [(0, [-1, -1])],
             Arrays := [{ Base := 0, Dims := [none, none], RangeRef := true,
                          Elements := [access 1 [SCEV.unknown 64 1, SCEV.unknown 64 2,
                                                 SCEV.unknown 64 3]] }] } ∧
    fillArrayDimensionsSizes refSE 64 [-1, -1]
      { Base := 0, Dims := [none, none], RangeRef := true,
        Elements := [access 1 [SCEV.unknown 64 1, SCEV.unknown 64 2, SCEV.unknown 64 3]] } =
      none ∧
    collectArrays refSE 64 (fun _ => []) wholeArrayCallAccesses =
      some { DimsCache := [(0, [])], Arrays := [wholeArrayCall] } ∧
    fillArrayDimensionsSizes refSE 64 [] wholeArrayCall =
      some ([-1, -1], { wholeArrayCall with
        Dims := [some SCEV.couldNotCompute, some (SCEV.unknown 64 7)],
        Delinearized := true }) ∧
    cleanSubscripts refSE 64 { wholeArrayCall with
        Dims := [some SCEV.couldNotCompute, some (SCEV.unknown 64 7)],
        Delinearized := true } = none := by
  refine ⟨?_, ?_, ?_, ?_, ?_, ?_, ?_, ?_, ?_⟩ <;> rfl


/-! ## Subscript counts of the collected elements -/

theorem addToArrays_counts (BasePtr N : Nat) (El : Element) (ref : Bool)
    (hEl : El.IsElement = true → N ≤ El.Subscripts.length ∧
      (El.IsValid = false → El.Subscripts.length = N ∧ 0 < N)) :
    ∀ (As As1 : List Array),
      (∀ A ∈ As, ∀ e ∈ A.Elements, e.IsElement = true →
        A.getNumberOfDims ≤ e.Subscripts.length ∧
          (e.IsValid = false → e.Subscripts.length = A.getNumberOfDims ∧
            0 < A.getNumberOfDims)) →
      addToArrays BasePtr N El ref As = some As1 →
      ∀ A ∈ As1, ∀ e ∈ A.Elements, e.IsElement = true →
        A.getNumberOfDims ≤ e.Subscripts.length ∧
          (e.IsValid = false → e.Subscripts.length = A.getNumberOfDims ∧
            0 < A.getNumberOfDims) := by
  intro As
  induction As with
  | nil =>
    intro As1 _ h
    simp [addToArrays] at h
    subst h
    intro A hA e he hel
    simp only [List.mem_singleton] at hA
    subst hA
    simp only [List.mem_singleton] at he
    subst he
    simpa [Array.getNumberOfDims, Array.setNumberOfDims] using hEl hel
  | cons B rest ih =>
    intro As1 hinv h
    simp only [addToArrays] at h
    by_cases hb : B.Base = BasePtr
    · simp only [hb, if_true] at h
      by_cases hn : B.getNumberOfDims = N
      · simp [hn] at h
        subst h
        intro A hA e he hel
        rcases List.mem_cons.mp hA with rfl | hA
        · simp only [List.mem_append, List.mem_singleton] at he
          rcases he with he | rfl
          · exact hinv B (List.mem_cons_self _ _) e he hel
          · have := hEl hel
            rw [← hn] at this
            exact this
        · exact hinv A (List.mem_cons_of_mem _ hA) e he hel
      · simp [hn] at h
    · simp only [hb, if_false] at h
      cases hr : addToArrays BasePtr N El ref rest with
      | none => simp [hr] at h
      | some rest1 =>
        simp [hr] at h
        subst h
        intro A hA e he hel
        rcases List.mem_cons.mp hA with rfl | hA
        · exact hinv A (List.mem_cons_self _ _) e he hel
        · exact ih rest1 (fun X hX => hinv X (List.mem_cons_of_mem _ hX)) hr A hA e he hel

theorem makeElement_counts (SE : ScalarEvolution) (ty Ptr N : Nat) (scalar : Bool)
    (raw : List Value) :
    (makeElement SE ty scalar Ptr N raw).1.IsElement = true →
      N ≤ (makeElement SE ty scalar Ptr N raw).1.Subscripts.length ∧
      ((makeElement SE ty scalar Ptr N raw).1.IsValid = false →
        (makeElement SE ty scalar Ptr N raw).1.Subscripts.length = N ∧ 0 < N) := by
  obtain ⟨m1, m2, m3⟩ := makeElement_flags SE ty Ptr N scalar raw
  intro hel
  rw [m1] at hel
  subst hel
  rw [m2, m3]
  simp
  omega

theorem processMemory_counts (SE : ScalarEvolution) (ty : Nat) (Hint : Nat → List Int)
    (R R1 : Registry) (I : MemoryAccess)
    (hinv : ∀ A ∈ R.Arrays, ∀ e ∈ A.Elements, e.IsElement = true →
      A.getNumberOfDims ≤ e.Subscripts.length ∧
        (e.IsValid = false → e.Subscripts.length = A.getNumberOfDims ∧
          0 < A.getNumberOfDims))
    (h : processMemory SE ty Hint R I = some R1) :
    ∀ A ∈ R1.Arrays, ∀ e ∈ A.Elements, e.IsElement = true →
      A.getNumberOfDims ≤ e.Subscripts.length ∧
        (e.IsValid = false → e.Subscripts.length = A.getNumberOfDims ∧
          0 < A.getNumberOfDims) := by
  unfold processMemory at h
  cases hc : R.DimsCache.lookup I.BasePtr with
  | none =>
    simp only [hc] at h
    split at h
    · simp at h
    · rename_i raw hraw
      split at h
      · rename_i As1 ha
        simp at h
        subst h
        exact addToArrays_counts _ _ _ _ (makeElement_counts SE ty _ _ _ raw) _ _ hinv ha
      · simp at h
  | some d =>
    simp only [hc] at h
    split at h
    · simp at h
    · rename_i raw hraw
      split at h
      · rename_i As1 ha
        simp at h
        subst h
        exact addToArrays_counts _ _ _ _ (makeElement_counts SE ty _ _ _ raw) _ _ hinv ha
      · simp at h

theorem processAll_counts (SE : ScalarEvolution) (ty : Nat) (Hint : Nat → List Int) :
    ∀ (F : List MemoryAccess) (R R1 : Registry),
      (∀ A ∈ R.Arrays, ∀ e ∈ A.Elements, e.IsElement = true →
        A.getNumberOfDims ≤ e.Subscripts.length ∧
          (e.IsValid = false → e.Subscripts.length = A.getNumberOfDims ∧
            0 < A.getNumberOfDims)) →
      processAll SE ty Hint R F = some R1 →
      ∀ A ∈ R1.Arrays, ∀ e ∈ A.Elements, e.IsElement = true →
        A.getNumberOfDims ≤ e.Subscripts.length ∧
          (e.IsValid = false → e.Subscripts.length = A.getNumberOfDims ∧
            0 < A.getNumberOfDims) := by
  intro F
  induction F with
  | nil =>
    intro R R1 hinv h
    simp [processAll] at h
    subst h
    exact hinv
  | cons I F ih =>
    intro R R1 hinv h
    simp only [processAll] at h
    cases hp : processMemory SE ty Hint R I with
    | none => simp [hp] at h
    | some R2 =>
      simp only [hp] at h
      exact ih R2 R1 (processMemory_counts SE ty Hint R R2 I hinv hp) h

theorem collectArrays_counts (SE : ScalarEvolution) (ty : Nat) (Hint : Nat → List Int)
    (F : List MemoryAccess) (R : Registry) (h : collectArrays SE ty Hint F = some R) :
    ∀ A ∈ R.Arrays, ∀ e ∈ A.Elements, e.IsElement = true →
      A.getNumberOfDims ≤ e.Subscripts.length ∧
        (e.IsValid = false → e.Subscripts.length = A.getNumberOfDims ∧
          0 < A.getNumberOfDims) := by
  unfold collectArrays at h
  cases hp : processAll SE ty Hint {} F with
  | none => simp [hp] at h
  | some R0 =>
    simp only [hp] at h
    injection h with h
    subst h
    intro A hA
    exact processAll_counts SE ty Hint F {} R0 (fun X hX => by simp at hX) hp A
      (List.mem_of_mem_filter hA)

theorem fill_keeps_elements (SE : ScalarEvolution) (ty : Nat) (DimSizes : List Int)
    (A : Array) (r : List Int × Array)
    (h : fillArrayDimensionsSizes SE ty DimSizes A = some r) :
    r.2.Elements = A.Elements ∧
    (A.getNumberOfDims ≠ 0 → r.2.getNumberOfDims = A.getNumberOfDims) ∧
    (A.getNumberOfDims = 0 → r.2.getNumberOfDims = 0 ∨
      findNumberOfDims A.Elements = some r.2.getNumberOfDims) := by
  unfold fillArrayDimensionsSizes at h
  by_cases h0 : A.getNumberOfDims = 0
  · simp only [h0, if_true] at h
    cases hf : findNumberOfDims A.Elements with
    | none =>
      simp only [hf] at h
      injection h with h
      subst h
      exact ⟨rfl, fun hne => absurd h0 hne, fun _ => Or.inl h0⟩
    | some n =>
      simp only [hf] at h
      by_cases hn : n = 0
      · simp [hn] at h
      · simp only [hn, if_false] at h
        split at h
        · simp at h
        · rename_i A1 hA1
          split at h
          · rename_i A2 hA2
            injection h with h
            subst h
            obtain ⟨_, hA1eq⟩ := setDimSize_eq _ _ _ _ hA1
            obtain ⟨g1, g2, _⟩ := fillLoop_length _ _ _ _ _ _ _ _ hA2
            have hD : A.Dims = [] := List.length_eq_zero.mp h0
            refine ⟨by rw [g2, hA1eq]; rfl, fun hne => absurd h0 hne, fun _ => Or.inr ?_⟩
            have : A2.getNumberOfDims = n := by
              simp [Array.getNumberOfDims, g1, hA1eq, Array.setNumberOfDims, hD]
            rw [this]
          · simp at h
  · simp only [h0, if_false] at h
    refine ⟨?_, fun _ => ?_, fun hz => absurd hz h0⟩
    · split at h
      · simp at h
      · rename_i L A1 hs
        obtain ⟨D, hD1, hD2, _⟩ := setHintedSizes_spec ty DimSizes _ _ _ hs
        simp only at hD1
        by_cases hL : L = 0
        · simp only [hL, if_true] at h
          injection h with h
          subst h
          rw [hD1]
        · simp only [hL, if_false] at h
          split at h
          · simp at h
          · split at h
            · simp at h
            · rename_i A2 hA2
              split at h
              · rename_i A3 hA3
                injection h with h
                subst h
                obtain ⟨_, hA2eq⟩ := setDimSize_eq _ _ _ _ hA2
                obtain ⟨g1, g2, _⟩ := fillLoop_length _ _ _ _ _ _ _ _ hA3
                rw [g2, hA2eq, hD1]
              · simp at h
    · split at h
      · simp at h
      · rename_i L A1 hs
        obtain ⟨D, hD1, hD2, _⟩ := setHintedSizes_spec ty DimSizes _ _ _ hs
        simp only at hD1
        by_cases hL : L = 0
        · simp only [hL, if_true] at h
          injection h with h
          subst h
          simp [Array.getNumberOfDims, hD1, hD2]
        · simp only [hL, if_false] at h
          split at h
          · simp at h
          · split at h
            · simp at h
            · rename_i A2 hA2
              split at h
              · rename_i A3 hA3
                injection h with h
                subst h
                obtain ⟨_, hA2eq⟩ := setDimSize_eq _ _ _ _ hA2
                obtain ⟨g1, g2, _⟩ := fillLoop_length _ _ _ _ _ _ _ _ hA3
                simp [Array.getNumberOfDims, g1, hA2eq, hD1, hD2]
              · simp at h

/-- C24: the object of `unevenAccesses`, hinted with two
dimensions, is loaded with two indices, passed whole to a call and loaded
through one step with three indices.  After `collectArrays` and
`fillArrayDimensionsSizes` the array has two dimensions and is delinearized, and
its elements have 2, 0 and 3 subscripts. -/
theorem uneven_subscript_counts :
    collectArrays refSE 64 (fun _ => [-1, 10]) unevenAccesses =
      some { DimsCache := [(0, [-1, 10])], Arrays := [unevenArray] } ∧
    (fillArrayDimensionsSizes refSE 64 [-1, 10] unevenArray).map
        (fun r => (r.2.getNumberOfDims, r.2.Delinearized,
          r.2.Elements.map (fun e => (e.IsElement, e.Subscripts.length)))) =
      some (2, true, [(true, 2), (false, 0), (true, 3)]) := by
  constructor <;> rfl

/-- Subscript counts the code does keep: after `collectArrays` and
`fillArrayDimensionsSizes` the elements of an array are those the collector built, and for an array with `n`
dimensions every element flagged as an element access has at least `n`
subscripts; for `n` > 0 it has exactly `n` when the collector padded it (it is
not valid) or when the array had no hinted dimension and `n` was taken from the
subscript counts. -/
theorem subscript_counts_after_fill (SE : ScalarEvolution) (ty : Nat) (Hint : Nat → List Int)
    (F : List MemoryAccess) (R : Registry) (A : Array) (DimSizes : List Int)
    (r : List Int × Array)
    (hR : collectArrays SE ty Hint F = some R) (hA : A ∈ R.Arrays)
    (hfill : fillArrayDimensionsSizes SE ty DimSizes A = some r) :
    r.2.Elements = A.Elements ∧
    ∀ e ∈ r.2.Elements, e.IsElement = true →
      r.2.getNumberOfDims ≤ e.Subscripts.length ∧
      (0 < r.2.getNumberOfDims → e.IsValid = false ∨ A.getNumberOfDims = 0 →
        e.Subscripts.length = r.2.getNumberOfDims) := by
  have hinv := collectArrays_counts SE ty Hint F R hR A hA
  obtain ⟨f1, f2, f3⟩ := fill_keeps_elements SE ty DimSizes A r hfill
  refine ⟨f1, ?_⟩
  intro e he hel
  rw [f1] at he
  obtain ⟨i1, i2⟩ := hinv e he hel
  by_cases h0 : A.getNumberOfDims = 0
  · have hvalid : e.IsValid = true := by
      by_contra hv
      have := (i2 (by simpa using hv)).2
      omega
    rcases f3 h0 with hz | hf
    · rw [hz]
      exact ⟨Nat.zero_le _, fun hpos => absurd hpos (by omega)⟩
    · have hlen := ((findNumberOfDims_eq_some_iff _ A.Elements).mp hf).2 e he
        (by simp [isValidElement, hel, hvalid])
      exact ⟨by omega, fun _ _ => hlen⟩
  · rw [f2 h0]
    refine ⟨i1, ?_⟩
    intro _ hcase
    rcases hcase with hv | hz
    · exact (i2 hv).1
    · exact absurd hz h0

/-- Subscript counts at the array of `paddedAccesses`, hinted with three
dimensions: the valid access has three subscripts and the padded one too. -/
theorem subscript_counts_after_fill_witness :
    (([-1, -1, -1], { paddedArray with
        Dims := [some SCEV.couldNotCompute, some (SCEV.constant 64 6),
                 some (SCEV.constant 64 1)],
        Delinearized := true }) : List Int × Array).2.Elements = paddedArray.Elements ∧
    ∀ e ∈ (([-1, -1, -1], { paddedArray with
        Dims := [some SCEV.couldNotCompute, some (SCEV.constant 64 6),
                 some (SCEV.constant 64 1)],
        Delinearized := true }) : List Int × Array).2.Elements, e.IsElement = true →
      (([-1, -1, -1], { paddedArray with
        Dims := [some SCEV.couldNotCompute, some (SCEV.constant 64 6),
                 some (SCEV.constant 64 1)],
        Delinearized := true }) : List Int × Array).2.getNumberOfDims ≤ e.Subscripts.length ∧
      (0 < (([-1, -1, -1], { paddedArray with
        Dims := [some SCEV.couldNotCompute, some (SCEV.constant 64 6),
                 some (SCEV.constant 64 1)],
        Delinearized := true }) : List Int × Array).2.getNumberOfDims →
        e.IsValid = false ∨ paddedArray.getNumberOfDims = 0 →
        e.Subscripts.length = (([-1, -1, -1], { paddedArray with
          Dims := [some SCEV.couldNotCompute, some (SCEV.constant 64 6),
                   some (SCEV.constant 64 1)],
          Delinearized := true }) : List Int × Array).2.getNumberOfDims) :=
  subscript_counts_after_fill refSE 64 (fun _ => [-1, -1, -1]) paddedAccesses
    { DimsCache := [(0, [-1, -1, -1])], Arrays := [paddedArray] } paddedArray [-1, -1, -1]
    _ rfl (List.mem_singleton_self _) (by rfl)


/-! ## The size recorded for a dimension -/

theorem fillLoop_frame (SE : ScalarEvolution) (ty N : Nat) (DimSizes : List Int) :
    ∀ (d : Nat) (Prev : SCEV) (A A1 : Array), fillLoop SE ty N DimSizes d Prev A = some A1 →
      ∀ i, d < i → A1.Dims[i]? = A.Dims[i]? := by
  intro d
  induction d with
  | zero =>
    intro Prev A A1 h i _
    simp [fillLoop] at h
    subst h
    rfl
  | succ d ih =>
    intro Prev A A1 h i hi
    simp only [fillLoop] at h
    split at h
    · simp at h
    · rename_i c hc
      split at h
      · split at h
        · rename_i A2 hA2
          obtain ⟨hlt, hA2eq⟩ := setDimSize_eq _ _ _ _ hA2
          have hJs : ∀ J ∈ List.range' 1 d, J < A2.Dims.length ∧ J < DimSizes.length := by
            intro J hJ
            have hJ1 := List.mem_range'_1.mp hJ
            have hD : d + 1 < DimSizes.length := by
              unfold candidateSize at hc
              cases hg : DimSizes[d + 1]? with
              | none => simp [hg] at hc
              | some z => exact (List.getElem?_eq_some.mp hg).1
            rw [hA2eq]
            simp
            omega
          obtain ⟨D, hD1, _, hD3, _⟩ :=
            markOuterDims_spec ty DimSizes (List.range' 1 d) A2 hJs (List.nodup_range' _ _)
          rw [hD1] at h
          injection h with h
          subst h
          have := hD3 i (by simp [List.mem_range'_1]; omega)
          simp only [this, hA2eq]
          rw [List.getElem?_set_ne (by omega)]
        · simp at h
      · split at h
        · rename_i A2 hA2
          obtain ⟨hlt, hA2eq⟩ := setDimSize_eq _ _ _ _ hA2
          rw [ih _ _ _ h i (by omega), hA2eq]
          simp only
          rw [List.getElem?_set_ne (by omega)]
        · simp at h

/-- C26 (as stated) fails: for the array `zeroArray` the GCD gathered at
dimension 1 is 0, the quotient by the running product 1 is the constant 0, and
the size recorded is the not-computable marker, not that quotient. -/
theorem zero_quotient_not_recorded :
    gatherExpressions 2 1 zeroArray.Elements = some [SCEV.constant 64 0] ∧
    findGCD refSE [SCEV.constant 64 0] = some (SCEV.constant 64 0) ∧
    candidateSize refSE 64 2 [-1, -1] zeroArray 1 (getConstant 64 1) =
      some (SCEV.constant 64 0) ∧
    (fillLoop refSE 64 2 [-1, -1] 1 (getConstant 64 1) zeroArray).map
        (fun A => A.getDimSize 1) = some (some SCEV.couldNotCompute) ∧
    (fillArrayDimensionsSizes refSE 64 [] { zeroArray with Dims := [] }).map
        (fun r => (r.2.Dims, r.2.Delinearized)) =
      some ([some SCEV.couldNotCompute, some SCEV.couldNotCompute], false) := by
  refine ⟨?_, ?_, ?_, ?_, ?_⟩ <;> rfl

/-- C26 (amended): at a dimension `d + 1` without a positive hinted size, with
`es` the subscripts at the indices `d` down to 0 of every element access,
element by element, `g` their GCD and `Prev` the running product: the candidate
size is the quotient of `g` by `Prev`, the remainder being dropped.  When the
quotient is not zero it is the size recorded for the dimension and the loop goes
on with the running product `Prev` times the quotient converted to the index
type; when it is zero the not-computable marker is recorded instead.  For an
array without a hint the loop is entered with the running product 1. -/
theorem size_formula (SE : ScalarEvolution) (ty N : Nat) (DimSizes : List Int) (d : Nat)
    (Prev : SCEV) (A : Array) (sz : Int) (es : List SCEV) (g : SCEV)
    (hsz : DimSizes[d + 1]? = some sz) (hnp : ¬ sz > 0) (hd : d + 1 < A.Dims.length)
    (hes : gatherExpressions N (d + 1) A.Elements = some es)
    (hg : findGCD SE es = some g) :
    es = A.Elements.foldr (fun e acc =>
      if e.IsElement then (e.Subscripts.take (d + 1)).reverse ++ acc else acc) [] ∧
    candidateSize SE ty N DimSizes A (d + 1) Prev = some (SE.divide g Prev).1 ∧
    ((SE.divide g Prev).1.isZero = false →
      fillLoop SE ty N DimSizes (d + 1) Prev A =
        fillLoop SE ty N DimSizes d
          (SE.getMulExpr [Prev, SE.getTruncateOrZeroExtend (SE.divide g Prev).1 ty])
          { A with Dims := A.Dims.set (d + 1) (some (SE.divide g Prev).1) } ∧
      ∀ A1, fillLoop SE ty N DimSizes (d + 1) Prev A = some A1 →
        A1.getDimSize (d + 1) = some (SE.divide g Prev).1) ∧
    ((SE.divide g Prev).1.isZero = true →
      ∀ A1, fillLoop SE ty N DimSizes (d + 1) Prev A = some A1 →
        A1.getDimSize (d + 1) = some getCouldNotCompute) ∧
    (∀ (A0 : Array) (D0 : List Int) (n : Nat), A0.getNumberOfDims = 0 →
      findNumberOfDims A0.Elements = some n → 0 < n →
      fillArrayDimensionsSizes SE ty D0 A0 =
        (fillLoop SE ty n (resizeDimSizes D0 n) (n - 1) (getConstant ty 1)
          { A0 with Dims := (List.replicate n none).set 0 (some getCouldNotCompute) }).map
          (fun A2 => (resizeDimSizes D0 n, A2))) := by
  have hc : candidateSize SE ty N DimSizes A (d + 1) Prev = some (SE.divide g Prev).1 := by
    unfold candidateSize
    simp [hsz, hnp, hes, hg]
  refine ⟨gatherExpressions_eq N (d + 1) A.Elements es hes, hc, ?_, ?_, ?_⟩
  · intro hz
    have hs : A.setDimSize (d + 1) (SE.divide g Prev).1 =
        some { A with Dims := A.Dims.set (d + 1) (some (SE.divide g Prev).1) } := by
      simp [Array.setDimSize, hd]
    have hstep : fillLoop SE ty N DimSizes (d + 1) Prev A =
        fillLoop SE ty N DimSizes d
          (SE.getMulExpr [Prev, SE.getTruncateOrZeroExtend (SE.divide g Prev).1 ty])
          { A with Dims := A.Dims.set (d + 1) (some (SE.divide g Prev).1) } := by
      rw [fillLoop]
      simp only [hc, hz, Bool.false_eq_true, if_false, hs]
    refine ⟨hstep, ?_⟩
    intro A1 hA1
    rw [hstep] at hA1
    have := fillLoop_frame SE ty N DimSizes d _ _ A1 hA1 (d + 1) (by omega)
    simp only [Array.getDimSize, this]
    simp [hd]
  · intro hz A1 hA1
    have hs : A.setDimSize (d + 1) getCouldNotCompute =
        some { A with Dims := A.Dims.set (d + 1) (some getCouldNotCompute) } := by
      simp [Array.setDimSize, hd]
    rw [fillLoop] at hA1
    simp only [hc, hz, if_true, hs] at hA1
    have hD : d + 1 < DimSizes.length := (List.getElem?_eq_some.mp hsz).1
    have hJs : ∀ J ∈ List.range' 1 d,
        J < ({ A with Dims := A.Dims.set (d + 1) (some getCouldNotCompute) } : Array).Dims.length
          ∧ J < DimSizes.length := by
      intro J hJ
      have hJ1 := List.mem_range'_1.mp hJ
      simp
      omega
    obtain ⟨D, hD1, _, hD3, _⟩ :=
      markOuterDims_spec ty DimSizes (List.range' 1 d) _ hJs (List.nodup_range' _ _)
    rw [hD1] at hA1
    injection hA1 with hA1
    subst hA1
    have := hD3 (d + 1) (by simp [List.mem_range'_1]; omega)
    simp only [Array.getDimSize, this]
    simp [hd]
  · intro A0 D0 n h0 hf hn
    have hD : A0.Dims = [] := List.length_eq_zero.mp h0
    have hn0 : n ≠ 0 := by omega
    have hset : (A0.setNumberOfDims n).setDimSize 0 getCouldNotCompute =
        some { A0 with Dims := (List.replicate n none).set 0 (some getCouldNotCompute) } := by
      simp [Array.setNumberOfDims, Array.setDimSize, hD]
      omega
    unfold fillArrayDimensionsSizes
    simp only [h0, if_true, hf, hn0, if_false, hset]
    cases fillLoop SE ty n (resizeDimSizes D0 n) (n - 1) (getConstant ty 1)
      { A0 with Dims := (List.replicate n none).set 0 (some getCouldNotCompute) } <;> rfl

/-- C26 (amended) at `symbolicArray` after the dimension count is set: the GCD
of n * y and n * z is `n`, the quotient by 1 is `n` and it is recorded. -/
theorem size_formula_witness :
    [SCEV.mulExpr [SCEV.unknown 64 100, SCEV.unknown 64 3],
     SCEV.mulExpr [SCEV.unknown 64 100, SCEV.unknown 64 5]] =
      ({ symbolicArray with Dims := [some SCEV.couldNotCompute, none] } : Array).Elements.foldr
        (fun e acc =>
          if e.IsElement then (e.Subscripts.take (0 + 1)).reverse ++ acc else acc) [] ∧
    candidateSize refSE 64 2 [-1, -1]
        { symbolicArray with Dims := [some SCEV.couldNotCompute, none] } (0 + 1)
        (getConstant 64 1) =
      some (refSE.divide (SCEV.unknown 64 100) (getConstant 64 1)).1 ∧
    ((refSE.divide (SCEV.unknown 64 100) (getConstant 64 1)).1.isZero = false →
      fillLoop refSE 64 2 [-1, -1] (0 + 1) (getConstant 64 1)
          { symbolicArray with Dims := [some SCEV.couldNotCompute, none] } =
        fillLoop refSE 64 2 [-1, -1] 0
          (refSE.getMulExpr [getConstant 64 1, refSE.getTruncateOrZeroExtend
            (refSE.divide (SCEV.unknown 64 100) (getConstant 64 1)).1 64])
          { ({ symbolicArray with Dims := [some SCEV.couldNotCompute, none] } : Array) with
            Dims := ({ symbolicArray with
              Dims := [some SCEV.couldNotCompute, none] } : Array).Dims.set (0 + 1)
                (some (refSE.divide (SCEV.unknown 64 100) (getConstant 64 1)).1) } ∧
      ∀ A1, fillLoop refSE 64 2 [-1, -1] (0 + 1) (getConstant 64 1)
          { symbolicArray with Dims := [some SCEV.couldNotCompute, none] } = some A1 →
        A1.getDimSize (0 + 1) =
          some (refSE.divide (SCEV.unknown 64 100) (getConstant 64 1)).1) ∧
    ((refSE.divide (SCEV.unknown 64 100) (getConstant 64 1)).1.isZero = true →
      ∀ A1, fillLoop refSE 64 2 [-1, -1] (0 + 1) (getConstant 64 1)
          { symbolicArray with Dims := [some SCEV.couldNotCompute, none] } = some A1 →
        A1.getDimSize (0 + 1) = some getCouldNotCompute) ∧
    (∀ (A0 : Array) (D0 : List Int) (n : Nat), A0.getNumberOfDims = 0 →
      findNumberOfDims A0.Elements = some n → 0 < n →
      fillArrayDimensionsSizes refSE 64 D0 A0 =
        (fillLoop refSE 64 n (resizeDimSizes D0 n) (n - 1) (getConstant 64 1)
          { A0 with Dims := (List.replicate n none).set 0 (some getCouldNotCompute) }).map
          (fun A2 => (resizeDimSizes D0 n, A2))) :=
  size_formula refSE 64 2 [-1, -1] 0 (getConstant 64 1)
    { symbolicArray with Dims := [some SCEV.couldNotCompute, none] } (-1)
    [SCEV.mulExpr [SCEV.unknown 64 100, SCEV.unknown 64 3],
     SCEV.mulExpr [SCEV.unknown 64 100, SCEV.unknown 64 5]]
    (SCEV.unknown 64 100) (by rfl) (by decide) (by decide) rfl rfl

/-! ## Large constants in the GCD engine -/

/-- C22: for the one-element list of the 64-bit constant 2147483659, a prime
above 2^31, `findGCD` does not return: the prime table is sieved up to the
constant with `int` counters, ends below it, and the factorization loop finds no
divisor before its index leaves the table.  The same holds for 2^31.  On the
induction expression {4,+,6 * x} the nested call returns 2. -/
theorem findGCD_large_constant_fails :
    getLimitedValue 64 2147483659 = 2147483659 ∧
    countPrimeNumbers 2147483659 = none ∧
    countConstantMultipliers 64 2147483659 = none ∧
    findGCD refSE [SCEV.constant 64 2147483659] = none ∧
    findGCD refSE [SCEV.constant 64 (2 ^ 31)] = none ∧
    findGCD refSE [SCEV.addRecExpr (SCEV.constant 64 4)
      (SCEV.mulExpr [SCEV.constant 64 6, SCEV.unknown 64 1]) 0] =
      some (SCEV.constant 64 2) := by
  refine ⟨?_, ?_, ?_, ?_, ?_, ?_⟩ <;> rfl

/-- C25: with the constant 2^31 in front of 4 `findGCD` does not return, with 4
in front of 2^31 it returns 4; the same with the prime 2147483659 in the place
of 2^31, where the result behind 4 is 1.  The lists [0, 6, 4] and [6, 0, 4]
both give 2. -/
theorem findGCD_large_opening_fails :
    findGCD refSE [SCEV.constant 64 (2 ^ 31), SCEV.constant 64 4] = none ∧
    findGCD refSE [SCEV.constant 64 4, SCEV.constant 64 (2 ^ 31)] =
      some (SCEV.constant 64 4) ∧
    findGCD refSE [SCEV.constant 64 2147483659, SCEV.constant 64 4] = none ∧
    findGCD refSE [SCEV.constant 64 4, SCEV.constant 64 2147483659] =
      some (SCEV.constant 64 1) ∧
    findGCD refSE [SCEV.constant 64 0, SCEV.constant 64 6, SCEV.constant 64 4] =
      some (SCEV.constant 64 2) ∧
    findGCD refSE [SCEV.constant 64 6, SCEV.constant 64 0, SCEV.constant 64 4] =
      some (SCEV.constant 64 2) := by
  refine ⟨?_, ?_, ?_, ?_, ?_, ?_⟩ <;> rfl

/-! ## The GCD of constants with a right prime table -/

theorem primeTableOK_of_le (c : Nat) (h : c ≤ 281) : PrimeTableOK c := by
  obtain ⟨ps, h1, _, h3⟩ := countPrimeNumbers_cached c h
  exact ⟨ps, h1, h3⟩

theorem countConstantMultipliers_table (ty c : Nat) (h2 : 2 ≤ c) (h64 : c < 2 ^ 64)
    (hty : (c : Int) < 2 ^ (ty - 1)) (hT : PrimeTableOK c) :
    ∃ ps : List Nat,
      countConstantMultipliers ty (c : Int) =
        some (ps.map (fun p : Nat => SCEV.constant ty (p : Int))) ∧
      ps.prod = c ∧ ∀ p ∈ ps, Nat.Prime p := by
  have hlim : getLimitedValue ty (c : Int) = c := by
    rw [getLimitedValue_of_lt ty (c : Int) (by omega) hty (by exact_mod_cast h64)]
    simp
  obtain ⟨Primes, hP, hmem⟩ := hT
  have h2mem : 2 ∈ Primes := (hmem 2).mpr ⟨Nat.prime_two, h2⟩
  have hlen : 0 < Primes.length := List.length_pos_of_mem h2mem
  obtain ⟨out, hout⟩ := factorLoop_isSome ty Primes (c + Primes.length + 1) c
    (Primes.length - 1) [] (by omega) (by omega) (by omega)
    (by
      intro q hq hqd
      have hqc : q ≤ c := Nat.le_of_dvd (by omega) hqd
      obtain ⟨j, hj⟩ := List.mem_iff_getElem?.mp ((hmem q).mpr ⟨hq, hqc⟩)
      have hjlt : j < Primes.length := (List.getElem?_eq_some.mp hj).1
      exact ⟨j, by omega, hj⟩)
    (fun p hp => ((hmem p).mp hp).1.two_le)
  obtain ⟨ps, h1, h3, h4⟩ := factorLoop_mem ty Primes _ _ _ _ _ hout
  have hc1 : c > 1 := by omega
  simp only [hc1, if_true, mul_one, List.nil_append] at h1 h3
  refine ⟨ps, ?_, h3, fun p hp => ((hmem p).mp (h4 p hp)).1⟩
  have hmap : ps.map (fun p : Nat => getConstant ty (p : Int)) =
      ps.map (fun p : Nat => SCEV.constant ty (p : Int)) := by
    apply List.map_congr_left
    intro p hp
    have hpc : p ≤ c := ((hmem p).mp (h4 p hp)).2
    exact getConstant_of_lt ty (p : Int) (by omega) (by
      have : (p : Int) ≤ (c : Int) := by exact_mod_cast hpc
      omega)
  unfold countConstantMultipliers
  simp only [hlim]
  rw [if_neg (by omega), if_neg (by omega), hP]
  simp only
  rw [hout, h1, hmap]

theorem gcdOfTerms_table (SE : ScalarEvolution) (hSE : ConstantArithmetic SE) (ty : Nat)
    (vs : List Nat) (hne : vs ≠ [])
    (hvs : ∀ v ∈ vs, (v : Int) < 2 ^ (ty - 1) ∧ v < 2 ^ 64 ∧ (2 ≤ v → PrimeTableOK v)) :
    gcdOfTerms SE ty (vs.map (fun n : Nat => SCEV.constant ty (n : Int))) =
      some (SCEV.constant ty ((vs.foldr Nat.gcd 0 : Nat) : Int)) := by
  unfold gcdOfTerms
  have hemp : (vs.map (fun n : Nat => SCEV.constant ty (n : Int))).isEmpty = false := by
    cases vs with
    | nil => exact absurd rfl hne
    | cons _ _ => rfl
  simp only [hemp, Bool.false_eq_true, if_false, find_opening_nat]
  cases hf : vs.find? (fun v => v != 0) with
  | none =>
    simp only [Option.map_none']
    have hall : ∀ v ∈ vs, v = 0 := by
      intro v hv
      have := List.find?_eq_none.mp hf v hv
      simpa using this
    rw [foldr_gcd_zero vs hall]
    exact congrArg some (getConstant_of_lt ty 0 (le_refl _) (by positivity))
  | some v0 =>
    simp only [Option.map_some']
    have hv0mem : v0 ∈ vs := List.mem_of_find?_eq_some hf
    have hv0ne : v0 ≠ 0 := by
      have := List.find?_some hf
      simpa using this
    obtain ⟨hv0ty, hv064, hv0T⟩ := hvs v0 hv0mem
    have hone : (1 : Int) < 2 ^ (ty - 1) := by
      have : (1 : Int) ≤ (v0 : Int) := by exact_mod_cast Nat.one_le_iff_ne_zero.mpr hv0ne
      omega
    obtain ⟨hd, tl, rfl⟩ : ∃ hd tl, vs = hd :: tl := by
      cases vs with
      | nil => exact absurd rfl hne
      | cons a b => exact ⟨a, b, rfl⟩
    have htl : ∀ t ∈ tl, (t : Int) < 2 ^ (ty - 1) :=
      fun t ht => (hvs t (List.mem_cons_of_mem _ ht)).1
    have hG : tl.foldl Nat.gcd v0 = (hd :: tl).foldr Nat.gcd 0 := by
      rw [foldl_gcd_eq, List.foldr_cons]
      by_cases hh : hd = 0
      · have hmem : v0 ∈ tl := by
          rcases List.mem_cons.mp hv0mem with h | h
          · rw [h] at hv0ne; exact absurd hh hv0ne
          · exact h
        rw [hh, Nat.gcd_zero_left]
        exact Nat.gcd_eq_right (foldr_gcd_dvd tl v0 hmem)
      · rw [List.find?_cons] at hf
        have hb : (hd != 0) = true := by simpa using hh
        rw [hb] at hf
        injection hf with hf
        rw [hf]
    have hGdvd : tl.foldl Nat.gcd v0 ∣ v0 := by
      rw [foldl_gcd_eq]
      exact Nat.gcd_dvd_left _ _
    rw [← hG]
    simp only [List.map_cons, List.drop_succ_cons, List.drop_zero, openingDividers, dividersOf]
    by_cases h1 : v0 = 1
    · subst h1
      have hc : countConstantMultipliers ty ((1 : Nat) : Int) = some [SCEV.constant ty 1] := by
        have hlim : getLimitedValue ty ((1 : Nat) : Int) = 1 := by
          rw [getLimitedValue_of_lt ty _ (by norm_num) (by exact_mod_cast hone) (by norm_num)]
          rfl
        unfold countConstantMultipliers
        simp only [hlim]
        simp [getConstant_of_lt ty 1 (by norm_num) hone]
      rw [hc]
      simp only [reduceDividers_one SE hSE ty hone tl htl]
      have : tl.foldl Nat.gcd 1 = 1 := foldl_gcd_one tl
      rw [this]
      rfl
    · obtain ⟨ps, hps, hprod, hprime⟩ :=
        countConstantMultipliers_table ty v0 (by omega) hv064 hv0ty (hv0T (by omega))
      rw [hps]
      simp only
      have hpsne : ps ≠ [] := by
        intro h
        rw [h] at hprod
        simp at hprod
        omega
      have hpsb : ∀ d ∈ ps, Nat.Prime d ∧ (d : Int) < 2 ^ (ty - 1) := by
        intro d hd
        refine ⟨hprime d hd, ?_⟩
        have hle : d ≤ v0 := by
          rw [← hprod]
          exact Nat.le_of_dvd (by rw [hprod]; omega) (List.dvd_prod hd)
        have : (d : Int) ≤ (v0 : Int) := by exact_mod_cast hle
        omega
      obtain ⟨r1, r2⟩ := reduceDividers_gcd SE hSE ty tl ps htl hpsb hpsne
      rw [hprod] at r1 r2
      by_cases hg1 : tl.foldl Nat.gcd v0 = 1
      · rw [r1 hg1, hg1]
        exact congrArg some (getConstant_of_lt ty 1 (by norm_num) hone)
      · obtain ⟨ds1, e1, e2, e3, e4⟩ := r2 hg1
        rw [e1, ← e4]
        have hlt : ((ds1.prod : Nat) : Int) < 2 ^ (ty - 1) := by
          have hle : ds1.prod ≤ v0 := by
            rw [e4]
            exact Nat.le_of_dvd (Nat.pos_of_ne_zero hv0ne) hGdvd
          have : ((ds1.prod : Nat) : Int) ≤ (v0 : Int) := by exact_mod_cast hle
          omega
        have hmul := hSE.mul ty (ds1.map (fun n : Nat => (n : Int)))
          (by simpa using e2)
          (by
            intro p hp
            obtain ⟨n, hn, rfl⟩ := List.mem_map.mp hp
            exact_mod_cast (e3 n hn).pos)
          (by
            have : (ds1.map (fun n : Nat => (n : Int))).prod = ((ds1.prod : Nat) : Int) := by
              simp [Nat.cast_list_prod]
            rw [this]
            exact hlt)
        have hprodc : (ds1.map (fun n : Nat => (n : Int))).prod = ((ds1.prod : Nat) : Int) := by
          simp [Nat.cast_list_prod]
        rw [hprodc, List.map_map] at hmul
        cases ds1 with
        | nil => exact absurd rfl e2
        | cons a b =>
          cases b with
          | nil => simp
          | cons c e =>
            simp only [List.map_cons]
            exact congrArg some hmul

theorem findGCD_table (SE : ScalarEvolution) (hSE : ConstantArithmetic SE) (ty : Nat)
    (vs : List Nat) (hne : vs ≠ [])
    (hvs : ∀ v ∈ vs, (v : Int) < 2 ^ (ty - 1) ∧ v < 2 ^ 64 ∧ (2 ≤ v → PrimeTableOK v)) :
    findGCD SE (vs.map (fun n : Nat => SCEV.constant ty (n : Int))) =
      some (SCEV.constant ty ((vs.foldr Nat.gcd 0 : Nat) : Int)) := by
  rw [← gcdOfTerms_table SE hSE ty vs hne hvs]
  obtain ⟨hd, tl, rfl⟩ : ∃ hd tl, vs = hd :: tl := by
    cases vs with
    | nil => exact absurd rfl hne
    | cons a b => exact ⟨a, b, rfl⟩
  have hmap : (hd :: tl).map (fun n : Nat => SCEV.constant ty (n : Int)) =
      (((hd : Nat) : Int) :: tl.map (fun n : Nat => (n : Int))).map (SCEV.constant ty) := by
    simp [List.map_map, Function.comp]
  rw [hmap]
  exact findGCD_consts SE ty _ _


/-! ## Exact division of the GCD by the running product -/

theorem gather_constants (ty N k : Nat) (B : Nat → Prop) :
    ∀ els : List Element,
      (∀ e ∈ els, e.IsElement = true → ∃ vs : List Nat,
        e.Subscripts = vs.map (fun n : Nat => SCEV.constant ty (n : Int)) ∧ vs.length = N ∧
          ∀ v ∈ vs, B v) →
      ∃ ws : List Nat, gatherExpressions N k els =
          some (ws.map (fun n : Nat => SCEV.constant ty (n : Int))) ∧ ∀ w ∈ ws, B w := by
  intro els
  induction els with
  | nil => intro _; exact ⟨[], rfl, fun w hw => by simp at hw⟩
  | cons e els ih =>
    intro h
    obtain ⟨ws, hws, hB⟩ := ih (fun x hx => h x (List.mem_cons_of_mem _ hx))
    by_cases he : e.IsElement = true
    · obtain ⟨vs, h1, h2, h3⟩ := h e (List.mem_cons_self _ _) he
      refine ⟨(vs.take k).reverse ++ ws, ?_, ?_⟩
      · have hlen : e.Subscripts.length = N := by rw [h1]; simpa using h2
        simp only [gatherExpressions, he, Bool.not_true, Bool.false_eq_true, if_false, hlen,
          ne_eq, not_true_eq_false, hws]
        rw [h1]
        simp [List.map_take, List.map_reverse]
      · intro w hw
        rcases List.mem_append.mp hw with hw | hw
        · exact h3 w (List.mem_of_mem_take (List.mem_reverse.mp hw))
        · exact hB w hw
    · exact ⟨ws, by simp [gatherExpressions, he, hws], hB⟩

theorem gather_mono (N k : Nat) (els : List Element) (es1 es2 : List SCEV)
    (h1 : gatherExpressions N k els = some es1)
    (h2 : gatherExpressions N (k + 1) els = some es2) : ∀ x ∈ es1, x ∈ es2 := by
  rw [gatherExpressions_eq N k els es1 h1, gatherExpressions_eq N (k + 1) els es2 h2]
  clear h1 h2
  induction els with
  | nil => intro x hx; exact hx
  | cons e els ih =>
    intro x hx
    simp only [List.foldr_cons] at hx ⊢
    by_cases he : e.IsElement = true
    · simp only [he, if_true, List.mem_append, List.mem_reverse] at hx ⊢
      rcases hx with hx | hx
      · left
        have : e.Subscripts.take k = (e.Subscripts.take (k + 1)).take k := by
          simp [List.take_take]
        rw [this] at hx
        exact List.mem_of_mem_take hx
      · exact Or.inr (ih x hx)
    · simp only [he, if_false] at hx ⊢
      exact ih x hx

theorem foldr_gcd_dvd_of_forall (P : Nat) :
    ∀ ws : List Nat, (∀ w ∈ ws, P ∣ w) → P ∣ ws.foldr Nat.gcd 0 := by
  intro ws
  induction ws with
  | nil => intro _; exact Nat.dvd_zero P
  | cons a ws ih =>
    intro h
    simp only [List.foldr_cons]
    exact Nat.dvd_gcd (h a (List.mem_cons_self _ _))
      (ih (fun w hw => h w (List.mem_cons_of_mem _ hw)))

theorem foldr_gcd_le_bound (b : Int) :
    ∀ ws : List Nat, (∀ w ∈ ws, (w : Int) < b) → ws.foldr Nat.gcd 0 ≠ 0 →
      ((ws.foldr Nat.gcd 0 : Nat) : Int) < b := by
  intro ws
  induction ws with
  | nil => intro _ h; exact absurd rfl h
  | cons a ws ih =>
    intro h hne
    simp only [List.foldr_cons] at hne ⊢
    by_cases ha : a = 0
    · subst ha
      simp only [Nat.gcd_zero_left] at hne ⊢
      exact ih (fun w hw => h w (List.mem_cons_of_mem _ hw)) hne
    · have hle : Nat.gcd a (ws.foldr Nat.gcd 0) ≤ a :=
        Nat.le_of_dvd (Nat.pos_of_ne_zero ha) (Nat.gcd_dvd_left _ _)
      have := h a (List.mem_cons_self _ _)
      have hc : ((Nat.gcd a (ws.foldr Nat.gcd 0) : Nat) : Int) ≤ (a : Int) := by
        exact_mod_cast hle
      omega

/-- One step of the size inference on constants: for an array without hinted
sizes whose element accesses all have `N` non-negative constant subscripts that fit the type and whose prime table is
right, at the dimension `d + 1` of the loop of `fillArrayDimensionsSizes`, with
the running product the constant `P` that divides every subscript gathered
there (1 at the start): when the GCD `G` of the gathered subscripts is not zero,
`findGCD` returns the constant `G`, the division of `G` by the running product
has remainder zero, the size `G / P` is recorded, and the loop goes on with the
running product `G`, the integer GCD of all subscripts at the indices up to
`d`, which again divides every subscript gathered at the next dimension. -/
theorem inner_division_exact (SE : ScalarEvolution) (hSE : ConstantArithmetic SE)
    (ty N : Nat) (DimSizes : List Int) (d : Nat) (A : Array) (P : Nat) (sz : Int)
    (hcast : ∀ v : Int, SE.getTruncateOrZeroExtend (SCEV.constant ty v) ty = SCEV.constant ty v)
    (hel : ∀ e ∈ A.Elements, e.IsElement = true → ∃ vs : List Nat,
      e.Subscripts = vs.map (fun n : Nat => SCEV.constant ty (n : Int)) ∧ vs.length = N ∧
        ∀ v ∈ vs, (v : Int) < 2 ^ (ty - 1) ∧ v < 2 ^ 64 ∧ (2 ≤ v → PrimeTableOK v))
    (hsz : DimSizes[d + 1]? = some sz) (hnp : ¬ sz > 0) (hd : d + 1 < A.Dims.length)
    (hP0 : 0 < P)
    (hP : ∀ ws : List Nat, gatherExpressions N (d + 1) A.Elements =
      some (ws.map (fun n : Nat => SCEV.constant ty (n : Int))) → ∀ w ∈ ws, P ∣ w) :
    ∃ ws : List Nat,
      gatherExpressions N (d + 1) A.Elements =
        some (ws.map (fun n : Nat => SCEV.constant ty (n : Int))) ∧
      (ws.foldr Nat.gcd 0 ≠ 0 →
        findGCD SE (ws.map (fun n : Nat => SCEV.constant ty (n : Int))) =
          some (SCEV.constant ty ((ws.foldr Nat.gcd 0 : Nat) : Int)) ∧
        SE.divide (SCEV.constant ty ((ws.foldr Nat.gcd 0 : Nat) : Int))
            (SCEV.constant ty (P : Int)) =
          (SCEV.constant ty ((ws.foldr Nat.gcd 0 / P : Nat) : Int), SCEV.constant ty 0) ∧
        fillLoop SE ty N DimSizes (d + 1) (SCEV.constant ty (P : Int)) A =
          fillLoop SE ty N DimSizes d (SCEV.constant ty ((ws.foldr Nat.gcd 0 : Nat) : Int))
            { A with Dims := (A.Dims.set (d + 1)
                (some (SCEV.constant ty ((ws.foldr Nat.gcd 0 / P : Nat) : Int)))) } ∧
        ∀ ws1 : List Nat, gatherExpressions N d A.Elements =
            some (ws1.map (fun n : Nat => SCEV.constant ty (n : Int))) →
          ∀ w ∈ ws1, ws.foldr Nat.gcd 0 ∣ w) := by
  obtain ⟨ws, hws, hB⟩ := gather_constants ty N (d + 1)
    (fun v => (v : Int) < 2 ^ (ty - 1) ∧ v < 2 ^ 64 ∧ (2 ≤ v → PrimeTableOK v))
    A.Elements hel
  refine ⟨ws, hws, ?_⟩
  intro hG
  have hne : ws ≠ [] := by
    intro h
    rw [h] at hG
    exact hG rfl
  have hfind := findGCD_table SE hSE ty ws hne hB
  have hPG : P ∣ ws.foldr Nat.gcd 0 := foldr_gcd_dvd_of_forall P ws (hP ws hws)
  have hGlt : ((ws.foldr Nat.gcd 0 : Nat) : Int) < 2 ^ (ty - 1) :=
    foldr_gcd_le_bound _ ws (fun w hw => (hB w hw).1) hG
  have hGpos : 0 < ws.foldr Nat.gcd 0 := Nat.pos_of_ne_zero hG
  have hPle : P ≤ ws.foldr Nat.gcd 0 := Nat.le_of_dvd hGpos hPG
  have hPlt : (P : Int) < 2 ^ (ty - 1) := by
    have : (P : Int) ≤ ((ws.foldr Nat.gcd 0 : Nat) : Int) := by exact_mod_cast hPle
    omega
  have hQpos : 0 < ws.foldr Nat.gcd 0 / P := Nat.div_pos hPle hP0
  have hmulNat : P * (ws.foldr Nat.gcd 0 / P) = ws.foldr Nat.gcd 0 :=
    Nat.mul_div_cancel' hPG
  have hdiv : SE.divide (SCEV.constant ty ((ws.foldr Nat.gcd 0 : Nat) : Int))
      (SCEV.constant ty (P : Int)) =
      (SCEV.constant ty ((ws.foldr Nat.gcd 0 / P : Nat) : Int), SCEV.constant ty 0) := by
    rw [hSE.divide ty _ _ (by omega) (by exact_mod_cast hP0) hGlt hPlt]
    have e1 : ((ws.foldr Nat.gcd 0 : Nat) : Int) / (P : Int) =
        ((ws.foldr Nat.gcd 0 / P : Nat) : Int) := by norm_cast
    have e2 : ((ws.foldr Nat.gcd 0 : Nat) : Int) % (P : Int) = 0 := by
      have : ws.foldr Nat.gcd 0 % P = 0 := Nat.mod_eq_zero_of_dvd hPG
      exact_mod_cast this
    rw [e1, e2]
  have hmul : SE.getMulExpr [SCEV.constant ty (P : Int),
      SCEV.constant ty ((ws.foldr Nat.gcd 0 / P : Nat) : Int)] =
      SCEV.constant ty ((ws.foldr Nat.gcd 0 : Nat) : Int) := by
    have := hSE.mul ty [(P : Int), ((ws.foldr Nat.gcd 0 / P : Nat) : Int)] (by simp)
      (by
        intro p hp
        simp only [List.mem_cons, List.mem_singleton, List.not_mem_nil, or_false] at hp
        rcases hp with rfl | rfl
        · exact_mod_cast hP0
        · exact_mod_cast hQpos)
      (by
        have : ([(P : Int), ((ws.foldr Nat.gcd 0 / P : Nat) : Int)] : List Int).prod =
            ((ws.foldr Nat.gcd 0 : Nat) : Int) := by
          simp only [List.prod_cons, List.prod_nil, mul_one]
          exact_mod_cast hmulNat
        rw [this]
        exact hGlt)
    simp only [List.map_cons, List.map_nil, List.prod_cons, List.prod_nil, mul_one] at this
    rw [this]
    congr 1
    exact_mod_cast hmulNat
  refine ⟨hfind, hdiv, ?_, ?_⟩
  · have hc : candidateSize SE ty N DimSizes A (d + 1) (SCEV.constant ty (P : Int)) =
        some (SCEV.constant ty ((ws.foldr Nat.gcd 0 / P : Nat) : Int)) := by
      unfold candidateSize
      simp [hsz, hnp, hws, hfind, hdiv]
    have hz : (SCEV.constant ty ((ws.foldr Nat.gcd 0 / P : Nat) : Int)).isZero = false := by
      simp [SCEV.isZero]
      omega
    have hs : A.setDimSize (d + 1) (SCEV.constant ty ((ws.foldr Nat.gcd 0 / P : Nat) : Int)) =
        some { A with Dims := (A.Dims.set (d + 1)
          (some (SCEV.constant ty ((ws.foldr Nat.gcd 0 / P : Nat) : Int)))) } := by
      simp [Array.setDimSize, hd]
    rw [fillLoop]
    simp only [hc, hz, Bool.false_eq_true, if_false, hs, hcast, hmul]
  · intro ws1 hws1 w hw
    have hmem := gather_mono N d A.Elements _ _ hws1 hws
      (SCEV.constant ty (w : Int)) (List.mem_map.mpr ⟨w, hw, rfl⟩)
    obtain ⟨w2, hw2, heq⟩ := List.mem_map.mp hmem
    have : w2 = w := by
      injection heq with _ h
      exact_mod_cast h
    rw [← this]
    exact foldr_gcd_dvd ws w2 hw2

/-- The step of the size inference at the accesses [6, 1] and [4, 3] and
dimension 1, with the running product 1: the gathered subscripts are 6 and 4, their GCD 2 is found, the
division of 2 by 1 leaves no remainder, and the loop goes on with the running
product 2. -/
theorem inner_division_exact_witness :
    ∃ ws : List Nat,
      gatherExpressions 2 (0 + 1) constantArray.Elements =
        some (ws.map (fun n : Nat => SCEV.constant 64 (n : Int))) ∧
      (ws.foldr Nat.gcd 0 ≠ 0 →
        findGCD refSE (ws.map (fun n : Nat => SCEV.constant 64 (n : Int))) =
          some (SCEV.constant 64 ((ws.foldr Nat.gcd 0 : Nat) : Int)) ∧
        refSE.divide (SCEV.constant 64 ((ws.foldr Nat.gcd 0 : Nat) : Int))
            (SCEV.constant 64 ((1 : Nat) : Int)) =
          (SCEV.constant 64 ((ws.foldr Nat.gcd 0 / 1 : Nat) : Int), SCEV.constant 64 0) ∧
        fillLoop refSE 64 2 [-1, -1] (0 + 1) (SCEV.constant 64 ((1 : Nat) : Int))
            constantArray =
          fillLoop refSE 64 2 [-1, -1] 0
            (SCEV.constant 64 ((ws.foldr Nat.gcd 0 : Nat) : Int))
            { constantArray with Dims := (constantArray.Dims.set (0 + 1)
                (some (SCEV.constant 64 ((ws.foldr Nat.gcd 0 / 1 : Nat) : Int)))) } ∧
        ∀ ws1 : List Nat, gatherExpressions 2 0 constantArray.Elements =
            some (ws1.map (fun n : Nat => SCEV.constant 64 (n : Int))) →
          ∀ w ∈ ws1, ws.foldr Nat.gcd 0 ∣ w) :=
  inner_division_exact refSE refSE_constantArithmetic 64 2 [-1, -1] 0 constantArray 1 (-1)
    (fun v => rfl)
    (by
      intro e he _
      simp only [constantArray, List.mem_cons, List.mem_singleton, List.not_mem_nil,
        or_false] at he
      rcases he with rfl | rfl
      · refine ⟨[6, 1], rfl, rfl, ?_⟩
        intro v hv
        simp only [List.mem_cons, List.mem_singleton, List.not_mem_nil, or_false] at hv
        rcases hv with rfl | rfl <;>
          exact ⟨by norm_num, by norm_num, fun _ => primeTableOK_of_le _ (by norm_num)⟩
      · refine ⟨[4, 3], rfl, rfl, ?_⟩
        intro v hv
        simp only [List.mem_cons, List.mem_singleton, List.not_mem_nil, or_false] at hv
        rcases hv with rfl | rfl <;>
          exact ⟨by norm_num, by norm_num, fun _ => primeTableOK_of_le _ (by norm_num)⟩)
    (by rfl) (by decide) (by decide) (by decide)
    (fun ws _ w _ => one_dvd w)


/-! ## Elements after a failing element keep their valid flag -/

/-- C8: in `twoRangesArray` the size of dimension 1 is inferred as `n`, which is
the running product at level 1, and the subscripts of the ranges `callRange` and
`secondRange` at that level both leave a non-zero remainder.  The first range is
marked invalid and the loop over the elements is left there, so the second
range keeps its valid flag.  In `inferredEightArray` the size of dimension 1 is
inferred as the constant 8; a constant size is not a level of the normalizer,
the subscript 10 is never divided and its range stays valid. -/
theorem clean_break_keeps_later_flag :
    (fillArrayDimensionsSizes refSE 64 [] twoRangesArray).map
        (fun r => (r.2.Dims, r.2.Delinearized)) =
      some ([some SCEV.couldNotCompute, some (SCEV.unknown 64 100)], true) ∧
    refSE.getMulExpr [getConstant 64 1, refSE.getTruncateOrZeroExtend (SCEV.unknown 64 100) 64] =
      SCEV.unknown 64 100 ∧
    (refSE.divide (SCEV.unknown 64 1) (SCEV.unknown 64 100)).2.isZero = false ∧
    (refSE.divide (SCEV.unknown 64 7) (SCEV.unknown 64 100)).2.isZero = false ∧
    ((fillArrayDimensionsSizes refSE 64 [] twoRangesArray).bind
        (fun r => cleanSubscripts refSE 64 r.2)).map (fun A => A.Elements) =
      some [{ callRange with IsValid := false }, secondRange,
            access 2 [SCEV.mulExpr [SCEV.unknown 64 100, SCEV.unknown 64 3], SCEV.unknown 64 4],
            access 3 [SCEV.mulExpr [SCEV.unknown 64 100, SCEV.unknown 64 5], SCEV.unknown 64 6]] ∧
    secondRange.IsValid = true ∧
    (fillArrayDimensionsSizes refSE 64 [] inferredEightArray).map
        (fun r => (r.2.Dims, r.2.Delinearized)) =
      some ([some SCEV.couldNotCompute, some (SCEV.constant 64 8)], true) ∧
    refSE.divide (SCEV.constant 64 10) (SCEV.constant 64 8) =
      (SCEV.constant 64 1, SCEV.constant 64 2) ∧
    ((fillArrayDimensionsSizes refSE 64 [] inferredEightArray).bind
        (fun r => cleanSubscripts refSE 64 r.2)).map (fun A => A.Elements) =
      some inferredEightArray.Elements :=
  ⟨rfl, rfl, rfl, rfl, rfl, rfl, rfl, rfl, rfl⟩


/-! ## The common-divisor property of `findGCD` -/

mutual
theorem beq_eq : ∀ (x y : SCEV), SCEV.beq x y = true → x = y
  | SCEV.constant t v, y => by
    cases y <;> simp [SCEV.beq]
  | SCEV.truncate op t, y => by
    cases y <;> simp [SCEV.beq]
    rename_i op2 t2
    intro h1 h2
    exact ⟨beq_eq op op2 h1, h2⟩
  | SCEV.zeroExtend op t, y => by
    cases y <;> simp [SCEV.beq]
    rename_i op2 t2
    intro h1 h2
    exact ⟨beq_eq op op2 h1, h2⟩
  | SCEV.signExtend op t, y => by
    cases y <;> simp [SCEV.beq]
    rename_i op2 t2
    intro h1 h2
    exact ⟨beq_eq op op2 h1, h2⟩
  | SCEV.addExpr ops, y => by
    cases y <;> simp [SCEV.beq]
    rename_i ops2
    exact beqList_eq ops ops2
  | SCEV.mulExpr ops, y => by
    cases y <;> simp [SCEV.beq]
    rename_i ops2
    exact beqList_eq ops ops2
  | SCEV.udivExpr l r, y => by
    cases y <;> simp [SCEV.beq]
    rename_i l2 r2
    intro h1 h2
    exact ⟨beq_eq l l2 h1, beq_eq r r2 h2⟩
  | SCEV.addRecExpr s t l, y => by
    cases y <;> simp [SCEV.beq]
    rename_i s2 t2 l2
    intro h1 h2 h3
    exact ⟨beq_eq s s2 h1, beq_eq t t2 h2, h3⟩
  | SCEV.umaxExpr ops, y => by
    cases y <;> simp [SCEV.beq]
    rename_i ops2
    exact beqList_eq ops ops2
  | SCEV.smaxExpr ops, y => by
    cases y <;> simp [SCEV.beq]
    rename_i ops2
    exact beqList_eq ops ops2
  | SCEV.unknown t i, y => by
    cases y <;> simp [SCEV.beq]
  | SCEV.couldNotCompute, y => by
    cases y <;> simp [SCEV.beq]
theorem beqList_eq : ∀ (xs ys : List SCEV), SCEV.beqList xs ys = true → xs = ys
  | [], ys => by
    cases ys <;> simp [SCEV.beqList]
  | x :: xs, ys => by
    cases ys with
    | nil => simp [SCEV.beqList]
    | cons y ys =>
      simp only [SCEV.beqList, Bool.and_eq_true, List.cons.injEq]
      intro h
      exact ⟨beq_eq x y h.1, beqList_eq xs ys h.2⟩
end

mutual
theorem beq_refl : ∀ x : SCEV, SCEV.beq x x = true
  | SCEV.constant t v => by simp [SCEV.beq]
  | SCEV.truncate op t => by simp [SCEV.beq, beq_refl op]
  | SCEV.zeroExtend op t => by simp [SCEV.beq, beq_refl op]
  | SCEV.signExtend op t => by simp [SCEV.beq, beq_refl op]
  | SCEV.addExpr ops => by simp [SCEV.beq, beqList_refl ops]
  | SCEV.mulExpr ops => by simp [SCEV.beq, beqList_refl ops]
  | SCEV.udivExpr l r => by simp [SCEV.beq, beq_refl l, beq_refl r]
  | SCEV.addRecExpr s t l => by simp [SCEV.beq, beq_refl s, beq_refl t]
  | SCEV.umaxExpr ops => by simp [SCEV.beq, beqList_refl ops]
  | SCEV.smaxExpr ops => by simp [SCEV.beq, beqList_refl ops]
  | SCEV.unknown t i => by simp [SCEV.beq]
  | SCEV.couldNotCompute => by simp [SCEV.beq]
theorem beqList_refl : ∀ xs : List SCEV, SCEV.beqList xs xs = true
  | [] => by simp [SCEV.beqList]
  | x :: xs => by simp [SCEV.beqList, beq_refl x, beqList_refl xs]
end

end Tsar
